import Mathlib

/-! # Dining philosophers simulation: embedding and verified properties

A shallow embedding of the C sources (`philo.h`, `actions.c`, `routine.c`,
`init_core.c`, `init.c`, `init_forks.c`, `init_utility_mutexes.c`,
`monitoring.c`, `utils.c`, `thread_management.c`, `cleanup_utils.c`, `main.c`).

Conventions of the embedding.

* A C function that mutates the table through a pointer becomes a function on
  `Sim`, the state seen by the thread that executes it: the table, the list of
  events the thread has performed so far (oldest first), the fork mutexes the
  thread currently holds and how many times it has consulted its surroundings.
  A philosopher is named by its index in `table.philos`.
* Everything a thread learns from outside comes from an `Env`: the value of
  its k-th clock reading, whether another thread has set the termination flag
  by the time of its k-th guarded read of it, what the other threads did to
  the philosopher records at its k-th scheduling point, and whether its k-th
  `malloc` / `pthread_mutex_init` / `pthread_create` call succeeds.
* `int` and `long long` values are `Int`; `int` arithmetic that can leave
  the range of `int` (in `ft_atoi`, and `meals_eaten++` in `eat`) wraps around
  (`wrap32`); 0/1 flags are `Bool`; a pointer to
  `table->forks[k]` is the slot index `k`; a `NULL` fork pointer is `none`; a
  `NULL` array pointer is the empty list.
* `pthread_mutex_lock` is taken to return; blocking on fork mutexes is the
  subject of the separate transition system `Ring`.
* A result `none` means that the call produces no result in the model: the
  polling budget `fuel` or the iteration budget is exhausted, or the C code
  would dereference a pointer outside its array or a `NULL` mutex.
-/

namespace Philo

/-! ## Data model (`philo.h`) -/

/-- Lifecycle states of a philosopher (`t_state`). -/
inductive t_state
  | EATING
  | SLEEPING
  | THINKING
  | DEAD
  | FULL
  deriving DecidableEq, Repr

/-- Per-philosopher record (`t_philo`); the thread handle and the back pointer
to the table are left out. -/
structure t_philo where
  id : Int
  meals_eaten : Int
  last_meal_time : Int
  thread_valid : Bool
  state : t_state
  left_fork : Nat
  right_fork : Option Nat
  deriving DecidableEq, Repr

/-- Shared table (`t_table`). `forks` holds, per slot of the allocated array,
whether its mutex is currently initialised. -/
structure t_table where
  num_philos : Int
  time_to_die : Int
  time_to_eat : Int
  time_to_sleep : Int
  num_must_eat : Int
  start_time : Int
  simulation_should_end : Bool
  philos : List t_philo
  forks : List Bool
  forks_initialized_count : Int
  print_mutex_initialized : Bool
  sim_end_mutex_initialized : Bool
  meal_time_mutex_initialized : Bool
  deriving DecidableEq, Repr

/-- The mutexes of the table: the fork at a slot of `table->forks`, and the
three utility mutexes. -/
inductive Mutex
  | fork (slot : Nat)
  | print
  | sim_end
  | meal_time
  deriving DecidableEq, Repr

/-- Observable operations of a thread, in program order: lock and unlock of a
fork mutex; lock and unlock of `meal_time_mutex`; the assignments to
`last_meal_time` and `meals_eaten` of philosopher `id` made in `eat` (with the
values stored); a line `<time_ms> <id> <text>` printed by `print_status`; any
other line printed; a call `usleep(us)`; creation (`pthread_create`) and
`pthread_join` of the thread of the philosopher at index `idx`; a successful
`pthread_mutex_init` and a `pthread_mutex_destroy` of a mutex; the
`pthread_join` of the monitor thread. -/
inductive Event
  | fork_lock (slot : Nat)
  | fork_unlock (slot : Nat)
  | meal_lock
  | meal_write (id : Int) (last_meal_time : Int) (meals_eaten : Int)
  | meal_unlock
  | status (time_ms : Int) (id : Int) (text : String)
  | message (text : String)
  | usleep (us : Nat)
  | thread_create (idx : Nat)
  | thread_join (idx : Nat)
  | mutex_init (m : Mutex)
  | mutex_destroy (m : Mutex)
  | monitor_join
  deriving DecidableEq, Repr

/-- What the surroundings of a thread answer: `flag_raised k` tells whether
another thread has stored 1 in `simulation_should_end` by the time of the
thread's `k`-th guarded read of it, `clock k` is the value of its `k`-th call
of `get_time_ms`, `actors k` is what the other threads have done to the
philosopher records by its `k`-th scheduling point, and the last three tell
whether its `k`-th call of `malloc`, `pthread_mutex_init` and `pthread_create`
succeeds. -/
structure Env where
  flag_raised : Nat → Bool
  clock : Nat → Int
  actors : Nat → List t_philo → List t_philo
  malloc_ok : Nat → Bool
  mutex_init_ok : Nat → Bool
  pthread_create_ok : Nat → Bool

/-- State of the simulation as seen by the executing thread: the table, the
events performed so far (oldest first), the fork slots whose mutex the thread
has locked and not unlocked, and the number of guarded flag reads, clock
readings, scheduling points and library calls made so far. -/
structure Sim where
  table : t_table
  trace : List Event
  held : List Nat
  flag_reads : Nat
  clock_reads : Nat
  yields : Nat
  mallocs : Nat
  mutex_inits : Nat
  thread_creates : Nat
  deriving DecidableEq, Repr

/-- A fresh thread view of table `t`: nothing done, nothing held. -/
def Sim.start (t : t_table) : Sim :=
  { table := t, trace := [], held := [], flag_reads := 0, clock_reads := 0,
    yields := 0, mallocs := 0, mutex_inits := 0, thread_creates := 0 }

/-- Surroundings in which no other thread interferes, every library call
succeeds and the clock advances by one millisecond per reading. -/
def Env.quiet : Env :=
  { flag_raised := fun _ => false, clock := fun k => (k : Int),
    actors := fun _ ps => ps, malloc_ok := fun _ => true,
    mutex_init_ok := fun _ => true, pthread_create_ok := fun _ => true }

/-! ## Primitive operations -/

/-- Append one event to the trace. -/
def emit (e : Event) (s : Sim) : Sim :=
  { s with trace := s.trace ++ [e] }

/-- Replace the record of philosopher `i`. -/
def set_philo (i : Nat) (p : t_philo) (s : Sim) : Sim :=
  { s with table := { s.table with philos := s.table.philos.set i p } }

/-- Successful `pthread_mutex_lock` on fork slot `k`. -/
def lock_fork (k : Nat) (s : Sim) : Sim :=
  emit (.fork_lock k) { s with held := k :: s.held }

/-- Call of `pthread_mutex_unlock` on fork slot `k`. -/
def unlock_fork (k : Nat) (s : Sim) : Sim :=
  emit (.fork_unlock k) { s with held := s.held.erase k }

/-- Scheduling point: the other threads have run. -/
def yield (env : Env) (s : Sim) : Sim :=
  { s with table := { s.table with philos := env.actors s.yields s.table.philos },
           yields := s.yields + 1 }

/-! ## `utils.c` -/

/-- Current time in milliseconds (`get_time_ms`): the next clock reading. -/
def get_time_ms (env : Env) (s : Sim) : Int × Sim :=
  (env.clock s.clock_reads, { s with clock_reads := s.clock_reads + 1 })

/-- Guarded read of `simulation_should_end` (`is_simulation_over`). A write of
the flag by another thread becomes visible here; since every writer stores 1,
the stored flag can only have gone from false to true. -/
def is_simulation_over (env : Env) (s : Sim) : Bool × Sim :=
  let v := s.table.simulation_should_end || env.flag_raised s.flag_reads
  (v, { s with table := { s.table with simulation_should_end := v },
               flag_reads := s.flag_reads + 1 })

/-- Status line of philosopher `i` (`print_status`). The first test reads the
flag under `sim_end_mutex` exactly as `is_simulation_over` does. -/
def print_status (env : Env) (i : Nat) (status : String) (override_sim_end : Bool)
    (s : Sim) : Option Sim :=
  match s.table.philos[i]? with
  | none => none
  | some philo =>
    let r := is_simulation_over env s
    if r.1 && !override_sim_end then some r.2
    else
      let c := get_time_ms env r.2
      let time_ms := c.1 - c.2.table.start_time
      let o := is_simulation_over env c.2
      if !o.1 || override_sim_end then
        some (emit (.status time_ms philo.id status) o.2)
      else some o.2

/-- Polling loop of `precise_usleep`; `fuel` bounds the number of polls. -/
def precise_usleep_loop (env : Env) (time_ms start : Int) : Nat → Sim → Option Sim
  | 0, _ => none
  | fuel + 1, s =>
    let o := is_simulation_over env s
    if o.1 then some o.2
    else
      let c := get_time_ms env o.2
      let elapsed := c.1 - start
      if elapsed ≥ time_ms then some c.2
      else precise_usleep_loop env time_ms start fuel (emit (.usleep 500) c.2)

/-- Interruptible wait (`precise_usleep`). -/
def precise_usleep (env : Env) (fuel : Nat) (time_ms : Int) (s : Sim) : Option Sim :=
  let c := get_time_ms env s
  precise_usleep_loop env time_ms c.1 fuel c.2

/-! ## `actions.c` -/

/-- Release of the forks (`drop_forks`): right first when it exists, then left. -/
def drop_forks (i : Nat) (s : Sim) : Option Sim :=
  match s.table.philos[i]? with
  | none => none
  | some philo =>
    let s1 := match philo.right_fork with
      | some r => unlock_fork r s
      | none => s
    some (unlock_fork philo.left_fork s1)

/-- Acquisition of the two forks (`take_forks`). -/
def take_forks (env : Env) (i : Nat) (s : Sim) : Option Sim :=
  match s.table.philos[i]? with
  | none => none
  | some philo =>
    if Int.tmod philo.id 2 = 0 then
      (print_status env i "has taken a fork" false (lock_fork philo.left_fork s)).bind
        fun s1 =>
          match philo.right_fork with
          | none => none
          | some r => print_status env i "has taken a fork" false (lock_fork r s1)
    else
      match philo.right_fork with
      | none => none
      | some r =>
        (print_status env i "has taken a fork" false (lock_fork r s)).bind
          fun s1 => print_status env i "has taken a fork" false (lock_fork philo.left_fork s1)

/-- Value of a C `int` expression whose mathematical value is `x`, with two's
complement wrap-around. -/
def wrap32 (x : Int) : Int :=
  (x + 2147483648) % 4294967296 - 2147483648

/-- Guarded update of the meal data in `eat`: `last_meal_time = get_time_ms()`
and `meals_eaten++`, the latter on an `int`. -/
def record_meal (env : Env) (i : Nat) (s : Sim) : Option Sim :=
  match s.table.philos[i]? with
  | none => none
  | some philo =>
    let s1 := emit .meal_lock s
    let c := get_time_ms env s1
    let philo1 := { philo with last_meal_time := c.1,
                               meals_eaten := wrap32 (philo.meals_eaten + 1) }
    let s2 := emit (.meal_write philo1.id philo1.last_meal_time philo1.meals_eaten)
      (set_philo i philo1 c.2)
    some (emit .meal_unlock s2)

/-- Assignment `philo->state = st`. -/
def set_state (i : Nat) (st : t_state) (s : Sim) : Option Sim :=
  match s.table.philos[i]? with
  | none => none
  | some philo => some (set_philo i { philo with state := st } s)

/-- Eating phase (`eat`). -/
def eat (env : Env) (fuel : Nat) (i : Nat) (s : Sim) : Option Sim :=
  let o := is_simulation_over env s
  if o.1 then some o.2
  else
    (print_status env i "is eating" false o.2).bind fun s1 =>
    (set_state i .EATING s1).bind fun s2 =>
    (record_meal env i s2).bind fun s3 =>
    (precise_usleep env fuel s3.table.time_to_eat s3).bind fun s4 =>
    (drop_forks i s4).bind fun s5 =>
    set_state i .SLEEPING s5

/-- Sleeping phase (`sleep_philo`). -/
def sleep_philo (env : Env) (fuel : Nat) (i : Nat) (s : Sim) : Option Sim :=
  let o := is_simulation_over env s
  if o.1 then some o.2
  else
    (print_status env i "is sleeping" false o.2).bind fun s1 =>
    precise_usleep env fuel s1.table.time_to_sleep s1

/-- Thinking phase (`think`). -/
def think (env : Env) (fuel : Nat) (i : Nat) (s : Sim) : Option Sim :=
  let o := is_simulation_over env s
  if o.1 then some o.2
  else
    (print_status env i "is thinking" false o.2).bind fun s1 =>
    (set_state i .THINKING s1).bind fun s2 =>
    if s2.table.num_philos > 1 ∧ s2.table.time_to_eat > s2.table.time_to_sleep then
      let think_time0 := Int.tdiv (s2.table.time_to_eat - s2.table.time_to_sleep) 2
      let think_time := if think_time0 ≤ 0 then 1 else think_time0
      match s2.table.philos[i]? with
      | none => none
      | some philo =>
        let c := get_time_ms env (emit .meal_lock s2)
        let time_since_last_meal := c.1 - philo.last_meal_time
        let s3 := emit .meal_unlock c.2
        if time_since_last_meal + think_time < s3.table.time_to_die then
          precise_usleep env fuel think_time s3
        else some s3
    else some s2

/-! ## `routine.c` -/

/-- Routine of a lone philosopher (`handle_single_philosopher`). -/
def handle_single_philosopher (env : Env) (fuel : Nat) (i : Nat) (s : Sim) : Option Sim :=
  (print_status env i "has taken a fork" false s).bind fun s1 =>
  precise_usleep env fuel (s1.table.time_to_die * 2) s1

/-- One cycle of a philosopher (`perform_cycle_actions`); the first component
is the returned `int`. -/
def perform_cycle_actions (env : Env) (fuel : Nat) (i : Nat) (s : Sim) : Option (Int × Sim) :=
  (take_forks env i s).bind fun s1 =>
  let o1 := is_simulation_over env s1
  if o1.1 then (drop_forks i o1.2).map fun s2 => (1, s2)
  else
    (eat env fuel i o1.2).bind fun s3 =>
    let o2 := is_simulation_over env s3
    if o2.1 then some (1, o2.2)
    else
      (sleep_philo env fuel i o2.2).bind fun s4 =>
      let o3 := is_simulation_over env s4
      if o3.1 then some (1, o3.2)
      else (think env fuel i o3.2).map fun s5 => (0, s5)

/-- The `while` loop of `philosopher_routine`; `cycles` bounds the iterations. -/
def philosopher_loop (env : Env) (fuel : Nat) (i : Nat) : Nat → Sim → Option Sim
  | 0, _ => none
  | cycles + 1, s =>
    let o := is_simulation_over env s
    if o.1 then some o.2
    else
      match perform_cycle_actions env fuel i o.2 with
      | none => none
      | some (r, s1) =>
        if r ≠ 0 then some s1 else philosopher_loop env fuel i cycles s1

/-- Thread body of a philosopher (`philosopher_routine`). -/
def philosopher_routine (env : Env) (fuel cycles : Nat) (i : Nat) (s : Sim) : Option Sim :=
  match s.table.philos[i]? with
  | none => none
  | some philo =>
    let s0 := if Int.tmod philo.id 2 = 0 then
        precise_usleep env fuel (Int.tdiv s.table.time_to_eat 10) s
      else some s
    s0.bind fun s1 =>
      if s1.table.num_philos = 1 then handle_single_philosopher env fuel i s1
      else philosopher_loop env fuel i cycles s1

/-! ## `init_core.c` -/

/-- Record written for index `i` by the loop body of `init_philos`. -/
def init_philo_record (num_philos : Int) (i : Nat) : t_philo :=
  let philo : t_philo :=
    { id := (i : Int) + 1, meals_eaten := 0, last_meal_time := 0, thread_valid := false,
      state := .THINKING, left_fork := i,
      right_fork := some ((i + 1) % num_philos.toNat) }
  if num_philos = 1 then { philo with right_fork := none } else philo

/-- Allocation and wiring of the philosopher records (`init_philos`); the
first component is the returned `int`. -/
def init_philos (env : Env) (s : Sim) : Int × Sim :=
  let ok := env.malloc_ok s.mallocs
  let s0 := { s with mallocs := s.mallocs + 1 }
  if !ok then
    (1, emit (.message "Error: Malloc failed for philosophers.")
      { s0 with table := { s0.table with philos := [] } })
  else
    (0, { s0 with table := { s0.table with
      philos := (List.range s0.table.num_philos.toNat).map
        (init_philo_record s0.table.num_philos) } })

/-! ## Lock protocol of the ring

The fork mutexes with all philosophers running: each philosopher repeats the
fork operations of one cycle (`take_forks`, later `drop_forks`), a lock
operation being possible only on a free mutex. -/

/-- Whether an event is an operation on a fork mutex. -/
def Event.is_fork_op : Event → Bool
  | .fork_lock _ => true
  | .fork_unlock _ => true
  | _ => false

/-- Fork operations that philosopher `i` performs in one cycle, in program
order, read off the trace of `take_forks` followed by `drop_forks`. -/
def cycle_fork_ops (t : t_table) (i : Nat) : List Event :=
  match (take_forks Env.quiet i (Sim.start t)).bind (drop_forks i) with
  | none => []
  | some s => s.trace.filter Event.is_fork_op

/-- Fork mutexes and philosophers' positions: `pc i` counts the fork
operations of its current cycle that philosopher `i` has performed, `owner k`
is the philosopher holding slot `k`. -/
structure Ring where
  pc : Nat → Nat
  owner : Nat → Option Nat

/-- Everybody at the start of a cycle, every mutex free. -/
def Ring.init : Ring :=
  { pc := fun _ => 0, owner := fun _ => none }

/-- Pointwise update of a function on indices. -/
def upd {α : Type} (f : Nat → α) (a : Nat) (v : α) : Nat → α :=
  fun x => if x = a then v else f x

/-- Next fork operation of philosopher `i`; `none` when it cannot proceed
(the mutex it wants is taken). -/
def ring_step (t : t_table) (i : Nat) (st : Ring) : Option Ring :=
  let ops := cycle_fork_ops t i
  let next := if st.pc i + 1 = ops.length then 0 else st.pc i + 1
  match ops[st.pc i]? with
  | some (.fork_lock k) =>
    if st.owner k = none then
      some { pc := upd st.pc i next, owner := upd st.owner k (some i) }
    else none
  | some (.fork_unlock k) =>
    some { pc := upd st.pc i next, owner := upd st.owner k none }
  | _ => none

/-- Run a schedule (the philosophers in the order in which they get a turn);
the turn of a philosopher that cannot proceed is lost. -/
def ring_run (t : t_table) : List Nat → Ring → Ring
  | [], st => st
  | i :: rest, st => ring_run t rest ((ring_step t i st).getD st)

/-- Slot that philosopher `i` is about to lock, if its next fork operation is
a lock. -/
def next_lock (t : t_table) (st : Ring) (i : Nat) : Option Nat :=
  match (cycle_fork_ops t i)[st.pc i]? with
  | some (.fork_lock b) => some b
  | _ => none

/-- Philosopher `i` owns some fork slot. -/
def holds_a_fork (n : Nat) (st : Ring) (i : Nat) : Bool :=
  (List.range n).any fun a => decide (st.owner a = some i)

/-- Philosopher `i` is about to lock a fork that another philosopher owns. -/
def waits_for_other (t : t_table) (st : Ring) (i : Nat) : Bool :=
  match next_lock t st i with
  | none => false
  | some b =>
    match st.owner b with
    | none => false
    | some j => decide (j ≠ i)

/-- Every philosopher holds a fork and waits for one held by another. -/
def circular_wait (t : t_table) (n : Nat) (st : Ring) : Bool :=
  (List.range n).all fun i => holds_a_fork n st i && waits_for_other t st i

/-- Table of `n` philosophers as `init_philos` leaves it (other fields 0). -/
def ring_table (n : Nat) : t_table :=
  (init_philos Env.quiet (Sim.start
    { num_philos := (n : Int), time_to_die := 0, time_to_eat := 0, time_to_sleep := 0,
      num_must_eat := 0, start_time := 0, simulation_should_end := false, philos := [],
      forks := [], forks_initialized_count := 0, print_mutex_initialized := false,
      sim_end_mutex_initialized := false, meal_time_mutex_initialized := false })).2.table


/-! ## Specification vocabulary -/

/-- The step from `s` to `s1` only consulted the surroundings and appended
events satisfying `P`: configuration, records and held forks are the same and
the termination flag was at most raised. -/
structure Observes (P : Event → Prop) (s s1 : Sim) : Prop where
  table_eq : s1.table = { s.table with simulation_should_end := s1.table.simulation_should_end }
  flag_mono : s.table.simulation_should_end = true → s1.table.simulation_should_end = true
  held_eq : s1.held = s.held
  trace_ext : ∃ evs, s1.trace = s.trace ++ evs ∧ ∀ e ∈ evs, P e

/-- Shape of a call of `take_forks` by philosopher `id` that locks `a` first
and `b` second: only status lines of that philosopher in between. -/
structure TakesForks (id : Int) (a b : Nat) (s s1 : Sim) : Prop where
  table_eq : s1.table = { s.table with simulation_should_end := s1.table.simulation_should_end }
  flag_mono : s.table.simulation_should_end = true → s1.table.simulation_should_end = true
  held_eq : s1.held = b :: a :: s.held
  trace_ext : ∃ evs1 evs2,
    s1.trace = s.trace ++ ([.fork_lock a] ++ evs1 ++ [.fork_lock b] ++ evs2) ∧
    ∀ e ∈ evs1 ++ evs2, ∃ t, e = .status t id "has taken a fork"

/-- Slot that philosopher `i` of a ring of `n` locks first: its left fork `i`
when its id `i + 1` is even, else its right fork. -/
def ring_first (n i : Nat) : Nat :=
  if i % 2 = 1 then i else (i + 1) % n

/-- Slot that philosopher `i` of a ring of `n` locks second. -/
def ring_second (n i : Nat) : Nat :=
  if i % 2 = 1 then (i + 1) % n else i

/-- Consistency of mutex owners and positions in a ring of `n`: a
philosopher's position is below 4, every owned slot is one its owner has
locked and not yet unlocked, and conversely. -/
structure RingInv (n : Nat) (st : Ring) : Prop where
  pc_lt : ∀ i, st.pc i < 4
  owned : ∀ k j, st.owner k = some j → j < n ∧
    ((st.pc j = 1 ∧ k = ring_first n j) ∨
     (st.pc j = 2 ∧ (k = ring_first n j ∨ k = ring_second n j)) ∨
     (st.pc j = 3 ∧ k = j))
  holds : ∀ i, i < n →
    (st.pc i = 1 → st.owner (ring_first n i) = some i) ∧
    (st.pc i = 2 → st.owner (ring_first n i) = some i ∧ st.owner (ring_second n i) = some i) ∧
    (st.pc i = 3 → st.owner i = some i)

/-- Slots of the lock operations in a list of events, in order. -/
def fork_locks : List Event → List Nat
  | [] => []
  | .fork_lock k :: rest => k :: fork_locks rest
  | _ :: rest => fork_locks rest

/-- Slots that philosopher `i` locks in a call of `take_forks`, in order. -/
def lock_order (env : Env) (i : Nat) (s : Sim) : List Nat :=
  match take_forks env i s with
  | none => []
  | some s1 => fork_locks (s1.trace.drop s.trace.length)

/-- Philosopher `i` locks its left fork first and its right fork second. -/
def acquires_left_then_right (env : Env) (i : Nat) (s : Sim) : Bool :=
  match s.table.philos[i]? with
  | none => false
  | some philo =>
    match philo.right_fork with
    | none => false
    | some r => decide (lock_order env i s = [philo.left_fork, r])

/-- Philosopher `i` locks its right fork first and its left fork second. -/
def acquires_right_then_left (env : Env) (i : Nat) (s : Sim) : Bool :=
  match s.table.philos[i]? with
  | none => false
  | some philo =>
    match philo.right_fork with
    | none => false
    | some r => decide (lock_order env i s = [r, philo.left_fork])

/-- One of the philosophers `i`, `j` acquires left-then-right and the other
right-then-left. -/
def opposite_orders (env : Env) (s : Sim) (i j : Nat) : Bool :=
  (acquires_left_then_right env i s && acquires_right_then_left env j s) ||
  (acquires_right_then_left env i s && acquires_left_then_right env j s)

/-! ## `monitoring.c` -/

/-- Starvation check of philosopher `i` (`check_death`); the first component
is the returned `int`. The test of the flag under `sim_end_mutex` is a guarded
read like `is_simulation_over`. -/
def check_death (env : Env) (i : Nat) (s : Sim) : Option (Int × Sim) :=
  match s.table.philos[i]? with
  | none => none
  | some philo =>
    let c := get_time_ms env (emit .meal_lock s)
    let time_since_last_meal := c.1 - philo.last_meal_time
    let s1 := emit .meal_unlock c.2
    if time_since_last_meal > s1.table.time_to_die then
      let r := is_simulation_over env s1
      if !r.1 then
        let s2 := { r.2 with table := { r.2.table with simulation_should_end := true } }
        (print_status env i "died" true s2).bind fun s3 =>
        (set_state i .DEAD s3).map fun s4 => (1, s4)
      else some (1, r.2)
    else some (0, s1)

/-- Helper of `check_all_full` (`is_philo_not_full_and_sim_running`). -/
def is_philo_not_full_and_sim_running (env : Env) (i : Nat) (s : Sim) : Option (Int × Sim) :=
  match s.table.philos[i]? with
  | none => none
  | some philo =>
    let s1 := emit .meal_lock s
    if philo.meals_eaten < s1.table.num_must_eat then some (1, emit .meal_unlock s1)
    else
      let s2 := emit .meal_unlock s1
      let r := is_simulation_over env s2
      if !r.1 then some (0, set_philo i { philo with state := .FULL } r.2)
      else some (0, r.2)

/-- Helper of `check_all_full` (`finalize_if_all_full`). -/
def finalize_if_all_full (env : Env) (all_philos_are_full_flag : Int) (s : Sim) : Int × Sim :=
  if all_philos_are_full_flag ≠ 0 then
    let r := is_simulation_over env s
    if !r.1 then (1, { r.2 with table := { r.2.table with simulation_should_end := true } })
    else (1, r.2)
  else (0, s)

/-- The `while` loop of `check_all_full` with `remaining` iterations to go
from index `i`; the first component is `all_philos_considered_full`. -/
def check_all_full_loop (env : Env) : Nat → Nat → Sim → Option (Int × Sim)
  | 0, _, s => some (1, s)
  | remaining + 1, i, s =>
    match is_philo_not_full_and_sim_running env i s with
    | none => none
    | some (r, s1) =>
      if r ≠ 0 then some (0, s1) else check_all_full_loop env remaining (i + 1) s1

/-- Completion check (`check_all_full`); the first component is the returned
`int`. -/
def check_all_full (env : Env) (s : Sim) : Option (Int × Sim) :=
  if s.table.num_must_eat = -1 then some (0, s)
  else
    (check_all_full_loop env s.table.num_philos.toNat 0 s).map fun r =>
      finalize_if_all_full env r.1 r.2

/-- The three `return` statements of `monitoring_routine`. -/
inductive MonitorExit
  | death
  | all_full
  | flag_seen
  deriving DecidableEq, Repr

/-- Inner `while` loop of `monitoring_routine` with `remaining` philosophers
to check from index `i`; `some e` when the routine returns from inside the
loop. The other threads run before each of the two checks. -/
def monitor_sweep (env : Env) : Nat → Nat → Sim → Option (Option MonitorExit × Sim)
  | 0, _, s => some (none, s)
  | remaining + 1, i, s =>
    match check_death env i (yield env s) with
    | none => none
    | some (d, s1) =>
      if d ≠ 0 then some (some .death, s1)
      else
        match check_all_full env (yield env s1) with
        | none => none
        | some (f, s2) =>
          if f ≠ 0 then some (some .all_full, s2)
          else monitor_sweep env remaining (i + 1) s2

/-- Thread body of the monitor (`monitoring_routine`) run for at most `fuel`
sweeps. The first component is `some e` when the routine has returned, `e`
naming the `return` statement taken, and `none` when it is still running after
`fuel` sweeps. -/
def monitoring_routine (env : Env) : Nat → Sim → Option (Option MonitorExit × Sim)
  | 0, s => some (none, s)
  | fuel + 1, s =>
    match monitor_sweep env s.table.num_philos.toNat 0 s with
    | none => none
    | some (some e, s1) => some (some e, s1)
    | some (none, s1) =>
      let o := is_simulation_over env (emit (.usleep 1000) s1)
      if o.1 then some (some .flag_seen, o.2) else monitoring_routine env fuel o.2

/-! ## `thread_management.c` -/

/-- Joins of `handle_thread_creation_error` for indices `j`, `j + 1`, ... -/
def join_created (remaining : Nat) (j : Nat) (s : Sim) : Option Sim :=
  match remaining with
  | 0 => some s
  | remaining + 1 =>
    match s.table.philos[j]? with
    | none => none
    | some philo =>
      join_created remaining (j + 1) (if philo.thread_valid then emit (.thread_join j) s else s)

/-- Failure path of thread creation (`handle_thread_creation_error`). -/
def handle_thread_creation_error (failed_philo_idx num_created_threads : Nat) (s : Sim) :
    Option Sim :=
  let s1 := emit (.message ("Error: pthread_create failed for philo " ++
    toString (failed_philo_idx + 1))) s
  let s2 := { s1 with table := { s1.table with simulation_should_end := true } }
  join_created num_created_threads 0 s2

/-- The `while` loop of `create_philosopher_threads` with `remaining`
iterations to go from index `i`. -/
def create_philosopher_threads_loop (env : Env) (start_time : Int) :
    Nat → Nat → Sim → Option (Int × Sim)
  | 0, _, s => some (0, s)
  | remaining + 1, i, s =>
    match s.table.philos[i]? with
    | none => none
    | some philo =>
      let s1 := set_philo i { philo with last_meal_time := start_time } s
      let ok := env.pthread_create_ok s1.thread_creates
      let s2 := { s1 with thread_creates := s1.thread_creates + 1 }
      if !ok then (handle_thread_creation_error i i s2).map fun s3 => (1, s3)
      else
        let s3 := set_philo i { philo with last_meal_time := start_time, thread_valid := true }
          (emit (.thread_create i) s2)
        create_philosopher_threads_loop env start_time remaining (i + 1) s3

/-- Creation of the philosopher threads (`create_philosopher_threads`). -/
def create_philosopher_threads (env : Env) (start_time : Int) (s : Sim) : Option (Int × Sim) :=
  create_philosopher_threads_loop env start_time s.table.num_philos.toNat 0 s

/-- Creation of the monitor thread (`create_monitor_thread`). -/
def create_monitor_thread (env : Env) (s : Sim) : Int × Sim :=
  let ok := env.pthread_create_ok s.thread_creates
  let s1 := { s with thread_creates := s.thread_creates + 1 }
  if !ok then
    (1, { emit (.message "Error: pthread_create failed for monitor thread") s1 with
      table := { s1.table with simulation_should_end := true } })
  else (0, s1)

/-- Start of all threads (`launch_threads`). -/
def launch_threads (env : Env) (s : Sim) : Option (Int × Sim) :=
  let c := get_time_ms env s
  let start_time := c.1
  let s1 := { c.2 with table := { c.2.table with start_time := start_time } }
  match create_philosopher_threads env start_time s1 with
  | none => none
  | some (r, s2) =>
    if r ≠ 0 then some (1, s2)
    else
      let m := create_monitor_thread env s2
      if m.1 ≠ 0 then some (1, m.2) else some (0, m.2)

/-! ## `utils.c`: `ft_atoi`, and `init.c` -/

/-- Whitespace test of `ft_atoi`: space or `\t` .. `\r`. -/
def ft_isspace (c : Char) : Bool :=
  c = ' ' || (9 ≤ c.toNat && c.toNat ≤ 13)

/-- Digit loop of `ft_atoi`. -/
def ft_atoi_digits : List Char → Int → Int
  | [], result => result
  | c :: rest, result =>
    if 48 ≤ c.toNat ∧ c.toNat ≤ 57 then
      ft_atoi_digits rest (wrap32 (result * 10 + ((c.toNat : Int) - 48)))
    else result

/-- String to `int` conversion (`ft_atoi`) on the characters before the
terminating NUL. -/
def ft_atoi (str : List Char) : Int :=
  let rest := str.dropWhile ft_isspace
  match rest with
  | '-' :: digits => wrap32 (ft_atoi_digits digits 0 * -1)
  | '+' :: digits => wrap32 (ft_atoi_digits digits 0 * 1)
  | _ => wrap32 (ft_atoi_digits rest 0 * 1)

/-- Usage text (`print_usage`). -/
def print_usage (s : Sim) : Sim :=
  emit (.message "All time arguments should be in milliseconds.")
    (emit (.message ("Usage: ./philo number_of_philosophers time_to_die time_to_eat " ++
      "time_to_sleep [number_of_times_each_philosopher_must_eat]")) s)

/-- Argument parsing and validation (`parse_args`); `argv` includes the
program name at index 0. -/
def parse_args (argc : Int) (argv : List String) (s : Sim) : Option (Int × Sim) :=
  match argv[1]?, argv[2]?, argv[3]?, argv[4]? with
  | some a1, some a2, some a3, some a4 =>
    let t1 := { s.table with
      num_philos := ft_atoi a1.toList, time_to_die := ft_atoi a2.toList,
      time_to_eat := ft_atoi a3.toList, time_to_sleep := ft_atoi a4.toList }
    let t2 : Option t_table :=
      if argc = 6 then argv[5]?.map fun a5 => { t1 with num_must_eat := ft_atoi a5.toList }
      else some { t1 with num_must_eat := -1 }
    t2.map fun t =>
      let s1 := { s with table := t }
      if t.num_philos ≤ 0 ∨ t.time_to_die ≤ 0 ∨ t.time_to_eat ≤ 0 ∨ t.time_to_sleep ≤ 0 ∨
          (argc = 6 ∧ t.num_must_eat ≤ 0) then
        (1, print_usage (emit (.message "Error: Invalid arguments.") s1))
      else if t.num_philos > 200 then
        (1, emit (.message "Error: Number of philosophers cannot exceed 200.") s1)
      else (0, s1)
  | _, _, _, _ => none

/-- Initialisation of the table from the arguments (`init_table`). -/
def init_table (argc : Int) (argv : List String) (s : Sim) : Option (Int × Sim) :=
  (parse_args argc argv s).map fun r =>
    if r.1 ≠ 0 then (1, r.2)
    else
      (0, { r.2 with table := { r.2.table with
        start_time := 0, simulation_should_end := false, philos := [], forks := [],
        forks_initialized_count := 0, print_mutex_initialized := false,
        sim_end_mutex_initialized := false, meal_time_mutex_initialized := false } })

/-- Philosopher `j` has eaten fewer meals than the quota. -/
def is_short (s : Sim) (j : Nat) : Bool :=
  match s.table.philos[j]? with
  | none => false
  | some p => decide (p.meals_eaten < s.table.num_must_eat)

/-- Effect of the loop of `check_all_full` from `s` to `s1`: the quota, the
number of records and every meal count are the same, the flag is not lowered
(and is the same when no other thread raises it), and only the meal lock was
operated: nothing was printed. -/
structure Sweeps (env : Env) (s s1 : Sim) : Prop where
  quota_eq : s1.table.num_must_eat = s.table.num_must_eat
  length_eq : s1.table.philos.length = s.table.philos.length
  meals_eq : ∀ j : Nat, Option.map t_philo.meals_eaten s1.table.philos[j]? =
    Option.map t_philo.meals_eaten s.table.philos[j]?
  flag_mono : s.table.simulation_should_end = true → s1.table.simulation_should_end = true
  flag_same : (∀ k, env.flag_raised k = false) →
    s1.table.simulation_should_end = s.table.simulation_should_end
  trace_ext : ∃ evs, s1.trace = s.trace ++ evs ∧ ∀ e ∈ evs, e = .meal_lock ∨ e = .meal_unlock

/-- The event is a nap of the polling loop of `precise_usleep`. -/
def Event.is_nap (e : Event) : Prop := e = .usleep 500

/-- A wait of `time_ms` that starts when the caller has made `f` flag reads
and `c` clock reads ends within `fuel` polls: at some poll the flag has been
raised or the clock shows that `time_ms` have elapsed. -/
def wait_completes (env : Env) (fuel : Nat) (time_ms : Int) (f c : Nat) : Prop :=
  ∃ k, k < fuel ∧
    (env.flag_raised (f + k) = true ∨ time_ms ≤ env.clock (c + 1 + k) - env.clock c)

/-- Surroundings like `Env.quiet` in which another thread sets the
termination flag just before this thread's `k`-th guarded read of it (counting
from 0). -/
def Env.raise_at (k : Nat) : Env :=
  { Env.quiet with flag_raised := fun n => decide (k ≤ n) }

/-- The termination flag is not lowered from `s` to `s1`. -/
def keeps_flag (s s1 : Sim) : Prop :=
  s.table.simulation_should_end = true → s1.table.simulation_should_end = true

/-- Whether an event is a "died" status line. -/
def Event.is_died : Event → Bool
  | .status _ _ text => decide (text = "died")
  | _ => false

/-- Number of "died" lines in a trace. -/
def died_lines (l : List Event) : Nat :=
  (l.filter Event.is_died).length

/-- A stretch of the monitor from `s` to `s1` in which no "died" line is
printed and the monitor itself does not write the flag. -/
structure QuietStep (env : Env) (s s1 : Sim) : Prop where
  keeps : keeps_flag s s1
  died_eq : died_lines s1.trace = died_lines s.trace
  flag_same : (∀ k, env.flag_raised k = false) →
    s1.table.simulation_should_end = s.table.simulation_should_end

/-- A stretch of the monitor from `s` to `s1` that ends with exit `e`
(`none`: still running): at most one "died" line, none unless the exit is
the death check, exactly one for the death check when the flag was false at
`s` and no other thread raises it. -/
structure MonitorRun (env : Env) (s s1 : Sim) (e : Option MonitorExit) : Prop where
  keeps : keeps_flag s s1
  at_most : died_lines s1.trace ≤ died_lines s.trace + 1
  other : e ≠ some .death → died_lines s1.trace = died_lines s.trace
  death : e = some .death → s.table.simulation_should_end = false →
    (∀ k, env.flag_raised k = false) → died_lines s1.trace = died_lines s.trace + 1
  running : e = none → (∀ k, env.flag_raised k = false) →
    s1.table.simulation_should_end = s.table.simulation_should_end

/-- From `s` to `s1` the executing thread has not written the termination
flag: the flag is not lowered, and it is the same when no other thread raises
it. -/
structure FlagStep (env : Env) (s s1 : Sim) : Prop where
  keeps : keeps_flag s s1
  untouched : (∀ k, env.flag_raised k = false) →
    s1.table.simulation_should_end = s.table.simulation_should_end

/-- The `k`-th poll (counting from 0) of a `precise_usleep (time_ms)` entered
in state `s` finds the termination flag true or the time elapsed: the stored
flag is true, or another thread has raised it by the `k`-th flag read of the
wait, or the `k`-th clock reading of the loop is at least `time_ms` after the
reading taken at entry. -/
def poll_ends (env : Env) (time_ms : Int) (s : Sim) (k : Nat) : Prop :=
  s.table.simulation_should_end = true ∨ env.flag_raised (s.flag_reads + k) = true ∨
    time_ms ≤ env.clock (s.clock_reads + 1 + k) - env.clock s.clock_reads

instance (env : Env) (time_ms : Int) (s : Sim) (k : Nat) :
    Decidable (poll_ends env time_ms s k) := by
  unfold poll_ends
  infer_instance


/-- Meal data of the records of `s`, in index order: `meals_eaten` and
`last_meal_time` of each philosopher. -/
def meal_data (s : Sim) : List (Int × Int) :=
  s.table.philos.map fun p => (p.meals_eaten, p.last_meal_time)

/-- From `s` to `s1` no meal datum has changed and the clock readings made
are not fewer. -/
structure MealsKept (s s1 : Sim) : Prop where
  data_eq : meal_data s1 = meal_data s
  reads_le : s.clock_reads ≤ s1.clock_reads

/-- Every meal count of `s` is non-negative and every stored `last_meal_time`
is at most each clock reading still to come. -/
def meal_inv (env : Env) (s : Sim) : Prop :=
  ∀ d ∈ meal_data s, 0 ≤ d.1 ∧ ∀ k, s.clock_reads ≤ k → d.2 ≤ env.clock k

/-- From `s` to `s1` the records are as many, no `meals_eaten` and no
`last_meal_time` has decreased, every meal count is non-negative, and
`meal_inv` holds again. -/
structure MealsGrow (env : Env) (s s1 : Sim) : Prop where
  length_eq : (meal_data s1).length = (meal_data s).length
  mono : ∀ (i : Nat) (d e : Int × Int), (meal_data s)[i]? = some d →
    (meal_data s1)[i]? = some e → d.1 ≤ e.1 ∧ d.2 ≤ e.2
  nonneg : ∀ e ∈ meal_data s1, 0 ≤ e.1
  inv : meal_inv env s1

/-- From `s` to `s1` no clock reading was made, the records are as many, no
`meals_eaten` has changed and each `last_meal_time` is what it was or the
stamp `st`. -/
structure Restamped (st : Int) (s s1 : Sim) : Prop where
  reads_eq : s1.clock_reads = s.clock_reads
  length_eq : (meal_data s1).length = (meal_data s).length
  stamp : ∀ (j : Nat) (d e : Int × Int), (meal_data s)[j]? = some d →
    (meal_data s1)[j]? = some e → e.1 = d.1 ∧ (e.2 = d.2 ∨ e.2 = st)

/-! ## `init_forks.c` -/

/-- The `while` loop of `destroy_n_fork_mutexes` (and of
`destroy_main_fork_mutexes`) with `remaining` iterations to go from index
`k`. -/
def destroy_fork_mutexes_loop : Nat → Nat → Sim → Option Sim
  | 0, _, s => some s
  | remaining + 1, k, s =>
    if k < s.table.forks.length then
      destroy_fork_mutexes_loop remaining (k + 1)
        (emit (.mutex_destroy (.fork k))
          { s with table := { s.table with forks := s.table.forks.set k false } })
    else none

/-- Destruction of the first `n` fork mutexes and release of the array
(`destroy_n_fork_mutexes`). -/
def destroy_n_fork_mutexes (n : Int) (s : Sim) : Option Sim :=
  (destroy_fork_mutexes_loop n.toNat 0 s).map fun s1 =>
    { s1 with table := { s1.table with forks := [], forks_initialized_count := 0 } }

/-- The `while` loop of `init_fork_mutexes` with `remaining` iterations to go
from index `i`, and the two statements after it. -/
def init_fork_mutexes_loop (env : Env) : Nat → Nat → Sim → Option (Int × Sim)
  | 0, _, s =>
    some (0, { s with table := { s.table with forks_initialized_count := s.table.num_philos } })
  | remaining + 1, i, s =>
    let ok := env.mutex_init_ok s.mutex_inits
    let s0 := { s with mutex_inits := s.mutex_inits + 1 }
    if !ok then
      (destroy_n_fork_mutexes (i : Int)
        (emit (.message ("Error: Mutex init failed for fork " ++ toString i ++ ".")) s0)).map
        fun s1 => (1, s1)
    else
      init_fork_mutexes_loop env remaining (i + 1)
        (emit (.mutex_init (.fork i))
          { s0 with table := { s0.table with forks := s0.table.forks.set i true } })

/-- Allocation and initialisation of the fork mutexes (`init_fork_mutexes`);
the first component is the returned `int`. -/
def init_fork_mutexes (env : Env) (s : Sim) : Option (Int × Sim) :=
  let ok := env.malloc_ok s.mallocs
  let s0 := { s with mallocs := s.mallocs + 1 }
  if !ok then
    some (1, emit (.message "Error: Malloc failed for forks.")
      { s0 with table := { s0.table with forks := [] } })
  else
    init_fork_mutexes_loop env s0.table.num_philos.toNat 0
      { s0 with table := { s0.table with
        forks := List.replicate s0.table.num_philos.toNat false } }

/-! ## `init_utility_mutexes.c` -/

/-- Initialisation of the print mutex (`init_print_mutex_internal`). -/
def init_print_mutex_internal (env : Env) (s : Sim) : Int × Sim :=
  let ok := env.mutex_init_ok s.mutex_inits
  let s0 := { s with mutex_inits := s.mutex_inits + 1 }
  if !ok then (1, emit (.message "Error: Mutex init failed for print_mutex.") s0)
  else
    (0, { emit (.mutex_init .print) s0 with
      table := { s0.table with print_mutex_initialized := true } })

/-- Initialisation of the mutex of the termination flag
(`init_sim_end_mutex_internal`). -/
def init_sim_end_mutex_internal (env : Env) (s : Sim) : Int × Sim :=
  let ok := env.mutex_init_ok s.mutex_inits
  let s0 := { s with mutex_inits := s.mutex_inits + 1 }
  if !ok then (1, emit (.message "Error: Mutex init failed for sim_end_mutex.") s0)
  else
    (0, { emit (.mutex_init .sim_end) s0 with
      table := { s0.table with sim_end_mutex_initialized := true } })

/-- Initialisation of the meal mutex (`init_meal_time_mutex_internal`). -/
def init_meal_time_mutex_internal (env : Env) (s : Sim) : Int × Sim :=
  let ok := env.mutex_init_ok s.mutex_inits
  let s0 := { s with mutex_inits := s.mutex_inits + 1 }
  if !ok then (1, emit (.message "Error: Mutex init failed for meal_time_mutex.") s0)
  else
    (0, { emit (.mutex_init .meal_time) s0 with
      table := { s0.table with meal_time_mutex_initialized := true } })

/-- The statements `if (print_mutex_initialized) pthread_mutex_destroy(..);
print_mutex_initialized = 0;`. -/
def undo_print_mutex (s : Sim) : Sim :=
  let s1 := if s.table.print_mutex_initialized then emit (.mutex_destroy .print) s else s
  { s1 with table := { s1.table with print_mutex_initialized := false } }

/-- The statements `if (sim_end_mutex_initialized) pthread_mutex_destroy(..);
sim_end_mutex_initialized = 0;`. -/
def undo_sim_end_mutex (s : Sim) : Sim :=
  let s1 := if s.table.sim_end_mutex_initialized then emit (.mutex_destroy .sim_end) s else s
  { s1 with table := { s1.table with sim_end_mutex_initialized := false } }

/-- The statements `if (meal_time_mutex_initialized) pthread_mutex_destroy(..);
meal_time_mutex_initialized = 0;`. -/
def undo_meal_time_mutex (s : Sim) : Sim :=
  let s1 := if s.table.meal_time_mutex_initialized then emit (.mutex_destroy .meal_time) s
    else s
  { s1 with table := { s1.table with meal_time_mutex_initialized := false } }

/-- Initialisation of the three utility mutexes (`init_utility_mutexes`). -/
def init_utility_mutexes (env : Env) (s : Sim) : Int × Sim :=
  let p := init_print_mutex_internal env s
  if p.1 ≠ 0 then (1, p.2)
  else
    let e := init_sim_end_mutex_internal env p.2
    if e.1 ≠ 0 then (1, undo_print_mutex e.2)
    else
      let m := init_meal_time_mutex_internal env e.2
      if m.1 ≠ 0 then (1, undo_sim_end_mutex (undo_print_mutex m.2))
      else (0, m.2)

/-! ## `init_core.c`: `init_mutexes`, and `initialize_simulation` -/

/-- Initialisation of all mutexes (`init_mutexes`). -/
def init_mutexes (env : Env) (s : Sim) : Option (Int × Sim) :=
  match init_fork_mutexes env s with
  | none => none
  | some (r, s1) =>
    if r ≠ 0 then some (1, s1)
    else
      let u := init_utility_mutexes env s1
      if u.1 ≠ 0 then
        (destroy_n_fork_mutexes u.2.table.forks_initialized_count u.2).map fun s2 => (1, s2)
      else some (0, u.2)

/-- Initialisation of the whole simulation (`initialize_simulation`). -/
def initialize_simulation (env : Env) (argc : Int) (argv : List String) (s : Sim) :
    Option (Int × Sim) :=
  match init_table argc argv s with
  | none => none
  | some (r, s1) =>
    if r ≠ 0 then some (1, s1)
    else
      match init_mutexes env s1 with
      | none => none
      | some (r2, s2) =>
        if r2 ≠ 0 then some (1, s2)
        else
          let p := init_philos env s2
          if p.1 ≠ 0 then some (1, p.2) else some (0, p.2)

/-! ## `cleanup_utils.c` and `main.c` -/

/-- Joins of `join_philosopher_threads`: the loop has the body of the one in
`handle_thread_creation_error` and runs over all `num_philos` indices. -/
def join_philosopher_threads (s : Sim) : Option Sim :=
  join_created s.table.num_philos.toNat 0 s

/-- Destruction of the fork mutexes (`destroy_main_fork_mutexes`). -/
def destroy_main_fork_mutexes (s : Sim) : Option Sim :=
  (destroy_fork_mutexes_loop s.table.forks_initialized_count.toNat 0 s).map fun s1 =>
    { s1 with table := { s1.table with forks := [], forks_initialized_count := 0 } }

/-- Destruction of the utility mutexes (`destroy_all_utility_mutexes`); each
assignment of 0 stands inside its `if` there, which gives the same state. -/
def destroy_all_utility_mutexes (s : Sim) : Sim :=
  undo_meal_time_mutex (undo_sim_end_mutex (undo_print_mutex s))

/-- Release of everything (`cleanup`); the table pointer is never `NULL`. -/
def cleanup (s : Sim) : Option Sim :=
  let joined : Option Sim :=
    if s.table.philos ≠ [] then
      (join_philosopher_threads s).map fun s1 =>
        { s1 with table := { s1.table with philos := [] } }
    else some s
  joined.bind fun s2 =>
    let forks_gone : Option Sim :=
      if s2.table.forks ≠ [] ∧ s2.table.forks_initialized_count > 0 then
        destroy_main_fork_mutexes s2
      else some s2
    forks_gone.map destroy_all_utility_mutexes

/-- The program (`main`) started on the arbitrary content `s` of its local
table; the first component is the exit status. While `main` waits for the
monitor the other threads run. -/
def main (env : Env) (argc : Int) (argv : List String) (s : Sim) : Option (Int × Sim) :=
  if argc < 5 ∨ argc > 6 then some (1, print_usage s)
  else
    match initialize_simulation env argc argv s with
    | none => none
    | some (r, s1) =>
      if r ≠ 0 then some (1, s1)
      else
        match launch_threads env s1 with
        | none => none
        | some (r2, s2) =>
          if r2 ≠ 0 then (cleanup s2).map fun s3 => (1, s3)
          else (cleanup (yield env (emit .monitor_join s2))).map fun s3 => (0, s3)

/-- Table state with nothing initialised: `forks` is `NULL`, the fork counter
is 0 and the three initialised flags are 0. -/
def unwound (t : t_table) : Prop :=
  t.forks = [] ∧ t.forks_initialized_count = 0 ∧ t.print_mutex_initialized = false ∧
    t.sim_end_mutex_initialized = false ∧ t.meal_time_mutex_initialized = false

instance (t : t_table) : Decidable (unwound t) := by
  unfold unwound
  infer_instance

/-- The three initialised flags of the utility mutexes are the same in both
tables. -/
def same_utility_flags (t t1 : t_table) : Prop :=
  t1.print_mutex_initialized = t.print_mutex_initialized ∧
    t1.sim_end_mutex_initialized = t.sim_end_mutex_initialized ∧
    t1.meal_time_mutex_initialized = t.meal_time_mutex_initialized

/-- Surroundings like `Env.quiet` in which the `k`-th call of `malloc`
(counting from 0) fails. -/
def Env.malloc_fails_at (k : Nat) : Env :=
  { Env.quiet with malloc_ok := fun n => decide (n ≠ k) }

/-- Surroundings like `Env.quiet` in which the `k`-th call of
`pthread_mutex_init` (counting from 0) fails. -/
def Env.mutex_init_fails_at (k : Nat) : Env :=
  { Env.quiet with mutex_init_ok := fun n => decide (n ≠ k) }

/-- Surroundings like `Env.quiet` in which the `k`-th call of `pthread_create`
(counting from 0) fails. -/
def Env.create_fails_at (k : Nat) : Env :=
  { Env.quiet with pthread_create_ok := fun n => decide (n ≠ k) }

/-- Whether a character is a decimal digit, `'0'` .. `'9'`. -/
def is_digit (c : Char) : Bool :=
  decide (48 ≤ c.toNat ∧ c.toNat ≤ 57)

/-- Value of a run of decimal digits read as a numeral, most significant
digit first. -/
def digits_value : List Char → Nat
  | [] => 0
  | c :: rest => (c.toNat - 48) * 10 ^ rest.length + digits_value rest

/-- The characters of an optional sign. -/
def sign_chars : Option Char → List Char
  | none => []
  | some c => [c]

/-- Slot that philosopher `i` locks first in a call of `take_forks`. -/
def first_fork (env : Env) (i : Nat) (s : Sim) : Option Nat :=
  (lock_order env i s).head?

/-- Number of fork slots of a ring of `n` that philosopher `i` owns. -/
def forks_held (n : Nat) (st : Ring) (i : Nat) : Nat :=
  ((List.range n).filter fun a => decide (st.owner a = some i)).length

/-- Philosopher `i` owns exactly one fork slot. -/
def holds_exactly_one (n : Nat) (st : Ring) (i : Nat) : Bool :=
  decide (forks_held n st i = 1)

/-- Philosopher `i` owns the slot that it locks first in `take_forks`. -/
def holds_first_fork (t : t_table) (st : Ring) (i : Nat) : Bool :=
  match first_fork Env.quiet i (Sim.start t) with
  | none => false
  | some a => decide (st.owner a = some i)

/-- Number of philosophers of a ring of `n` that satisfy `P`. -/
def count_philos (n : Nat) (P : Nat → Bool) : Nat :=
  ((List.range n).filter P).length
/-! ## Basic facts about the primitives -/

theorem tmod_two (x : Int) : Int.tmod x 2 = 0 ↔ x % 2 = 0 := by
  constructor
  · intro h
    have := Int.dvd_of_tmod_eq_zero h
    omega
  · intro h
    apply Int.tmod_eq_zero_of_dvd
    omega

theorem print_status_quiet (env : Env) (i : Nat) (msg : String) (s : Sim) (p : t_philo)
    (hp : s.table.philos[i]? = some p) (hf : s.table.simulation_should_end = false)
    (h0 : env.flag_raised s.flag_reads = false)
    (h1 : env.flag_raised (s.flag_reads + 1) = false) :
    print_status env i msg false s = some { s with
      trace := s.trace ++ [.status (env.clock s.clock_reads - s.table.start_time) p.id msg],
      flag_reads := s.flag_reads + 2, clock_reads := s.clock_reads + 1 } := by
  obtain ⟨t, tr, held, fr, cr, y, m, mi, tc⟩ := s
  obtain ⟨a1, a2, a3, a4, a5, a6, a7, a8, a9, a10, a11, a12, a13⟩ := t
  simp only at hp hf h0 h1
  subst hf
  simp [print_status, hp, is_simulation_over, get_time_ms, h0, h1, emit]

theorem Observes.obs_refl (P : Event → Prop) (s : Sim) : Observes P s s :=
  ⟨rfl, id, rfl, [], by simp, by simp⟩

theorem Observes.obs_trans {P : Event → Prop} {s s1 s2 : Sim} (h1 : Observes P s s1)
    (h2 : Observes P s1 s2) : Observes P s s2 := by
  obtain ⟨e1, he1, hP1⟩ := h1.trace_ext
  obtain ⟨e2, he2, hP2⟩ := h2.trace_ext
  refine ⟨?_, fun h => h2.flag_mono (h1.flag_mono h), h2.held_eq.trans h1.held_eq,
    e1 ++ e2, by rw [he2, he1, List.append_assoc], ?_⟩
  · rw [h2.table_eq, h1.table_eq]
  · intro e he
    rcases List.mem_append.mp he with h | h
    · exact hP1 e h
    · exact hP2 e h

theorem Observes.obs_mono {P Q : Event → Prop} {s s1 : Sim} (h : Observes P s s1)
    (hPQ : ∀ e, P e → Q e) : Observes Q s s1 := by
  obtain ⟨e1, he1, hP1⟩ := h.trace_ext
  exact ⟨h.table_eq, h.flag_mono, h.held_eq, e1, he1, fun e he => hPQ e (hP1 e he)⟩

theorem is_simulation_over_observes (P : Event → Prop) (env : Env) (s : Sim) :
    Observes P s (is_simulation_over env s).2 := by
  refine ⟨rfl, ?_, rfl, [], by simp [is_simulation_over], by simp⟩
  intro h
  simp [is_simulation_over, h]

theorem get_time_ms_observes (P : Event → Prop) (env : Env) (s : Sim) :
    Observes P s (get_time_ms env s).2 := by
  refine ⟨rfl, ?_, rfl, [], by simp [get_time_ms], by simp⟩
  intro h
  simp [get_time_ms, h]

theorem emit_observes (P : Event → Prop) (e : Event) (s : Sim) (h : P e) :
    Observes P s (emit e s) :=
  ⟨rfl, id, rfl, [e], rfl, by simpa using h⟩

theorem print_status_observes (env : Env) (i : Nat) (msg : String) (ov : Bool) (s : Sim)
    (p : t_philo) (hp : s.table.philos[i]? = some p) :
    ∃ s1, print_status env i msg ov s = some s1 ∧
      Observes (fun e => ∃ t, e = .status t p.id msg) s s1 := by
  unfold print_status
  simp only [hp]
  have h1 := is_simulation_over_observes (fun e => ∃ t, e = .status t p.id msg) env s
  have h2 := get_time_ms_observes (fun e => ∃ t, e = .status t p.id msg) env
    (is_simulation_over env s).2
  have h3 := is_simulation_over_observes (fun e => ∃ t, e = .status t p.id msg) env
    (get_time_ms env (is_simulation_over env s).2).2
  split_ifs
  · exact ⟨_, rfl, h1⟩
  · exact ⟨_, rfl, ((h1.obs_trans h2).obs_trans h3).obs_trans (emit_observes _ _ _ ⟨_, rfl⟩)⟩
  · exact ⟨_, rfl, (h1.obs_trans h2).obs_trans h3⟩


@[simp] theorem lock_fork_table (k : Nat) (s : Sim) : (lock_fork k s).table = s.table := rfl
@[simp] theorem lock_fork_trace (k : Nat) (s : Sim) :
    (lock_fork k s).trace = s.trace ++ [.fork_lock k] := rfl
@[simp] theorem lock_fork_held (k : Nat) (s : Sim) : (lock_fork k s).held = k :: s.held := rfl
@[simp] theorem lock_fork_flag_reads (k : Nat) (s : Sim) :
    (lock_fork k s).flag_reads = s.flag_reads := rfl
@[simp] theorem lock_fork_clock_reads (k : Nat) (s : Sim) :
    (lock_fork k s).clock_reads = s.clock_reads := rfl

theorem lock_print_lock_print (env : Env) (i : Nat) (s : Sim) (p : t_philo) (a b : Nat)
    (hp : s.table.philos[i]? = some p) :
    ∃ s1, ((print_status env i "has taken a fork" false (lock_fork a s)).bind
        fun s1 => print_status env i "has taken a fork" false (lock_fork b s1)) = some s1 ∧
      TakesForks p.id a b s s1 := by
  obtain ⟨sA, hA, oA⟩ := print_status_observes env i "has taken a fork" false (lock_fork a s) p
    (by simpa using hp)
  have hpA : (lock_fork b sA).table.philos[i]? = some p := by
    simp only [lock_fork_table]
    rw [oA.table_eq]; simpa using hp
  obtain ⟨sB, hB, oB⟩ := print_status_observes env i "has taken a fork" false (lock_fork b sA) p hpA
  refine ⟨sB, by simp [hA, hB], ?_⟩
  obtain ⟨e1, he1, hP1⟩ := oA.trace_ext
  obtain ⟨e2, he2, hP2⟩ := oB.trace_ext
  refine ⟨?_, ?_, ?_, e1, e2, ?_, ?_⟩
  · rw [oB.table_eq]; simp only [lock_fork_table]; rw [oA.table_eq]; simp
  · intro h
    apply oB.flag_mono
    simp only [lock_fork_table]
    exact oA.flag_mono (by simpa using h)
  · rw [oB.held_eq]; simp [oA.held_eq]
  · rw [he2]; simp [he1]
  · intro e he
    rcases List.mem_append.mp he with h | h
    · exact hP1 e h
    · exact hP2 e h

theorem take_forks_spec (env : Env) (i : Nat) (s : Sim) (p : t_philo) (r : Nat)
    (hp : s.table.philos[i]? = some p) (hr : p.right_fork = some r) :
    ∃ s1, take_forks env i s = some s1 ∧
      (if p.id % 2 = 0 then TakesForks p.id p.left_fork r s s1
       else TakesForks p.id r p.left_fork s s1) := by
  by_cases hpar : p.id % 2 = 0
  · have ht : Int.tmod p.id 2 = 0 := (tmod_two _).mpr hpar
    obtain ⟨s1, h1, h2⟩ := lock_print_lock_print env i s p p.left_fork r hp
    refine ⟨s1, ?_, by simpa [hpar] using h2⟩
    rw [← h1]
    simp only [take_forks, hp, ht, if_true, hr]
  · have ht : ¬ Int.tmod p.id 2 = 0 := fun h => hpar ((tmod_two _).mp h)
    obtain ⟨s1, h1, h2⟩ := lock_print_lock_print env i s p r p.left_fork hp
    refine ⟨s1, ?_, by simpa [hpar] using h2⟩
    rw [← h1]
    simp only [take_forks, hp, ht, if_false, hr]


theorem lock_print_lock_print_quiet (env : Env) (i : Nat) (s : Sim) (p : t_philo) (a b : Nat)
    (hp : s.table.philos[i]? = some p) (hf : s.table.simulation_should_end = false)
    (hq : ∀ k, s.flag_reads ≤ k → k < s.flag_reads + 4 → env.flag_raised k = false) :
    ∃ s1, ((print_status env i "has taken a fork" false (lock_fork a s)).bind
        fun s1 => print_status env i "has taken a fork" false (lock_fork b s1)) = some s1 ∧
      s1.trace = s.trace ++
        [.fork_lock a,
         .status (env.clock s.clock_reads - s.table.start_time) p.id "has taken a fork",
         .fork_lock b,
         .status (env.clock (s.clock_reads + 1) - s.table.start_time) p.id "has taken a fork"] := by
  rw [print_status_quiet env i _ (lock_fork a s) p (by simpa using hp) (by simpa using hf)
    (hq _ (by simp) (by simp)) (hq _ (by simp) (by simp))]
  simp only [Option.bind_some, Option.some_bind]
  rw [print_status_quiet env i _ _ p (by simpa using hp) (by simpa using hf)
    (hq _ (by simp) (by simp)) (hq _ (by simp; omega) (by simp))]
  exact ⟨_, rfl, by simp⟩

/-- C2. For a philosopher with two forks, `take_forks` returns and its lock
operations are, in this order, left then right when the id is even and right
then left when the id is odd; every other event of the call is a "has taken a
fork" line of that philosopher; and while the termination flag is false (the
stored flag is false and no other thread raises it during the four reads of
the call) the events are exactly: first lock, report, second lock, report. -/
theorem take_forks_order_and_reports (env : Env) (i : Nat) (s : Sim) (p : t_philo) (r : Nat)
    (hp : s.table.philos[i]? = some p) (hr : p.right_fork = some r) :
    ∃ s1 evs, take_forks env i s = some s1 ∧ s1.trace = s.trace ++ evs ∧
      evs.filter Event.is_fork_op =
        (if p.id % 2 = 0 then [.fork_lock p.left_fork, .fork_lock r]
         else [.fork_lock r, .fork_lock p.left_fork]) ∧
      (∀ e ∈ evs, e.is_fork_op = false → ∃ t, e = .status t p.id "has taken a fork") ∧
      (s.table.simulation_should_end = false →
        (∀ k, s.flag_reads ≤ k → k < s.flag_reads + 4 → env.flag_raised k = false) →
        evs =
          (if p.id % 2 = 0 then
            [.fork_lock p.left_fork,
             .status (env.clock s.clock_reads - s.table.start_time) p.id "has taken a fork",
             .fork_lock r,
             .status (env.clock (s.clock_reads + 1) - s.table.start_time) p.id "has taken a fork"]
          else
            [.fork_lock r,
             .status (env.clock s.clock_reads - s.table.start_time) p.id "has taken a fork",
             .fork_lock p.left_fork,
             .status (env.clock (s.clock_reads + 1) - s.table.start_time) p.id
               "has taken a fork"])) := by
  have key : ∀ a b, ∀ s1, TakesForks p.id a b s s1 →
      (∃ sq, ((print_status env i "has taken a fork" false (lock_fork a s)).bind
        fun s1 => print_status env i "has taken a fork" false (lock_fork b s1)) = some s1 ∧ sq = s1) →
      ∃ evs, s1.trace = s.trace ++ evs ∧
        evs.filter Event.is_fork_op = [.fork_lock a, .fork_lock b] ∧
        (∀ e ∈ evs, e.is_fork_op = false → ∃ t, e = .status t p.id "has taken a fork") ∧
        (s.table.simulation_should_end = false →
          (∀ k, s.flag_reads ≤ k → k < s.flag_reads + 4 → env.flag_raised k = false) →
          evs = [.fork_lock a,
             .status (env.clock s.clock_reads - s.table.start_time) p.id "has taken a fork",
             .fork_lock b,
             .status (env.clock (s.clock_reads + 1) - s.table.start_time) p.id
               "has taken a fork"]) := by
    intro a b s1 hT ⟨_, hrun, _⟩
    obtain ⟨e1, e2, htr, hst⟩ := hT.trace_ext
    have hfil : ∀ l : List Event, (∀ e ∈ l, ∃ t, e = Event.status t p.id "has taken a fork") →
        l.filter Event.is_fork_op = [] := by
      intro l hl
      rw [List.filter_eq_nil_iff]
      intro e he
      obtain ⟨t, rfl⟩ := hl e he
      simp [Event.is_fork_op]
    refine ⟨_, htr, ?_, ?_, ?_⟩
    · simp only [List.filter_append]
      rw [hfil e1 (fun e he => hst e (List.mem_append_left _ he)),
        hfil e2 (fun e he => hst e (List.mem_append_right _ he))]
      simp [Event.is_fork_op]
    · intro e he hne
      simp only [List.mem_append, List.mem_singleton] at he
      rcases he with ((h | h) | h) | h
      · subst h; simp [Event.is_fork_op] at hne
      · exact hst e (List.mem_append_left _ h)
      · subst h; simp [Event.is_fork_op] at hne
      · exact hst e (List.mem_append_right _ h)
    · intro hf hq
      obtain ⟨s2, h2, htr2⟩ := lock_print_lock_print_quiet env i s p a b hp hf hq
      rw [hrun] at h2
      cases h2
      rw [htr] at htr2
      exact List.append_cancel_left htr2
  obtain ⟨s1, h1, h2⟩ := take_forks_spec env i s p r hp hr
  by_cases hpar : p.id % 2 = 0
  · have ht : Int.tmod p.id 2 = 0 := (tmod_two _).mpr hpar
    simp only [hpar, if_true] at h2 ⊢
    obtain ⟨evs, h⟩ := key p.left_fork r s1 h2 ⟨s1, by
      rw [← h1]; simp only [take_forks, hp, ht, if_true, hr], rfl⟩
    exact ⟨s1, evs, h1, h⟩
  · have ht : ¬ Int.tmod p.id 2 = 0 := fun h => hpar ((tmod_two _).mp h)
    simp only [hpar, if_false] at h2 ⊢
    obtain ⟨evs, h⟩ := key r p.left_fork s1 h2 ⟨s1, by
      rw [← h1]; simp only [take_forks, hp, ht, if_false, hr], rfl⟩
    exact ⟨s1, evs, h1, h⟩

/-! ## Ring wiring (`init_philos`) -/

theorem init_philos_ok (env : Env) (s : Sim) (h : env.malloc_ok s.mallocs = true) :
    init_philos env s = (0, { s with mallocs := s.mallocs + 1, table := { s.table with
      philos := (List.range s.table.num_philos.toNat).map
        (init_philo_record s.table.num_philos) } }) := by
  simp [init_philos, h]

theorem init_philos_get (env : Env) (s : Sim) (N i : Nat) (hnum : s.table.num_philos = (N : Int))
    (h : env.malloc_ok s.mallocs = true) (hi : i < N) :
    (init_philos env s).2.table.philos[i]? = some (init_philo_record (N : Int) i) := by
  rw [init_philos_ok env s h]
  simp [hnum, List.getElem?_range hi]

theorem init_philos_get_inv (env : Env) (s : Sim) (N i : Nat) (p : t_philo)
    (hnum : s.table.num_philos = (N : Int)) (h : env.malloc_ok s.mallocs = true)
    (hp : (init_philos env s).2.table.philos[i]? = some p) :
    i < N ∧ p = init_philo_record (N : Int) i := by
  have hlen : (init_philos env s).2.table.philos.length = N := by
    rw [init_philos_ok env s h]; simp [hnum]
  have hi : i < N := by
    have := (List.getElem?_eq_some_iff.mp hp).1
    omega
  rw [init_philos_get env s N i hnum h hi] at hp
  exact ⟨hi, (Option.some.inj hp).symm⟩

theorem init_philo_record_right (N i : Nat) :
    (init_philo_record (N : Int) i).right_fork = if N = 1 then none else some ((i + 1) % N) := by
  unfold init_philo_record
  by_cases h : N = 1
  · simp [h]
  · have : ¬ ((N : Int) = 1) := by omega
    simp [h, this]

theorem init_philo_record_left (n : Int) (i : Nat) : (init_philo_record n i).left_fork = i := by
  unfold init_philo_record; split_ifs <;> rfl

theorem init_philo_record_id (n : Int) (i : Nat) :
    (init_philo_record n i).id = (i : Int) + 1 := by
  unfold init_philo_record; split_ifs <;> rfl

theorem ring_pred_zero (N : Nat) (hN : 2 ≤ N) : (0 + N - 1) % N = N - 1 := by
  rw [Nat.zero_add]; exact Nat.mod_eq_of_lt (by omega)

theorem ring_pred_pos (N k : Nat) (hk : 0 < k) (hkN : k < N) : (k + N - 1) % N = k - 1 := by
  have e : k + N - 1 = (k - 1) + N := by omega
  rw [e, Nat.add_mod_right]; exact Nat.mod_eq_of_lt (by omega)

theorem ring_succ (N i : Nat) (hi : i < N) :
    (i + 1) % N = if i + 1 = N then 0 else i + 1 := by
  by_cases h : i + 1 = N
  · rw [if_pos h, h, Nat.mod_self]
  · rw [if_neg h]; exact Nat.mod_eq_of_lt (by omega)

/-- C4. Ring wiring: for every `N` and every index `i < N`, `init_philos`
(when the allocation succeeds) returns 0 and gives the record at index `i` the
id `i + 1`, left fork slot `i` and right fork slot `(i + 1) mod N`, the right
fork being absent (`NULL`) when `N = 1`; for `N ≥ 2` left and right differ,
slot `k` is the left fork of philosopher `k` only and the right fork of its
ring predecessor `(k + N - 1) mod N` only, and that predecessor is another
philosopher. -/
theorem init_philos_ring_wiring (env : Env) (s : Sim) (N : Nat)
    (hnum : s.table.num_philos = (N : Int)) (hmalloc : env.malloc_ok s.mallocs = true) :
    (init_philos env s).1 = 0 ∧
    (init_philos env s).2.table.philos.length = N ∧
    (∀ i, i < N → ∃ p, (init_philos env s).2.table.philos[i]? = some p ∧
      p.id = (i : Int) + 1 ∧ p.left_fork = i ∧
      p.right_fork = (if N = 1 then none else some ((i + 1) % N)) ∧
      (2 ≤ N → p.right_fork ≠ some p.left_fork)) ∧
    (2 ≤ N → ∀ k, k < N →
      (∀ i p, (init_philos env s).2.table.philos[i]? = some p →
        (p.left_fork = k ↔ i = k)) ∧
      (∀ i p, (init_philos env s).2.table.philos[i]? = some p →
        (p.right_fork = some k ↔ i = (k + N - 1) % N)) ∧
      (k + N - 1) % N < N ∧ (k + N - 1) % N ≠ k) := by
  have hlen : (init_philos env s).2.table.philos.length = N := by
    rw [init_philos_ok env s hmalloc]; simp [hnum]
  refine ⟨by rw [init_philos_ok env s hmalloc], hlen, ?_, ?_⟩
  · intro i hi
    refine ⟨_, init_philos_get env s N i hnum hmalloc hi, init_philo_record_id _ _,
      init_philo_record_left _ _, init_philo_record_right _ _, ?_⟩
    intro h2
    rw [init_philo_record_right, init_philo_record_left]
    have : N ≠ 1 := by omega
    simp only [this, if_false]
    intro h
    have h1 : (i + 1) % N = i := Option.some.inj h
    rw [ring_succ N i hi] at h1
    split_ifs at h1 <;> omega
  · intro h2 k hk
    have hN1 : N ≠ 1 := by omega
    have hpred : (k + N - 1) % N = if k = 0 then N - 1 else k - 1 := by
      by_cases h0 : k = 0
      · subst h0; rw [if_pos rfl]; exact ring_pred_zero N h2
      · rw [if_neg h0]; exact ring_pred_pos N k (by omega) hk
    refine ⟨?_, ?_, Nat.mod_lt _ (by omega), ?_⟩
    · intro i p hp
      obtain ⟨_, rfl⟩ := init_philos_get_inv env s N i p hnum hmalloc hp
      rw [init_philo_record_left]
    · intro i p hp
      obtain ⟨hi, rfl⟩ := init_philos_get_inv env s N i p hnum hmalloc hp
      rw [init_philo_record_right, hpred, ring_succ N i hi]
      simp only [hN1, if_false, Option.some.injEq]
      split_ifs <;> omega
    · rw [hpred]; split_ifs <;> omega

/-- Witness of `init_philos_ring_wiring`: the table of three philosophers. -/
theorem init_philos_ring_wiring_witness :
    (init_philos Env.quiet (Sim.start (ring_table 3))).1 = 0 ∧
    (init_philos Env.quiet (Sim.start (ring_table 3))).2.table.philos.length = 3 :=
  ⟨(init_philos_ring_wiring Env.quiet (Sim.start (ring_table 3)) 3 (by decide) (by decide)).1,
   (init_philos_ring_wiring Env.quiet (Sim.start (ring_table 3)) 3 (by decide) (by decide)).2.1⟩

/-! ## Lock protocol of the ring -/

@[simp] theorem unlock_fork_table (k : Nat) (s : Sim) : (unlock_fork k s).table = s.table := rfl
@[simp] theorem unlock_fork_trace (k : Nat) (s : Sim) :
    (unlock_fork k s).trace = s.trace ++ [.fork_unlock k] := rfl
@[simp] theorem unlock_fork_held (k : Nat) (s : Sim) :
    (unlock_fork k s).held = s.held.erase k := rfl

theorem drop_forks_some (i : Nat) (s : Sim) (p : t_philo) (r : Nat)
    (hp : s.table.philos[i]? = some p) (hr : p.right_fork = some r) :
    drop_forks i s = some (unlock_fork p.left_fork (unlock_fork r s)) := by
  simp [drop_forks, hp, hr]

theorem status_filter_nil (id : Int) (l : List Event)
    (hl : ∀ e ∈ l, ∃ t, e = Event.status t id "has taken a fork") :
    l.filter Event.is_fork_op = [] := by
  rw [List.filter_eq_nil_iff]
  intro e he
  obtain ⟨t, rfl⟩ := hl e he
  simp [Event.is_fork_op]

theorem cycle_fork_ops_eq (t : t_table) (i : Nat) (p : t_philo) (r : Nat)
    (hp : t.philos[i]? = some p) (hr : p.right_fork = some r) :
    cycle_fork_ops t i =
      if p.id % 2 = 0 then
        [.fork_lock p.left_fork, .fork_lock r, .fork_unlock r, .fork_unlock p.left_fork]
      else
        [.fork_lock r, .fork_lock p.left_fork, .fork_unlock r, .fork_unlock p.left_fork] := by
  obtain ⟨s1, h1, h2⟩ := take_forks_spec Env.quiet i (Sim.start t) p r hp hr
  have key : ∀ a b, TakesForks p.id a b (Sim.start t) s1 →
      cycle_fork_ops t i =
        [.fork_lock a, .fork_lock b, .fork_unlock r, .fork_unlock p.left_fork] := by
    intro a b hT
    obtain ⟨e1, e2, htr, hst⟩ := hT.trace_ext
    have hp1 : s1.table.philos[i]? = some p := by rw [hT.table_eq]; exact hp
    unfold cycle_fork_ops
    rw [h1, Option.some_bind, drop_forks_some i s1 p r hp1 hr]
    simp only [unlock_fork_trace, htr, List.filter_append]
    rw [status_filter_nil p.id e1 (fun e he => hst e (List.mem_append_left _ he)),
      status_filter_nil p.id e2 (fun e he => hst e (List.mem_append_right _ he))]
    simp [Event.is_fork_op, Sim.start]
  by_cases hpar : p.id % 2 = 0
  · simp only [hpar, if_true] at h2 ⊢; exact key _ _ h2
  · simp only [hpar, if_false] at h2 ⊢; exact key _ _ h2

theorem cycle_fork_ops_none (t : t_table) (i : Nat) (hp : t.philos[i]? = none) :
    cycle_fork_ops t i = [] := by
  have : take_forks Env.quiet i (Sim.start t) = none := by
    simp [take_forks, Sim.start, hp]
  simp [cycle_fork_ops, this]

theorem ring_ops (env : Env) (s : Sim) (N i : Nat) (hN : 2 ≤ N)
    (hnum : s.table.num_philos = (N : Int)) (hmalloc : env.malloc_ok s.mallocs = true)
    (hi : i < N) :
    cycle_fork_ops (init_philos env s).2.table i =
      [.fork_lock (ring_first N i), .fork_lock (ring_second N i),
       .fork_unlock ((i + 1) % N), .fork_unlock i] := by
  have hp := init_philos_get env s N i hnum hmalloc hi
  have hr : (init_philo_record (N : Int) i).right_fork = some ((i + 1) % N) := by
    rw [init_philo_record_right]; simp; omega
  rw [cycle_fork_ops_eq _ i _ _ hp hr, init_philo_record_id, init_philo_record_left]
  unfold ring_first ring_second
  by_cases h : i % 2 = 1
  · have : ((i : Int) + 1) % 2 = 0 := by omega
    simp [h, this]
  · have : ¬ ((i : Int) + 1) % 2 = 0 := by omega
    simp [h, this]

theorem ring_ops_out (env : Env) (s : Sim) (N i : Nat)
    (hnum : s.table.num_philos = (N : Int)) (hmalloc : env.malloc_ok s.mallocs = true)
    (hi : N ≤ i) :
    cycle_fork_ops (init_philos env s).2.table i = [] := by
  apply cycle_fork_ops_none
  rw [init_philos_ok env s hmalloc]
  simp [hnum, hi]

theorem upd_apply {α : Type} (f : Nat → α) (a : Nat) (v : α) (x : Nat) :
    upd f a v x = if x = a then v else f x := rfl

theorem ring_first_second (N i : Nat) (hN : 2 ≤ N) (hi : i < N) :
    ring_first N i ≠ ring_second N i ∧
    (ring_first N i = i ∨ ring_first N i = (i + 1) % N) ∧
    (ring_second N i = i ∨ ring_second N i = (i + 1) % N) ∧
    (i = ring_first N i ∨ i = ring_second N i) ∧
    ((i + 1) % N = ring_first N i ∨ (i + 1) % N = ring_second N i) ∧
    (i + 1) % N ≠ i := by
  have h : (i + 1) % N ≠ i := by
    rw [ring_succ N i hi]; split_ifs <;> omega
  unfold ring_first ring_second
  by_cases hpar : i % 2 = 1
  · simp only [hpar, if_true]
    refine ⟨fun e => h e.symm, ?_, ?_, ?_, ?_, h⟩ <;> simp
  · simp only [hpar, if_false]
    refine ⟨h, ?_, ?_, ?_, ?_, h⟩ <;> simp

theorem ring_step_eq (t : t_table) (N i : Nat) (st : Ring)
    (hops : cycle_fork_ops t i =
      [.fork_lock (ring_first N i), .fork_lock (ring_second N i),
       .fork_unlock ((i + 1) % N), .fork_unlock i]) (hpc : st.pc i < 4) :
    ring_step t i st =
      if st.pc i = 0 then
        (if st.owner (ring_first N i) = none then
          some { pc := upd st.pc i 1, owner := upd st.owner (ring_first N i) (some i) }
        else none)
      else if st.pc i = 1 then
        (if st.owner (ring_second N i) = none then
          some { pc := upd st.pc i 2, owner := upd st.owner (ring_second N i) (some i) }
        else none)
      else if st.pc i = 2 then
        some { pc := upd st.pc i 3, owner := upd st.owner ((i + 1) % N) none }
      else
        some { pc := upd st.pc i 0, owner := upd st.owner i none } := by
  unfold ring_step
  rw [hops]
  have h : st.pc i = 0 ∨ st.pc i = 1 ∨ st.pc i = 2 ∨ st.pc i = 3 := by omega
  rcases h with h | h | h | h <;> simp [h]

theorem ring_init_inv (N : Nat) : RingInv N Ring.init :=
  ⟨fun _ => by simp [Ring.init], fun k j h => by simp [Ring.init] at h,
   fun i _ => by simp [Ring.init]⟩

theorem ring_lock_inv (N i k c : Nat) (st : Ring) (hi : i < N) (hinv : RingInv N st)
    (hcase : (st.pc i = 0 ∧ k = ring_first N i ∧ c = 1) ∨
      (st.pc i = 1 ∧ k = ring_second N i ∧ c = 2))
    (hne : ring_first N i ≠ ring_second N i)
    (hfree : st.owner k = none) :
    RingInv N { pc := upd st.pc i c, owner := upd st.owner k (some i) } := by
  obtain ⟨hpc, hown, hhold⟩ := hinv
  refine ⟨?_, ?_, ?_⟩
  · intro j
    show upd st.pc i c j < 4
    rw [upd_apply]
    split_ifs
    · rcases hcase with ⟨_, _, h⟩ | ⟨_, _, h⟩ <;> omega
    · exact hpc j
  · intro k1 j hk
    change upd st.owner k (some i) k1 = some j at hk
    show j < N ∧ ((upd st.pc i c j = 1 ∧ _) ∨ (upd st.pc i c j = 2 ∧ _) ∨ (upd st.pc i c j = 3 ∧ _))
    rw [upd_apply] at hk
    by_cases hkf : k1 = k
    · rw [if_pos hkf] at hk
      have hji : j = i := (Option.some.inj hk).symm
      subst hji
      refine ⟨hi, ?_⟩
      rw [upd_apply, if_pos rfl]
      rcases hcase with ⟨_, h2, h3⟩ | ⟨_, h2, h3⟩
      · exact Or.inl ⟨h3, by rw [hkf, h2]⟩
      · exact Or.inr (Or.inl ⟨h3, Or.inr (by rw [hkf, h2])⟩)
    · rw [if_neg hkf] at hk
      obtain ⟨hj, hc⟩ := hown k1 j hk
      refine ⟨hj, ?_⟩
      rw [upd_apply]
      by_cases hji : j = i
      · subst hji
        rw [if_pos rfl]
        rcases hcase with ⟨h1, _, h3⟩ | ⟨h1, _, h3⟩
        · rcases hc with ⟨h, _⟩ | ⟨h, _⟩ | ⟨h, _⟩ <;> omega
        · rcases hc with ⟨_, h⟩ | ⟨h, _⟩ | ⟨h, _⟩
          · exact Or.inr (Or.inl ⟨h3, Or.inl h⟩)
          · omega
          · omega
      · rw [if_neg hji]; exact hc
  · intro j hj
    show (upd st.pc i c j = 1 → upd st.owner k (some i) _ = some j) ∧
      (upd st.pc i c j = 2 → upd st.owner k (some i) _ = some j ∧
        upd st.owner k (some i) _ = some j) ∧
      (upd st.pc i c j = 3 → upd st.owner k (some i) _ = some j)
    obtain ⟨a, b, d⟩ := hhold j hj
    have keep : ∀ x, st.owner x = some j → upd st.owner k (some i) x = some j := by
      intro x hx
      rw [upd_apply, if_neg]
      · exact hx
      · intro e; rw [e, hfree] at hx; cases hx
    by_cases hji : j = i
    · subst hji
      simp only [upd_apply, if_true]
      rcases hcase with ⟨h1, h2, h3⟩ | ⟨h1, h2, h3⟩
      · subst h3
        refine ⟨fun _ => by rw [if_pos h2.symm], fun h => by omega, fun h => by omega⟩
      · subst h3
        refine ⟨fun h => by omega, fun _ => ⟨?_, by rw [if_pos h2.symm]⟩, fun h => by omega⟩
        have := keep _ (a h1)
        rw [upd_apply] at this
        exact this
    · simp only [upd_apply, if_neg hji]
      refine ⟨fun h => ?_, fun h => ⟨?_, ?_⟩, fun h => ?_⟩
      · have := keep _ (a h); rwa [upd_apply] at this
      · have := keep _ (b h).1; rwa [upd_apply] at this
      · have := keep _ (b h).2; rwa [upd_apply] at this
      · have := keep _ (d h); rwa [upd_apply] at this

theorem ring_unlock_inv (N i k c : Nat) (st : Ring) (hi : i < N) (hinv : RingInv N st)
    (hcase : (st.pc i = 2 ∧ k = (i + 1) % N ∧ c = 3) ∨ (st.pc i = 3 ∧ k = i ∧ c = 0))
    (hne : ring_first N i ≠ ring_second N i)
    (hl : i = ring_first N i ∨ i = ring_second N i)
    (hr : (i + 1) % N = ring_first N i ∨ (i + 1) % N = ring_second N i)
    (hlr : (i + 1) % N ≠ i) :
    RingInv N { pc := upd st.pc i c, owner := upd st.owner k none } := by
  obtain ⟨hpc, hown, hhold⟩ := hinv
  have hk : st.owner k = some i := by
    obtain ⟨_, b, d⟩ := hhold i hi
    rcases hcase with ⟨h1, h2, _⟩ | ⟨h1, h2, _⟩
    · rw [h2]; rcases hr with e | e <;> rw [e]
      · exact (b h1).1
      · exact (b h1).2
    · rw [h2]; exact d h1
  refine ⟨?_, ?_, ?_⟩
  · intro j
    show upd st.pc i c j < 4
    rw [upd_apply]
    split_ifs
    · rcases hcase with ⟨_, _, h⟩ | ⟨_, _, h⟩ <;> omega
    · exact hpc j
  · intro k1 j hk1
    change upd st.owner k none k1 = some j at hk1
    show j < N ∧ ((upd st.pc i c j = 1 ∧ _) ∨ (upd st.pc i c j = 2 ∧ _) ∨ (upd st.pc i c j = 3 ∧ _))
    rw [upd_apply] at hk1
    by_cases hkf : k1 = k
    · rw [if_pos hkf] at hk1; cases hk1
    · rw [if_neg hkf] at hk1
      obtain ⟨hj, hc⟩ := hown k1 j hk1
      refine ⟨hj, ?_⟩
      rw [upd_apply]
      by_cases hji : j = i
      · subst hji
        rw [if_pos rfl]
        rcases hcase with ⟨h1, h2, h3⟩ | ⟨h1, h2, h3⟩
        · rcases hc with ⟨h, _⟩ | ⟨_, h⟩ | ⟨h, _⟩
          · omega
          · refine Or.inr (Or.inr ⟨h3, ?_⟩)
            clear hown hhold hpc hk
            generalize ring_first N j = F at *
            generalize ring_second N j = S at *
            generalize (j + 1) % N = R at *
            omega
          · omega
        · rcases hc with ⟨h, _⟩ | ⟨h, _⟩ | ⟨_, h⟩
          · omega
          · omega
          · exact absurd (h.trans h2.symm) hkf
      · rw [if_neg hji]; exact hc
  · intro j hj
    show (upd st.pc i c j = 1 → upd st.owner k none _ = some j) ∧
      (upd st.pc i c j = 2 → upd st.owner k none _ = some j ∧
        upd st.owner k none _ = some j) ∧
      (upd st.pc i c j = 3 → upd st.owner k none _ = some j)
    obtain ⟨a, b, d⟩ := hhold j hj
    by_cases hji : j = i
    · subst hji
      simp only [upd_apply, if_true]
      rcases hcase with ⟨h1, h2, h3⟩ | ⟨h1, h2, h3⟩
      · subst h3
        refine ⟨fun h => by omega, fun h => by omega, fun _ => ?_⟩
        rw [if_neg (by rw [h2]; exact fun e => hlr e.symm)]
        rcases hl with e | e
        · have := (b h1).1; rw [← e] at this; exact this
        · have := (b h1).2; rw [← e] at this; exact this
      · subst h3
        exact ⟨fun h => by omega, fun h => by omega, fun h => by omega⟩
    · have keep : ∀ x, st.owner x = some j → upd st.owner k none x = some j := by
        intro x hx
        rw [upd_apply, if_neg]
        · exact hx
        · intro e; rw [e, hk] at hx; exact hji (Option.some.inj hx).symm
      simp only [upd_apply, if_neg hji]
      refine ⟨fun h => ?_, fun h => ⟨?_, ?_⟩, fun h => ?_⟩
      · have := keep _ (a h); rwa [upd_apply] at this
      · have := keep _ (b h).1; rwa [upd_apply] at this
      · have := keep _ (b h).2; rwa [upd_apply] at this
      · have := keep _ (d h); rwa [upd_apply] at this

theorem ring_step_inv (t : t_table) (N i : Nat) (st st1 : Ring) (hN : 2 ≤ N) (hi : i < N)
    (hops : cycle_fork_ops t i =
      [.fork_lock (ring_first N i), .fork_lock (ring_second N i),
       .fork_unlock ((i + 1) % N), .fork_unlock i])
    (hinv : RingInv N st) (hstep : ring_step t i st = some st1) : RingInv N st1 := by
  rw [ring_step_eq t N i st hops (hinv.pc_lt i)] at hstep
  obtain ⟨hne, _, _, hl, hr, hlr⟩ := ring_first_second N i hN hi
  have hpc := hinv.pc_lt i
  by_cases h0 : st.pc i = 0
  · rw [if_pos h0] at hstep
    by_cases hfree : st.owner (ring_first N i) = none
    · rw [if_pos hfree] at hstep
      rw [← Option.some.inj hstep]
      exact ring_lock_inv N i _ 1 st hi hinv (Or.inl ⟨h0, rfl, rfl⟩) hne hfree
    · rw [if_neg hfree] at hstep; cases hstep
  · rw [if_neg h0] at hstep
    by_cases h1 : st.pc i = 1
    · rw [if_pos h1] at hstep
      by_cases hfree : st.owner (ring_second N i) = none
      · rw [if_pos hfree] at hstep
        rw [← Option.some.inj hstep]
        exact ring_lock_inv N i _ 2 st hi hinv (Or.inr ⟨h1, rfl, rfl⟩) hne hfree
      · rw [if_neg hfree] at hstep; cases hstep
    · rw [if_neg h1] at hstep
      by_cases h2 : st.pc i = 2
      · rw [if_pos h2] at hstep
        rw [← Option.some.inj hstep]
        exact ring_unlock_inv N i _ 3 st hi hinv (Or.inl ⟨h2, rfl, rfl⟩) hne hl hr hlr
      · rw [if_neg h2] at hstep
        rw [← Option.some.inj hstep]
        exact ring_unlock_inv N i _ 0 st hi hinv (Or.inr ⟨by omega, rfl, rfl⟩) hne hl hr hlr

theorem ring_run_inv (env : Env) (s : Sim) (N : Nat) (hN : 2 ≤ N)
    (hnum : s.table.num_philos = (N : Int)) (hmalloc : env.malloc_ok s.mallocs = true)
    (sched : List Nat) :
    ∀ st, RingInv N st → RingInv N (ring_run (init_philos env s).2.table sched st) := by
  induction sched with
  | nil => intro st h; exact h
  | cons i rest ih =>
    intro st h
    show RingInv N (ring_run _ rest ((ring_step _ i st).getD st))
    apply ih
    cases hstep : ring_step (init_philos env s).2.table i st with
    | none => exact h
    | some st1 =>
      rcases Nat.lt_or_ge i N with hi | hi
      · exact ring_step_inv _ N i st st1 hN hi (ring_ops env s N i hN hnum hmalloc hi) h hstep
      · have : ring_step (init_philos env s).2.table i st = none := by
          unfold ring_step
          rw [ring_ops_out env s N i hnum hmalloc hi]
          simp
        rw [this] at hstep; cases hstep

theorem circular_wait_iff (t : t_table) (N : Nat) (st : Ring) :
    circular_wait t N st = true ↔
      ∀ i, i < N → (∃ a, a < N ∧ st.owner a = some i) ∧
        ∃ b j, (cycle_fork_ops t i)[st.pc i]? = some (.fork_lock b) ∧
          st.owner b = some j ∧ j ≠ i := by
  have hw : ∀ i, waits_for_other t st i = true ↔
      ∃ b j, (cycle_fork_ops t i)[st.pc i]? = some (.fork_lock b) ∧
        st.owner b = some j ∧ j ≠ i := by
    intro i
    unfold waits_for_other next_lock
    constructor
    · intro h
      cases hop : (cycle_fork_ops t i)[st.pc i]? with
      | none => simp [hop] at h
      | some e =>
        cases e with
        | fork_lock b =>
          simp only [hop] at h
          cases ho : st.owner b with
          | none => simp [ho] at h
          | some j =>
            simp only [ho, decide_eq_true_eq] at h
            exact ⟨b, j, rfl, ho, h⟩
        | _ => simp [hop] at h
    · rintro ⟨b, j, hop, ho, hne⟩
      simp [hop, ho, hne]
  unfold circular_wait holds_a_fork
  simp only [List.all_eq_true, List.mem_range, Bool.and_eq_true, List.any_eq_true,
    decide_eq_true_eq, hw]

theorem ring_no_circular_wait (t : t_table) (N : Nat) (st : Ring) (hN : 2 ≤ N)
    (hops : ∀ i, i < N → cycle_fork_ops t i =
      [.fork_lock (ring_first N i), .fork_lock (ring_second N i),
       .fork_unlock ((i + 1) % N), .fork_unlock i])
    (hinv : RingInv N st) : circular_wait t N st = false := by
  cases hb : circular_wait t N st with
  | false => rfl
  | true =>
  exfalso
  have hcw := (circular_wait_iff t N st).mp hb
  have hpc1 : ∀ i, i < N → st.pc i = 1 := by
    intro i hi
    obtain ⟨⟨a, _, ha⟩, ⟨b, j, hb, _, _⟩⟩ := hcw i hi
    obtain ⟨_, hc⟩ := hinv.owned a i ha
    rw [hops i hi] at hb
    rcases hc with ⟨h, _⟩ | ⟨h, _⟩ | ⟨h, _⟩
    · exact h
    · rw [h] at hb; simp at hb
    · rw [h] at hb; simp at hb
  have h0 := (hinv.holds 0 (by omega)).1 (hpc1 0 (by omega))
  have h1 := (hinv.holds 1 (by omega)).1 (hpc1 1 (by omega))
  have e0 : ring_first N 0 = 1 := by
    unfold ring_first; simp; exact Nat.mod_eq_of_lt (by omega)
  have e1 : ring_first N 1 = 1 := by
    unfold ring_first; simp
  rw [e0] at h0
  rw [e1, h0] at h1
  cases h1

theorem ring_progress (t : t_table) (N : Nat) (st : Ring) (hN : 2 ≤ N)
    (hops : ∀ i, i < N → cycle_fork_ops t i =
      [.fork_lock (ring_first N i), .fork_lock (ring_second N i),
       .fork_unlock ((i + 1) % N), .fork_unlock i])
    (hinv : RingInv N st) : ∃ i, i < N ∧ (ring_step t i st).isSome = true := by
  by_contra hno
  have hblocked : ∀ i, i < N → ring_step t i st = none := by
    intro i hi
    cases h : ring_step t i st with
    | none => rfl
    | some x => exact absurd ⟨i, hi, by simp [h]⟩ hno
  -- every philosopher is about to lock a taken slot
  have hpos : ∀ i, i < N →
      (st.pc i = 0 ∧ st.owner (ring_first N i) ≠ none) ∨
      (st.pc i = 1 ∧ st.owner (ring_second N i) ≠ none) := by
    intro i hi
    have h := hblocked i hi
    rw [ring_step_eq t N i st (hops i hi) (hinv.pc_lt i)] at h
    by_cases h0 : st.pc i = 0
    · rw [if_pos h0] at h
      by_cases hf : st.owner (ring_first N i) = none
      · rw [if_pos hf] at h; cases h
      · exact Or.inl ⟨h0, hf⟩
    · rw [if_neg h0] at h
      by_cases h1 : st.pc i = 1
      · rw [if_pos h1] at h
        by_cases hf : st.owner (ring_second N i) = none
        · rw [if_pos hf] at h; cases h
        · exact Or.inr ⟨h1, hf⟩
      · rw [if_neg h1] at h
        split_ifs at h
  -- an owned slot is the first fork of a philosopher that holds just that one
  have howned : ∀ k, st.owner k ≠ none → ∃ j, j < N ∧ st.pc j = 1 ∧ k = ring_first N j := by
    intro k hk
    cases ho : st.owner k with
    | none => exact absurd ho hk
    | some j =>
      obtain ⟨hj, hc⟩ := hinv.owned k j ho
      refine ⟨j, hj, ?_⟩
      rcases hpos j hj with ⟨h, _⟩ | ⟨h, _⟩ <;>
        rcases hc with ⟨h1, h2⟩ | ⟨h1, _⟩ | ⟨h1, _⟩ <;> omega
  -- nobody holds a fork
  have hnone : ∀ i, i < N → st.pc i = 0 := by
    intro i hi
    rcases hpos i hi with ⟨h, _⟩ | ⟨h1, hf⟩
    · exact h
    · exfalso
      obtain ⟨j, hj, hpj, hk⟩ := howned _ hf
      have hsi := ring_succ N i hi
      have hsj := ring_succ N j hj
      unfold ring_first at hk
      unfold ring_second at hk
      by_cases hodd : i % 2 = 1
      · -- second fork of `i` is its right fork
        rw [if_pos hodd, hsi] at hk
        by_cases hjodd : j % 2 = 1
        · rw [if_pos hjodd] at hk
          split_ifs at hk <;> omega
        · rw [if_neg hjodd, hsj] at hk
          split_ifs at hk <;> omega
      · -- second fork of `i` is its left fork `i`
        rw [if_neg hodd] at hk
        by_cases hjodd : j % 2 = 1
        · rw [if_pos hjodd] at hk; omega
        · rw [if_neg hjodd, hsj] at hk
          by_cases hjl : j + 1 = N
          · rw [if_pos hjl] at hk
            -- `i = 0` and `j = N - 1`, which itself waits for slot `N - 1`
            rcases hpos j hj with ⟨h, _⟩ | ⟨_, hf2⟩
            · omega
            · obtain ⟨j2, hj2, _, hk2⟩ := howned _ hf2
              have hsj2 := ring_succ N j2 hj2
              unfold ring_first at hk2
              unfold ring_second at hk2
              rw [if_neg hjodd] at hk2
              by_cases hj2odd : j2 % 2 = 1
              · rw [if_pos hj2odd] at hk2; omega
              · rw [if_neg hj2odd, hsj2] at hk2
                split_ifs at hk2 <;> omega
          · rw [if_neg hjl] at hk; omega
  rcases hpos 0 (by omega) with ⟨_, hf⟩ | ⟨h, _⟩
  · obtain ⟨j, hj, hpj, _⟩ := howned _ hf
    have := hnone j hj
    omega
  · have := hnone 0 (by omega)
    omega

/-- The predicate `circular_wait` is not void: two philosophers each owning
the slot that the other is about to lock form a circular wait. -/
theorem circular_wait_example :
    circular_wait (ring_table 2) 2
      { pc := fun i => if i = 0 then 1 else 0,
        owner := fun k => if k = 0 then some 1 else some 0 } = true := by
  decide

/-- C1. Deadlock-freedom of the lock protocol: in a ring of `N ≥ 2`
philosophers wired by `init_philos`, each repeating the fork operations of
`take_forks` and `drop_forks`, no schedule leads to a state in which every
philosopher holds a fork and waits for a fork held by another one; moreover
in every reachable state some philosopher can perform its next fork
operation. -/
theorem ring_deadlock_free (env : Env) (s : Sim) (N : Nat) (hN : 2 ≤ N)
    (hnum : s.table.num_philos = (N : Int)) (hmalloc : env.malloc_ok s.mallocs = true)
    (sched : List Nat) :
    circular_wait (init_philos env s).2.table N
        (ring_run (init_philos env s).2.table sched Ring.init) = false ∧
    ∃ i, i < N ∧
      (ring_step (init_philos env s).2.table i
        (ring_run (init_philos env s).2.table sched Ring.init)).isSome = true := by
  have hinv := ring_run_inv env s N hN hnum hmalloc sched Ring.init (ring_init_inv N)
  have hops := fun i hi => ring_ops env s N i hN hnum hmalloc hi
  exact ⟨ring_no_circular_wait _ N _ hN hops hinv, ring_progress _ N _ hN hops hinv⟩

/-- Witness of `ring_deadlock_free`: three philosophers after each has taken
its turn twice. -/
theorem ring_deadlock_free_witness :
    (2 ≤ 3 ∧ (Sim.start (ring_table 3)).table.num_philos = ((3 : Nat) : Int) ∧
      Env.quiet.malloc_ok (Sim.start (ring_table 3)).mallocs = true) ∧
    circular_wait (init_philos Env.quiet (Sim.start (ring_table 3))).2.table 3
        (ring_run (init_philos Env.quiet (Sim.start (ring_table 3))).2.table
          [0, 1, 2, 0, 1, 2] Ring.init) = false :=
  ⟨⟨by decide, by decide, by decide⟩,
   (ring_deadlock_free Env.quiet (Sim.start (ring_table 3)) 3 (by decide) (by decide)
      (by decide) [0, 1, 2, 0, 1, 2]).1⟩

/-! ## Acquisition order of neighbours -/

theorem fork_locks_append (l1 l2 : List Event) :
    fork_locks (l1 ++ l2) = fork_locks l1 ++ fork_locks l2 := by
  induction l1 with
  | nil => rfl
  | cons e rest ih => cases e <;> simp [fork_locks, ih]

theorem fork_locks_status (id : Int) (l : List Event)
    (hl : ∀ e ∈ l, ∃ t, e = Event.status t id "has taken a fork") : fork_locks l = [] := by
  induction l with
  | nil => rfl
  | cons e rest ih =>
    obtain ⟨t, rfl⟩ := hl e (List.mem_cons_self _ _)
    simpa [fork_locks] using ih (fun e he => hl e (List.mem_cons_of_mem _ he))

theorem lock_order_eq (env : Env) (i : Nat) (s : Sim) (p : t_philo) (r : Nat)
    (hp : s.table.philos[i]? = some p) (hr : p.right_fork = some r) :
    lock_order env i s = if p.id % 2 = 0 then [p.left_fork, r] else [r, p.left_fork] := by
  obtain ⟨s1, h1, h2⟩ := take_forks_spec env i s p r hp hr
  have key : ∀ a b, TakesForks p.id a b s s1 → lock_order env i s = [a, b] := by
    intro a b hT
    obtain ⟨e1, e2, htr, hst⟩ := hT.trace_ext
    unfold lock_order
    rw [h1]
    simp only [htr, List.drop_left, fork_locks_append]
    rw [fork_locks_status p.id e1 (fun e he => hst e (List.mem_append_left _ he)),
      fork_locks_status p.id e2 (fun e he => hst e (List.mem_append_right _ he))]
    simp [fork_locks]
  by_cases hpar : p.id % 2 = 0
  · simp only [hpar, if_true] at h2 ⊢; exact key _ _ h2
  · simp only [hpar, if_false] at h2 ⊢; exact key _ _ h2

theorem ring_orders (env0 env : Env) (s0 s : Sim) (N i : Nat) (hN : 2 ≤ N)
    (hnum : s0.table.num_philos = (N : Int)) (hmalloc : env0.malloc_ok s0.mallocs = true)
    (hs : s.table.philos = (init_philos env0 s0).2.table.philos) (hi : i < N) :
    acquires_left_then_right env i s = decide (i % 2 = 1) ∧
    acquires_right_then_left env i s = decide (i % 2 = 0) := by
  have hp : s.table.philos[i]? = some (init_philo_record (N : Int) i) := by
    rw [hs]; exact init_philos_get env0 s0 N i hnum hmalloc hi
  have hr : (init_philo_record (N : Int) i).right_fork = some ((i + 1) % N) := by
    rw [init_philo_record_right]; simp; omega
  have hne : (i + 1) % N ≠ i := (ring_first_second N i hN hi).2.2.2.2.2
  have ho := lock_order_eq env i s _ _ hp hr
  rw [init_philo_record_id, init_philo_record_left] at ho
  unfold acquires_left_then_right acquires_right_then_left
  simp only [hp, hr, init_philo_record_left, ho]
  by_cases hpar : i % 2 = 1
  · have h1 : ((i : Int) + 1) % 2 = 0 := by omega
    have h2 : ¬ i % 2 = 0 := by omega
    simp [h1, hpar, hne]
  · have h1 : ¬ ((i : Int) + 1) % 2 = 0 := by omega
    have h2 : i % 2 = 0 := by omega
    simp [h1, h2, hne, Ne.symm hne]

/-- C3 as amended. In a ring of `N ≥ 2` philosophers wired by `init_philos`,
the philosophers with ids `k` and `k + 1` (`1 ≤ k < N`) acquire their forks in
opposite orders; the philosophers with ids `N` and `1` do so exactly when `N`
is even, and both acquire right-then-left when `N` is odd. -/
theorem neighbours_acquisition_orders (env0 env : Env) (s0 s : Sim) (N : Nat) (hN : 2 ≤ N)
    (hnum : s0.table.num_philos = (N : Int)) (hmalloc : env0.malloc_ok s0.mallocs = true)
    (hs : s.table.philos = (init_philos env0 s0).2.table.philos) :
    (∀ k, 1 ≤ k → k < N → opposite_orders env s (k - 1) k = true) ∧
    (opposite_orders env s (N - 1) 0 = true ↔ N % 2 = 0) ∧
    (N % 2 = 1 → acquires_right_then_left env (N - 1) s = true ∧
      acquires_right_then_left env 0 s = true) := by
  have ho := fun i hi => ring_orders env0 env s0 s N i hN hnum hmalloc hs hi
  refine ⟨?_, ?_, ?_⟩
  · intro k hk1 hkN
    obtain ⟨a1, a2⟩ := ho (k - 1) (by omega)
    obtain ⟨b1, b2⟩ := ho k hkN
    unfold opposite_orders
    rw [a1, a2, b1, b2]
    by_cases hpar : k % 2 = 1
    · have h1 : (k - 1) % 2 = 0 := by omega
      have h2 : ¬ (k - 1) % 2 = 1 := by omega
      have h3 : ¬ k % 2 = 0 := by omega
      simp [hpar, h1]
    · have h1 : (k - 1) % 2 = 1 := by omega
      have h3 : k % 2 = 0 := by omega
      simp [h1, h3]
  · obtain ⟨a1, a2⟩ := ho (N - 1) (by omega)
    obtain ⟨b1, b2⟩ := ho 0 (by omega)
    unfold opposite_orders
    rw [a1, a2, b1, b2]
    by_cases hpar : N % 2 = 0
    · have h1 : (N - 1) % 2 = 1 := by omega
      simp [hpar, h1]
    · have h1 : (N - 1) % 2 = 0 := by omega
      simp [hpar, h1]
  · intro hodd
    obtain ⟨_, a2⟩ := ho (N - 1) (by omega)
    obtain ⟨_, b2⟩ := ho 0 (by omega)
    rw [a2, b2]
    have h1 : (N - 1) % 2 = 0 := by omega
    simp [h1]

/-- Witness of `neighbours_acquisition_orders`: a ring of four. -/
theorem neighbours_acquisition_orders_witness :
    opposite_orders Env.quiet (Sim.start (ring_table 4)) (4 - 1) 0 = true ↔ 4 % 2 = 0 :=
  (neighbours_acquisition_orders Env.quiet Env.quiet (Sim.start (ring_table 4))
    (Sim.start (ring_table 4)) 4 (by decide) (by decide) (by decide) (by decide)).2.1

/-- Counterexample to C3 as stated: in a ring of three, the neighbours with
ids 3 and 1 both acquire right-then-left, neither left-then-right. -/
theorem neighbours_same_order_three :
    opposite_orders Env.quiet (Sim.start (ring_table 3)) 2 0 = false ∧
    acquires_right_then_left Env.quiet 2 (Sim.start (ring_table 3)) = true ∧
    acquires_right_then_left Env.quiet 0 (Sim.start (ring_table 3)) = true ∧
    acquires_left_then_right Env.quiet 2 (Sim.start (ring_table 3)) = false ∧
    acquires_left_then_right Env.quiet 0 (Sim.start (ring_table 3)) = false := by
  decide

/-- Witness of `take_forks_order_and_reports`: the philosopher with id 2 in a
ring of two locks slot 1 (left) and then slot 0 (right). -/
theorem take_forks_order_and_reports_witness :
    ∃ s1 evs, take_forks Env.quiet 1 (Sim.start (ring_table 2)) = some s1 ∧
      s1.trace = (Sim.start (ring_table 2)).trace ++ evs ∧
      evs.filter Event.is_fork_op = [.fork_lock 1, .fork_lock 0] := by
  obtain ⟨s1, evs, h1, h2, h3, _⟩ := take_forks_order_and_reports Env.quiet 1
    (Sim.start (ring_table 2))
    { id := 2, meals_eaten := 0, last_meal_time := 0, thread_valid := false,
      state := .THINKING, left_fork := 1, right_fork := some 0 } 0 (by decide) (by decide)
  exact ⟨s1, evs, h1, h2, by simpa using h3⟩

/-! ## Death check (`check_death`) -/

theorem check_death_cases (env : Env) (i : Nat) (s : Sim) (p : t_philo)
    (hp : s.table.philos[i]? = some p) :
    (env.clock s.clock_reads - p.last_meal_time ≤ s.table.time_to_die →
      ∃ s1, check_death env i s = some (0, s1) ∧ s1.table = s.table ∧
        s1.trace = s.trace ++ [.meal_lock, .meal_unlock]) ∧
    (env.clock s.clock_reads - p.last_meal_time > s.table.time_to_die →
      s.table.simulation_should_end = false → env.flag_raised s.flag_reads = false →
      ∃ s1, check_death env i s = some (1, s1) ∧
        s1.table.simulation_should_end = true ∧
        s1.trace = s.trace ++ [.meal_lock, .meal_unlock,
          .status (env.clock (s.clock_reads + 1) - s.table.start_time) p.id "died"] ∧
        s1.table.philos = s.table.philos.set i { p with state := .DEAD }) ∧
    (env.clock s.clock_reads - p.last_meal_time > s.table.time_to_die →
      (s.table.simulation_should_end || env.flag_raised s.flag_reads) = true →
      ∃ s1, check_death env i s = some (1, s1) ∧
        s1.trace = s.trace ++ [.meal_lock, .meal_unlock] ∧
        s1.table = { s.table with simulation_should_end := true } ∧
        (s.table.simulation_should_end = true → s1.table = s.table)) := by
  refine ⟨?_, ?_, ?_⟩
  · intro h
    have h1 : ¬ env.clock s.clock_reads - p.last_meal_time > s.table.time_to_die := by omega
    simp [check_death, hp, get_time_ms, emit, h1]
  · intro h hf hr
    have hi : i < s.table.philos.length := (List.getElem?_eq_some_iff.mp hp).1
    simp [check_death, hp, get_time_ms, emit, h, is_simulation_over, hf, hr, print_status,
      set_state, set_philo, hi]
  · intro h hobs
    simp [check_death, hp, get_time_ms, emit, h, is_simulation_over, hobs]
    intro hf
    obtain ⟨t, tr, held, fr, cr, y, m, mi, tc⟩ := s
    obtain ⟨a1, a2, a3, a4, a5, a6, a7, a8, a9, a10, a11, a12, a13⟩ := t
    simp only at hf
    subst hf
    rfl

/-- C6. For philosopher `i` with record `p`, `check_death` computes
`elapsed = now - last_meal_time` from one clock reading and triggers only when
`elapsed > time_to_die`: otherwise (also when `elapsed = time_to_die`) it
returns 0, prints nothing and leaves the table alone. When it triggers and the
guarded read of the flag gives false, it sets the flag, prints exactly one
"died" line for `p.id`, marks the record `DEAD` and returns 1. When it
triggers and the guarded read gives true, it prints nothing, leaves every
record alone and returns 1, the table being unchanged if the flag was already
stored as true. -/
theorem check_death_spec (env : Env) (i : Nat) (s : Sim) (p : t_philo)
    (hp : s.table.philos[i]? = some p) :
    (env.clock s.clock_reads - p.last_meal_time ≤ s.table.time_to_die →
      ∃ s1, check_death env i s = some (0, s1) ∧ s1.table = s.table ∧
        s1.trace = s.trace ++ [.meal_lock, .meal_unlock]) ∧
    (env.clock s.clock_reads - p.last_meal_time > s.table.time_to_die →
      s.table.simulation_should_end = false → env.flag_raised s.flag_reads = false →
      ∃ s1, check_death env i s = some (1, s1) ∧
        s1.table.simulation_should_end = true ∧
        s1.trace = s.trace ++ [.meal_lock, .meal_unlock,
          .status (env.clock (s.clock_reads + 1) - s.table.start_time) p.id "died"] ∧
        s1.table.philos = s.table.philos.set i { p with state := .DEAD }) ∧
    (env.clock s.clock_reads - p.last_meal_time > s.table.time_to_die →
      (s.table.simulation_should_end || env.flag_raised s.flag_reads) = true →
      ∃ s1, check_death env i s = some (1, s1) ∧
        s1.trace = s.trace ++ [.meal_lock, .meal_unlock] ∧
        s1.table = { s.table with simulation_should_end := true } ∧
        (s.table.simulation_should_end = true → s1.table = s.table)) :=
  check_death_cases env i s p hp

/-- Witness of `check_death_spec`: a philosopher that last ate at time 0 is
checked at time 10 with `time_to_die = 5`. -/
theorem check_death_spec_witness :
    ∃ s1, check_death { Env.quiet with clock := fun k => 10 + (k : Int) } 0
        (Sim.start { ring_table 2 with time_to_die := 5 }) = some (1, s1) ∧
      s1.table.simulation_should_end = true ∧
      s1.table.philos = (Sim.start { ring_table 2 with time_to_die := 5 }).table.philos.set 0
        { id := 1, meals_eaten := 0, last_meal_time := 0, thread_valid := false,
          state := .DEAD, left_fork := 0, right_fork := some 1 } := by
  obtain ⟨s1, h1, h2, _, h4⟩ := (check_death_spec
    { Env.quiet with clock := fun k => 10 + (k : Int) } 0
    (Sim.start { ring_table 2 with time_to_die := 5 })
    { id := 1, meals_eaten := 0, last_meal_time := 0, thread_valid := false,
      state := .THINKING, left_fork := 0, right_fork := some 1 } (by decide)).2.1
    (by decide) (by decide) (by decide)
  exact ⟨s1, h1, h2, h4⟩

/-! ## Completion check (`check_all_full`) -/

@[simp] theorem emit_table (e : Event) (s : Sim) : (emit e s).table = s.table := rfl

theorem Sweeps.sw_refl (env : Env) (s : Sim) : Sweeps env s s :=
  ⟨rfl, rfl, fun _ => rfl, id, fun _ => rfl, [], by simp, by simp⟩

theorem Sweeps.sw_trans {env : Env} {s s1 s2 : Sim} (h1 : Sweeps env s s1) (h2 : Sweeps env s1 s2) :
    Sweeps env s s2 := by
  obtain ⟨e1, he1, hP1⟩ := h1.trace_ext
  obtain ⟨e2, he2, hP2⟩ := h2.trace_ext
  refine ⟨h2.quota_eq.trans h1.quota_eq, h2.length_eq.trans h1.length_eq,
    fun j => (h2.meals_eq j).trans (h1.meals_eq j), fun h => h2.flag_mono (h1.flag_mono h),
    fun h => (h2.flag_same h).trans (h1.flag_same h), e1 ++ e2,
    by rw [he2, he1, List.append_assoc], ?_⟩
  intro e he
  rcases List.mem_append.mp he with h | h
  · exact hP1 e h
  · exact hP2 e h

theorem is_short_iff (s : Sim) (j : Nat) :
    is_short s j = true ↔
      ∃ p, s.table.philos[j]? = some p ∧ p.meals_eaten < s.table.num_must_eat := by
  unfold is_short
  cases s.table.philos[j]? <;> simp

theorem Sweeps.short_iff {env : Env} {s s1 : Sim} (h : Sweeps env s s1) (j : Nat) :
    is_short s1 j ↔ is_short s j := by
  have hm := h.meals_eq j
  rw [is_short_iff, is_short_iff, h.quota_eq]
  constructor
  · rintro ⟨p, hp, hlt⟩
    rw [hp] at hm
    cases hq : s.table.philos[j]? with
    | none => rw [hq] at hm; cases hm
    | some q =>
      rw [hq] at hm
      simp only [Option.map_some', Option.some.injEq] at hm
      exact ⟨q, rfl, by rw [← hm]; exact hlt⟩
  · rintro ⟨p, hp, hlt⟩
    rw [hp] at hm
    cases hq : s1.table.philos[j]? with
    | none => rw [hq] at hm; cases hm
    | some q =>
      rw [hq] at hm
      simp only [Option.map_some', Option.some.injEq] at hm
      exact ⟨q, rfl, by rw [hm]; exact hlt⟩

theorem is_philo_not_full_spec (env : Env) (i : Nat) (s : Sim) (p : t_philo)
    (hp : s.table.philos[i]? = some p) :
    ∃ s1, is_philo_not_full_and_sim_running env i s =
        some (if p.meals_eaten < s.table.num_must_eat then 1 else 0, s1) ∧
      Sweeps env s s1 := by
  have hi : i < s.table.philos.length := (List.getElem?_eq_some_iff.mp hp).1
  unfold is_philo_not_full_and_sim_running
  simp only [hp, emit_table]
  by_cases hlt : p.meals_eaten < s.table.num_must_eat
  · simp only [hlt, if_true]
    refine ⟨_, rfl, rfl, rfl, fun _ => rfl, id, fun _ => rfl, [.meal_lock, .meal_unlock], ?_, ?_⟩
    · simp [emit]
    · simp
  · simp only [hlt, if_false]
    by_cases hobs : (is_simulation_over env (emit .meal_unlock (emit .meal_lock s))).1 = true
    · simp only [hobs, Bool.not_true, Bool.false_eq_true, if_false]
      refine ⟨_, rfl, rfl, rfl, fun _ => rfl, ?_, ?_, [.meal_lock, .meal_unlock], ?_, ?_⟩
      · intro h; simp [is_simulation_over, emit, h]
      · intro h; simp [is_simulation_over, emit, h]
      · simp [is_simulation_over, emit]
      · simp
    · simp only [hobs, Bool.not_false, if_true]
      refine ⟨_, rfl, rfl, ?_, ?_, ?_, ?_, [.meal_lock, .meal_unlock], ?_, ?_⟩
      · simp [set_philo, is_simulation_over, emit]
      · intro j
        simp only [set_philo, is_simulation_over, emit, List.getElem?_set]
        by_cases hij : i = j
        · subst hij; simp [hi, hp]
        · simp [hij]
      · intro h; simp [is_simulation_over, emit, set_philo, h]
      · intro h; simp [is_simulation_over, emit, set_philo, h]
      · simp [is_simulation_over, emit, set_philo]
      · simp

theorem check_all_full_loop_spec (env : Env) :
    ∀ (r i : Nat) (s : Sim), s.table.philos.length = i + r →
      ((∀ j, i ≤ j → j < i + r → ¬ is_short s j) →
        ∃ s1, check_all_full_loop env r i s = some (1, s1) ∧ Sweeps env s s1) ∧
      ((∃ j, i ≤ j ∧ j < i + r ∧ is_short s j) →
        ∃ s1, check_all_full_loop env r i s = some (0, s1) ∧ Sweeps env s s1) := by
  intro r
  induction r with
  | zero =>
    intro i s _
    refine ⟨fun _ => ⟨s, rfl, Sweeps.sw_refl env s⟩, ?_⟩
    rintro ⟨j, h1, h2, _⟩
    omega
  | succ r ih =>
    intro i s hlen
    have hi : i < s.table.philos.length := by omega
    obtain ⟨p, hp⟩ : ∃ p, s.table.philos[i]? = some p :=
      ⟨s.table.philos[i], List.getElem?_eq_getElem hi⟩
    obtain ⟨s1, h1, hsw⟩ := is_philo_not_full_spec env i s p hp
    have hshort : is_short s i ↔ p.meals_eaten < s.table.num_must_eat := by
      rw [is_short_iff]
      constructor
      · rintro ⟨q, hq, hlt⟩
        rw [hp] at hq; cases hq; exact hlt
      · intro hlt; exact ⟨p, hp, hlt⟩
    have hlen1 : s1.table.philos.length = (i + 1) + r := by rw [hsw.length_eq]; omega
    obtain ⟨ihfull, ihshort⟩ := ih (i + 1) s1 hlen1
    by_cases hlt : p.meals_eaten < s.table.num_must_eat
    · -- philosopher `i` is short: the loop stops here
      have hrun : check_all_full_loop env (r + 1) i s = some (0, s1) := by
        simp [check_all_full_loop, h1, hlt]
      refine ⟨fun hall => ?_, fun _ => ⟨s1, hrun, hsw⟩⟩
      exact absurd (hshort.mpr hlt) (hall i (Nat.le_refl i) (by omega))
    · have hrun : check_all_full_loop env (r + 1) i s = check_all_full_loop env r (i + 1) s1 := by
        simp [check_all_full_loop, h1, hlt]
      rw [hrun]
      refine ⟨fun hall => ?_, fun hex => ?_⟩
      · obtain ⟨s2, h2, hsw2⟩ := ihfull (fun j hj1 hj2 hs =>
          hall j (by omega) (by omega) ((hsw.short_iff j).mp hs))
        exact ⟨s2, h2, hsw.sw_trans hsw2⟩
      · obtain ⟨j, hj1, hj2, hs⟩ := hex
        have hne : j ≠ i := fun e => hlt (hshort.mp (e ▸ hs))
        obtain ⟨s2, h2, hsw2⟩ := ihshort ⟨j, by omega, by omega, (hsw.short_iff j).mpr hs⟩
        exact ⟨s2, h2, hsw.sw_trans hsw2⟩

/-- C8. Completion check: with no quota (`num_must_eat = -1`) `check_all_full`
returns 0 and changes nothing. With a quota and `N` records, if some
philosopher has `meals_eaten < num_must_eat` it returns 0, prints nothing and
does not change the flag (other threads not raising it meanwhile); if every
philosopher has `meals_eaten ≥ num_must_eat` it returns 1 with the flag set
and prints nothing. In both cases the only events are operations of the meal
lock. -/
theorem check_all_full_spec (env : Env) (s : Sim) (N : Nat)
    (hnum : s.table.num_philos = (N : Int)) (hlen : s.table.philos.length = N) :
    (s.table.num_must_eat = -1 → check_all_full env s = some (0, s)) ∧
    (s.table.num_must_eat ≠ -1 → (∃ j, j < N ∧ is_short s j) →
      ∃ s1, check_all_full env s = some (0, s1) ∧
        (s.table.simulation_should_end = true → s1.table.simulation_should_end = true) ∧
        ((∀ k, env.flag_raised k = false) →
          s1.table.simulation_should_end = s.table.simulation_should_end) ∧
        ∃ evs, s1.trace = s.trace ++ evs ∧ ∀ e ∈ evs, e = .meal_lock ∨ e = .meal_unlock) ∧
    (s.table.num_must_eat ≠ -1 → (∀ j, j < N → ¬ is_short s j) →
      ∃ s1, check_all_full env s = some (1, s1) ∧
        s1.table.simulation_should_end = true ∧
        ∃ evs, s1.trace = s.trace ++ evs ∧ ∀ e ∈ evs, e = .meal_lock ∨ e = .meal_unlock) := by
  have hN : s.table.num_philos.toNat = N := by rw [hnum]; simp
  obtain ⟨hfull, hshort⟩ := check_all_full_loop_spec env N 0 s (by omega)
  refine ⟨fun h => by simp [check_all_full, h], fun hq hex => ?_, fun hq hall => ?_⟩
  · obtain ⟨j, hj, hs⟩ := hex
    obtain ⟨s1, h1, hsw⟩ := hshort ⟨j, Nat.zero_le j, by omega, hs⟩
    refine ⟨s1, ?_, hsw.flag_mono, hsw.flag_same, hsw.trace_ext⟩
    simp [check_all_full, hq, hN, h1, finalize_if_all_full]
  · obtain ⟨s1, h1, hsw⟩ := hfull (fun j _ hj => hall j (by omega))
    obtain ⟨evs, hevs⟩ := hsw.trace_ext
    by_cases hobs : (is_simulation_over env s1).1 = true
    · refine ⟨(is_simulation_over env s1).2, ?_, ?_, evs, ?_⟩
      · simp [check_all_full, hq, hN, h1, finalize_if_all_full, hobs]
      · simpa [is_simulation_over] using hobs
      · simpa [is_simulation_over] using hevs
    · refine ⟨{ (is_simulation_over env s1).2 with table :=
          { (is_simulation_over env s1).2.table with simulation_should_end := true } }, ?_, rfl,
          evs, ?_⟩
      · simp [check_all_full, hq, hN, h1, finalize_if_all_full, hobs]
      · simpa [is_simulation_over] using hevs

/-- Witness of `check_all_full_spec`: two philosophers with no meals and a
quota of 0 are all full; with a quota of 1 the first one is short. -/
theorem check_all_full_spec_witness :
    (∃ s1, check_all_full Env.quiet (Sim.start { ring_table 2 with num_must_eat := 0 }) =
        some (1, s1) ∧ s1.table.simulation_should_end = true) ∧
    (∃ s1, check_all_full Env.quiet (Sim.start { ring_table 2 with num_must_eat := 1 }) =
        some (0, s1) ∧ s1.table.simulation_should_end = false) := by
  constructor
  · obtain ⟨s1, h1, h2, _⟩ := (check_all_full_spec Env.quiet
      (Sim.start { ring_table 2 with num_must_eat := 0 }) 2 (by decide) (by decide)).2.2
      (by decide) (by
        intro j hj
        have : j = 0 ∨ j = 1 := by omega
        rcases this with rfl | rfl <;> decide)
    exact ⟨s1, h1, h2⟩
  · obtain ⟨s1, h1, _, h3, _⟩ := (check_all_full_spec Env.quiet
      (Sim.start { ring_table 2 with num_must_eat := 1 }) 2 (by decide) (by decide)).2.1
      (by decide) ⟨0, by decide, by decide⟩
    exact ⟨s1, h1, h3 (fun _ => rfl)⟩

/-! ## Interruptible wait (`precise_usleep`) -/

theorem precise_usleep_loop_observes (env : Env) (time_ms start : Int) :
    ∀ (fuel : Nat) (s s1 : Sim), precise_usleep_loop env time_ms start fuel s = some s1 →
      Observes Event.is_nap s s1 := by
  intro fuel
  induction fuel with
  | zero => intro s s1 h; simp [precise_usleep_loop] at h
  | succ fuel ih =>
    intro s s1 h
    have o1 := is_simulation_over_observes Event.is_nap env s
    have o2 := get_time_ms_observes Event.is_nap env (is_simulation_over env s).2
    simp only [precise_usleep_loop] at h
    split_ifs at h with hf ht
    · cases h; exact o1
    · cases h; exact o1.obs_trans o2
    · exact ((o1.obs_trans o2).obs_trans (emit_observes _ _ _ rfl)).obs_trans (ih _ _ h)

theorem precise_usleep_observes (env : Env) (fuel : Nat) (time_ms : Int) (s s1 : Sim)
    (h : precise_usleep env fuel time_ms s = some s1) : Observes Event.is_nap s s1 :=
  (get_time_ms_observes Event.is_nap env s).obs_trans
    (precise_usleep_loop_observes env time_ms _ fuel _ s1 h)

theorem precise_usleep_loop_flag (env : Env) (time_ms start : Int) (fuel : Nat) (s : Sim)
    (hf : s.table.simulation_should_end = true) :
    ∃ s1, precise_usleep_loop env time_ms start (fuel + 1) s = some s1 := by
  simp [precise_usleep_loop, is_simulation_over, hf]

theorem precise_usleep_loop_returns (env : Env) (time_ms start : Int) :
    ∀ (fuel : Nat) (s : Sim),
      (∃ k, k < fuel ∧ (env.flag_raised (s.flag_reads + k) = true ∨
        time_ms ≤ env.clock (s.clock_reads + k) - start)) →
      ∃ s1, precise_usleep_loop env time_ms start fuel s = some s1 := by
  intro fuel
  induction fuel with
  | zero => rintro s ⟨k, hk, _⟩; omega
  | succ fuel ih =>
    rintro s ⟨k, hk, hw⟩
    simp only [precise_usleep_loop]
    split_ifs with hf ht
    · exact ⟨_, rfl⟩
    · exact ⟨_, rfl⟩
    · apply ih
      have hk0 : k ≠ 0 := by
        rintro rfl
        rcases hw with h | h
        · apply hf; simp only [Nat.add_zero] at h; simp [is_simulation_over, h]
        · apply ht; simpa [get_time_ms, is_simulation_over] using h
      refine ⟨k - 1, by omega, ?_⟩
      have e1 : s.flag_reads + 1 + (k - 1) = s.flag_reads + k := by omega
      have e2 : s.clock_reads + 1 + (k - 1) = s.clock_reads + k := by omega
      simpa [get_time_ms, is_simulation_over, emit, e1, e2] using hw

theorem precise_usleep_returns (env : Env) (fuel : Nat) (time_ms : Int) (s : Sim)
    (h : (s.table.simulation_should_end = true ∧ 0 < fuel) ∨
      wait_completes env fuel time_ms s.flag_reads s.clock_reads) :
    ∃ s1, precise_usleep env fuel time_ms s = some s1 ∧ Observes Event.is_nap s s1 := by
  have key : ∃ s1, precise_usleep env fuel time_ms s = some s1 := by
    unfold precise_usleep
    rcases h with ⟨hf, hfuel⟩ | ⟨k, hk, hw⟩
    · obtain ⟨n, rfl⟩ : ∃ n, fuel = n + 1 := ⟨fuel - 1, by omega⟩
      exact precise_usleep_loop_flag env _ _ n _ (by simpa [get_time_ms] using hf)
    · apply precise_usleep_loop_returns
      refine ⟨k, hk, ?_⟩
      simpa [get_time_ms] using hw
  obtain ⟨s1, h1⟩ := key
  exact ⟨s1, h1, precise_usleep_observes env fuel time_ms s s1 h1⟩

/-! ## Eating (`eat`) -/

@[simp] theorem set_philo_philos (i : Nat) (q : t_philo) (s : Sim) :
    (set_philo i q s).table.philos = s.table.philos.set i q := rfl
@[simp] theorem set_philo_trace (i : Nat) (q : t_philo) (s : Sim) :
    (set_philo i q s).trace = s.trace := rfl
@[simp] theorem set_philo_held (i : Nat) (q : t_philo) (s : Sim) :
    (set_philo i q s).held = s.held := rfl
@[simp] theorem set_philo_flag (i : Nat) (q : t_philo) (s : Sim) :
    (set_philo i q s).table.simulation_should_end = s.table.simulation_should_end := rfl
@[simp] theorem set_philo_flag_reads (i : Nat) (q : t_philo) (s : Sim) :
    (set_philo i q s).flag_reads = s.flag_reads := rfl
@[simp] theorem set_philo_clock_reads (i : Nat) (q : t_philo) (s : Sim) :
    (set_philo i q s).clock_reads = s.clock_reads := rfl
@[simp] theorem set_philo_time_to_eat (i : Nat) (q : t_philo) (s : Sim) :
    (set_philo i q s).table.time_to_eat = s.table.time_to_eat := rfl

theorem set_philo_get (i : Nat) (q p : t_philo) (s : Sim) (hp : s.table.philos[i]? = some p) :
    (set_philo i q s).table.philos[i]? = some q := by
  have hi : i < s.table.philos.length := (List.getElem?_eq_some_iff.mp hp).1
  simp [List.getElem?_set, hi]

theorem set_state_some (i : Nat) (st : t_state) (s : Sim) (p : t_philo)
    (hp : s.table.philos[i]? = some p) :
    set_state i st s = some (set_philo i { p with state := st } s) := by
  simp [set_state, hp]

theorem wrap32_id (x : Int) (h1 : -2147483648 ≤ x) (h2 : x ≤ 2147483647) : wrap32 x = x := by
  unfold wrap32
  omega

theorem record_meal_some (env : Env) (i : Nat) (s : Sim) (p : t_philo)
    (hp : s.table.philos[i]? = some p) :
    ∃ s1, record_meal env i s = some s1 ∧
      s1.table.philos = s.table.philos.set i
        { p with last_meal_time := env.clock s.clock_reads,
                 meals_eaten := wrap32 (p.meals_eaten + 1) } ∧
      s1.trace = s.trace ++ [.meal_lock,
        .meal_write p.id (env.clock s.clock_reads) (wrap32 (p.meals_eaten + 1)), .meal_unlock] ∧
      s1.held = s.held ∧ s1.flag_reads = s.flag_reads ∧ s1.clock_reads = s.clock_reads + 1 ∧
      s1.table.simulation_should_end = s.table.simulation_should_end ∧
      s1.table.time_to_eat = s.table.time_to_eat := by
  simp [record_meal, hp, get_time_ms, emit, set_philo]

theorem print_status_raised (env : Env) (i : Nat) (msg : String) (s : Sim) (p : t_philo)
    (hp : s.table.philos[i]? = some p)
    (h : ¬ (env.flag_raised s.flag_reads = false ∧ env.flag_raised (s.flag_reads + 1) = false)) :
    ∃ s1, print_status env i msg false s = some s1 ∧
      s1.table.simulation_should_end = true ∧ s1.trace = s.trace := by
  by_cases h0 : env.flag_raised s.flag_reads = true
  · simp [print_status, hp, is_simulation_over, h0]
  · have h0f : env.flag_raised s.flag_reads = false := by simpa using h0
    have h1 : env.flag_raised (s.flag_reads + 1) = true := by
      by_contra hc
      exact h ⟨h0f, by simpa using hc⟩
    by_cases hf : s.table.simulation_should_end = true
    · simp [print_status, hp, is_simulation_over, hf]
    · simp [print_status, hp, is_simulation_over, hf, h0f, h1, get_time_ms]

theorem erase_two (l r : Nat) (h : List Nat) :
    ((r :: l :: h).erase r).erase l = h ∧ ((l :: r :: h).erase r).erase l = h := by
  constructor
  · simp
  · by_cases e : l = r
    · subst e; simp
    · simp [List.erase_cons, e, Ne.symm e]

theorem eat_run (env : Env) (fuel i : Nat) (s : Sim) (p : t_philo) (r : Nat)
    (hp : s.table.philos[i]? = some p) (hr : p.right_fork = some r)
    (hentry : (is_simulation_over env s).1 = false) (hfuel : 0 < fuel)
    (hwait : (∀ k, k < 3 → env.flag_raised (s.flag_reads + k) = false) →
      wait_completes env fuel s.table.time_to_eat (s.flag_reads + 3) (s.clock_reads + 2)) :
    ∃ s1 s3 s4 s5 report naps,
      print_status env i "is eating" false (is_simulation_over env s).2 = some s1 ∧
      s1.trace = s.trace ++ report ∧
      (report = [] ∨ ∃ t, report = [.status t p.id "is eating"]) ∧
      ((∀ k, k < 3 → env.flag_raised (s.flag_reads + k) = false) →
        report = [.status (env.clock s.clock_reads - s.table.start_time) p.id "is eating"]) ∧
      record_meal env i (set_philo i { p with state := .EATING } s1) = some s3 ∧
      s3.trace = s1.trace ++ [.meal_lock,
        .meal_write p.id (env.clock s1.clock_reads) (wrap32 (p.meals_eaten + 1)),
        .meal_unlock] ∧
      precise_usleep env fuel s.table.time_to_eat s3 = some s4 ∧
      s4.trace = s3.trace ++ naps ∧ (∀ e ∈ naps, e = .usleep 500) ∧
      s5 = set_philo i
        { p with last_meal_time := env.clock s1.clock_reads,
                 meals_eaten := wrap32 (p.meals_eaten + 1), state := .SLEEPING }
        (unlock_fork p.left_fork (unlock_fork r s4)) ∧
      eat env fuel i s = some s5 ∧
      s5.trace = s4.trace ++ [.fork_unlock r, .fork_unlock p.left_fork] ∧
      s5.held = (s.held.erase r).erase p.left_fork ∧
      s5.table.philos = s.table.philos.set i
        { p with last_meal_time := env.clock s1.clock_reads,
                 meals_eaten := wrap32 (p.meals_eaten + 1), state := .SLEEPING } ∧
      (-2147483648 ≤ p.meals_eaten → p.meals_eaten < 2147483647 →
        wrap32 (p.meals_eaten + 1) = p.meals_eaten + 1) := by
  have hi : i < s.table.philos.length := (List.getElem?_eq_some_iff.mp hp).1
  -- the entry check
  have hf0 : s.table.simulation_should_end = false := by
    simp [is_simulation_over] at hentry; exact hentry.1
  have hr0 : env.flag_raised s.flag_reads = false := by
    simp [is_simulation_over] at hentry; exact hentry.2
  let sa := (is_simulation_over env s).2
  have hsa_p : sa.table.philos[i]? = some p := by simpa [sa, is_simulation_over] using hp
  have hsa_f : sa.table.simulation_should_end = false := by
    simp [sa, is_simulation_over, hf0, hr0]
  have hsa_tr : sa.trace = s.trace := rfl
  have hsa_held : sa.held = s.held := rfl
  have hsa_fr : sa.flag_reads = s.flag_reads + 1 := rfl
  have hsa_cr : sa.clock_reads = s.clock_reads := rfl
  have hsa_philos : sa.table.philos = s.table.philos := rfl
  have hsa_te : sa.table.time_to_eat = s.table.time_to_eat := rfl
  have hsa_st : sa.table.start_time = s.table.start_time := rfl
  -- the report
  obtain ⟨s1, h1, o1⟩ := print_status_observes env i "is eating" false sa p hsa_p
  obtain ⟨report, hrep, hrepP⟩ := o1.trace_ext
  have hs1_p : s1.table.philos[i]? = some p := by rw [o1.table_eq]; exact hsa_p
  have hs1_philos : s1.table.philos = s.table.philos := by rw [o1.table_eq]; rfl
  have hs1_te : s1.table.time_to_eat = s.table.time_to_eat := by rw [o1.table_eq]; rfl
  have hquiet_or : (∀ k, k < 3 → env.flag_raised (s.flag_reads + k) = false) ∨
      ¬ (env.flag_raised sa.flag_reads = false ∧ env.flag_raised (sa.flag_reads + 1) = false) := by
    by_cases hq : env.flag_raised sa.flag_reads = false ∧
        env.flag_raised (sa.flag_reads + 1) = false
    · left
      intro k hk
      have : k = 0 ∨ k = 1 ∨ k = 2 := by omega
      rcases this with rfl | rfl | rfl
      · exact hr0
      · exact hq.1
      · exact hq.2
    · right; exact hq
  have hrep_shape : report = [] ∨ ∃ t, report = [.status t p.id "is eating"] := by
    rcases hquiet_or with hq | hq
    · right
      have h1q := print_status_quiet env i "is eating" sa p hsa_p hsa_f
        (hq 1 (by omega)) (hq 2 (by omega))
      rw [h1] at h1q
      have htr := congrArg Sim.trace (Option.some.inj h1q)
      simp only [hrep] at htr
      exact ⟨_, List.append_cancel_left htr⟩
    · left
      obtain ⟨s1', h1', _, htr⟩ := print_status_raised env i "is eating" sa p hsa_p hq
      rw [h1] at h1'; cases h1'
      rw [hrep] at htr
      have := List.append_cancel_left (htr.trans (List.append_nil _).symm)
      exact this
  have hrep_quiet : (∀ k, k < 3 → env.flag_raised (s.flag_reads + k) = false) →
      report = [.status (env.clock s.clock_reads - s.table.start_time) p.id "is eating"] ∧
      s1.flag_reads = s.flag_reads + 3 ∧ s1.clock_reads = s.clock_reads + 1 := by
    intro hq
    have h1q := print_status_quiet env i "is eating" sa p hsa_p hsa_f
      (hq 1 (by omega)) (hq 2 (by omega))
    rw [h1] at h1q
    have e := Option.some.inj h1q
    have htr := congrArg Sim.trace e
    have hfr := congrArg Sim.flag_reads e
    have hcr := congrArg Sim.clock_reads e
    simp only [hrep] at htr
    simp only [hsa_fr, hsa_cr] at hfr hcr
    exact ⟨List.append_cancel_left htr, by omega, by omega⟩
  -- state EATING and the meal record
  have h2 := set_state_some i .EATING s1 p hs1_p
  have hs2_p := set_philo_get i { p with state := t_state.EATING } p s1 hs1_p
  obtain ⟨s3, h3, h3philos, h3tr, h3held, h3fr, h3cr, h3flag, h3te⟩ :=
    record_meal_some env i _ _ hs2_p
  simp only [set_philo_philos, set_philo_trace, set_philo_held, set_philo_flag,
    set_philo_flag_reads, set_philo_clock_reads, set_philo_time_to_eat, List.set_set]
    at h3philos h3tr h3held h3fr h3cr h3flag h3te
  -- the wait
  have hw : (s3.table.simulation_should_end = true ∧ 0 < fuel) ∨
      wait_completes env fuel s3.table.time_to_eat s3.flag_reads s3.clock_reads := by
    rcases hquiet_or with hq | hq
    · right
      obtain ⟨_, e1, e2⟩ := hrep_quiet hq
      rw [h3te, hs1_te, h3fr, h3cr, e1, e2]
      exact hwait hq
    · left
      obtain ⟨s1', h1', hflag, _⟩ := print_status_raised env i "is eating" sa p hsa_p hq
      rw [h1] at h1'; cases h1'
      exact ⟨by rw [h3flag]; exact hflag, hfuel⟩
  obtain ⟨s4, h4, o4⟩ := precise_usleep_returns env fuel s3.table.time_to_eat s3 hw
  obtain ⟨naps, hnaps, hnapsP⟩ := o4.trace_ext
  have hs4_philos : s4.table.philos = s3.table.philos := by rw [o4.table_eq]
  have hs4_p : s4.table.philos[i]? = some
      { p with state := t_state.EATING, last_meal_time := env.clock s1.clock_reads,
               meals_eaten := wrap32 (p.meals_eaten + 1) } := by
    rw [hs4_philos, h3philos, hs1_philos]
    simp [List.getElem?_set, hi]
  -- release of the forks and state SLEEPING
  have h5 := drop_forks_some i s4 _ r hs4_p hr
  have h6 := set_state_some i .SLEEPING (unlock_fork p.left_fork (unlock_fork r s4)) _
    (by simpa using hs4_p)
  have hte : s3.table.time_to_eat = s.table.time_to_eat := h3te.trans hs1_te
  rw [hte] at h4
  refine ⟨s1, s3, s4,
    set_philo i { p with state := t_state.SLEEPING, last_meal_time := env.clock s1.clock_reads,
                         meals_eaten := wrap32 (p.meals_eaten + 1) }
      (unlock_fork p.left_fork (unlock_fork r s4)),
    report, naps, h1, hrep, hrep_shape,
    fun hq => (hrep_quiet hq).1, ?_, h3tr, h4, hnaps, hnapsP, rfl, ?_, ?_, ?_, ?_,
    fun h1 h2 => wrap32_id _ (by omega) (by omega)⟩
  · exact h3
  · unfold eat
    simp only [hentry, Bool.false_eq_true, if_false]
    show (print_status env i "is eating" false sa).bind _ = _
    rw [h1, Option.some_bind, h2, Option.some_bind, h3, Option.some_bind, hte, h4,
      Option.some_bind, h5, Option.some_bind, h6]
  · simp
  · simp [o4.held_eq, h3held, o1.held_eq, hsa_held]
  · simp [hs4_philos, h3philos, hs1_philos]

/-- C9 as amended. When the guarded read at the entry of `eat` gives false
(and the wait gets enough polls), `eat` returns and: the "is eating" line of
the philosopher is printed provided no other thread raises the flag before
`print_status` has read it twice, and is suppressed otherwise; in either case
the state is set to `EATING` and one critical section of the meal lock
(`record_meal`) sets `last_meal_time` to the clock reading made inside it and
increments the `int` counter `meals_eaten`, which increases it by exactly 1
as long as it is below 2147483647; then comes the interruptible wait
`precise_usleep` of `time_to_eat`, entered in the state that `record_meal`
returned; then, in the state the wait returned, both forks are unlocked,
right before left, and the state is left equal to `SLEEPING`: the result of
`eat` is that state. -/
theorem eat_spec (env : Env) (fuel i : Nat) (s : Sim) (p : t_philo) (r : Nat)
    (hp : s.table.philos[i]? = some p) (hr : p.right_fork = some r)
    (hentry : (is_simulation_over env s).1 = false) (hfuel : 0 < fuel)
    (hwait : (∀ k, k < 3 → env.flag_raised (s.flag_reads + k) = false) →
      wait_completes env fuel s.table.time_to_eat (s.flag_reads + 3) (s.clock_reads + 2)) :
    ∃ s1 s3 s4 s5 report naps,
      print_status env i "is eating" false (is_simulation_over env s).2 = some s1 ∧
      s1.trace = s.trace ++ report ∧
      (report = [] ∨ ∃ t, report = [.status t p.id "is eating"]) ∧
      ((∀ k, k < 3 → env.flag_raised (s.flag_reads + k) = false) →
        report = [.status (env.clock s.clock_reads - s.table.start_time) p.id "is eating"]) ∧
      record_meal env i (set_philo i { p with state := .EATING } s1) = some s3 ∧
      s3.trace = s1.trace ++ [.meal_lock,
        .meal_write p.id (env.clock s1.clock_reads) (wrap32 (p.meals_eaten + 1)),
        .meal_unlock] ∧
      precise_usleep env fuel s.table.time_to_eat s3 = some s4 ∧
      s4.trace = s3.trace ++ naps ∧ (∀ e ∈ naps, e = .usleep 500) ∧
      s5 = set_philo i
        { p with last_meal_time := env.clock s1.clock_reads,
                 meals_eaten := wrap32 (p.meals_eaten + 1), state := .SLEEPING }
        (unlock_fork p.left_fork (unlock_fork r s4)) ∧
      eat env fuel i s = some s5 ∧
      s5.trace = s4.trace ++ [.fork_unlock r, .fork_unlock p.left_fork] ∧
      s5.held = (s.held.erase r).erase p.left_fork ∧
      s5.table.philos = s.table.philos.set i
        { p with last_meal_time := env.clock s1.clock_reads,
                 meals_eaten := wrap32 (p.meals_eaten + 1), state := .SLEEPING } ∧
      (-2147483648 ≤ p.meals_eaten → p.meals_eaten < 2147483647 →
        wrap32 (p.meals_eaten + 1) = p.meals_eaten + 1) :=
  eat_run env fuel i s p r hp hr hentry hfuel hwait

/-- Witness of `eat_spec`: philosopher 1 of a ring of two, nobody
interfering; the wait of `time_to_eat = 0` ends at its first poll. -/
theorem eat_spec_witness :
    ∃ s5, eat Env.quiet 1 0 (Sim.start (ring_table 2)) = some s5 ∧
      s5.table.philos = (Sim.start (ring_table 2)).table.philos.set 0
        { id := 1, meals_eaten := 1, last_meal_time := 1, thread_valid := false,
          state := .SLEEPING, left_fork := 0, right_fork := some 1 } := by
  obtain ⟨s1, s3, s4, s5, report, naps, h1, _, _, _, _, _, _, _, _, _, h9, _, _, h12, _⟩ :=
    eat_spec Env.quiet 1 0 (Sim.start (ring_table 2))
      { id := 1, meals_eaten := 0, last_meal_time := 0, thread_valid := false,
        state := .THINKING, left_fork := 0, right_fork := some 1 } 1
      (by decide) (by decide) (by decide) (by decide)
      (fun _ => ⟨0, by decide, Or.inr (by decide)⟩)
  have e : s1.clock_reads = 1 := by
    have : print_status Env.quiet 0 "is eating" false
        (is_simulation_over Env.quiet (Sim.start (ring_table 2))).2 = some
        { (is_simulation_over Env.quiet (Sim.start (ring_table 2))).2 with
          trace := [.status 0 1 "is eating"], flag_reads := 3, clock_reads := 1 } := by decide
    rw [this] at h1
    rw [← Option.some.inj h1]
  rw [e] at h12
  exact ⟨s5, h9, h12⟩

/-- Counterexample to C9 as stated: the flag is false at the entry check of
`eat` and is raised just afterwards; the meal is recorded, the forks are
released and the state becomes `SLEEPING`, but no "is eating" line is
printed. -/
theorem eat_without_report :
    (is_simulation_over (Env.raise_at 1) (Sim.start (ring_table 2))).1 = false ∧
    (eat (Env.raise_at 1) 1 0 (Sim.start (ring_table 2))).map
        (fun s => (s.trace, s.table.philos[0]?)) =
      some ([.meal_lock, .meal_write 1 0 1, .meal_unlock, .fork_unlock 1, .fork_unlock 0],
        some { id := 1, meals_eaten := 1, last_meal_time := 0, thread_valid := false,
               state := .SLEEPING, left_fork := 0, right_fork := some 1 }) := by
  decide

/-! ## One cycle (`perform_cycle_actions`) -/

/-- C10. If the check that follows `take_forks` observes the termination flag
as true, `perform_cycle_actions` unlocks both forks (right before left) and
returns 1 without eating: the philosopher holds what it held before the call,
no record has changed (so `meals_eaten` and `last_meal_time` are the same), no
meal data were written and the only status lines of the call are "has taken a
fork" lines; the loop of `philosopher_routine` that made the call then
returns. -/
theorem cycle_stops_after_forks (env : Env) (fuel i : Nat) (s s1 : Sim) (p : t_philo) (r : Nat)
    (hp : s.table.philos[i]? = some p) (hr : p.right_fork = some r)
    (htake : take_forks env i s = some s1) (hobs : (is_simulation_over env s1).1 = true) :
    ∃ s2 evs, perform_cycle_actions env fuel i s = some (1, s2) ∧
      s2.trace = s.trace ++ evs ∧
      s2.trace = s1.trace ++ [.fork_unlock r, .fork_unlock p.left_fork] ∧
      s2.held = s.held ∧ s2.table.philos = s.table.philos ∧
      (∀ e ∈ evs, ∀ t id text, e = Event.status t id text → text = "has taken a fork") ∧
      (∀ e ∈ evs, ∀ id a b, e ≠ Event.meal_write id a b) ∧
      (∀ cycles s0, is_simulation_over env s0 = (false, s) →
        philosopher_loop env fuel i (cycles + 1) s0 = some s2) := by
  obtain ⟨s1', h1, hT⟩ := take_forks_spec env i s p r hp hr
  rw [htake] at h1
  cases h1
  have main : ∀ a b, TakesForks p.id a b s s1 →
      ((b :: a :: s.held).erase r).erase p.left_fork = s.held →
      ∃ s2 evs, perform_cycle_actions env fuel i s = some (1, s2) ∧
        s2.trace = s.trace ++ evs ∧
        s2.trace = s1.trace ++ [.fork_unlock r, .fork_unlock p.left_fork] ∧
        s2.held = s.held ∧ s2.table.philos = s.table.philos ∧
        (∀ e ∈ evs, ∀ t id text, e = Event.status t id text → text = "has taken a fork") ∧
        (∀ e ∈ evs, ∀ id a b, e ≠ Event.meal_write id a b) ∧
        (∀ cycles s0, is_simulation_over env s0 = (false, s) →
          philosopher_loop env fuel i (cycles + 1) s0 = some s2) := by
    intro a b hT hheld
    obtain ⟨e1, e2, htr, hst⟩ := hT.trace_ext
    have hs1_philos : s1.table.philos = s.table.philos := by rw [hT.table_eq]
    have hso_p : (is_simulation_over env s1).2.table.philos[i]? = some p := by
      simpa [is_simulation_over, hs1_philos] using hp
    have hdrop := drop_forks_some i (is_simulation_over env s1).2 p r hso_p hr
    have hrun : perform_cycle_actions env fuel i s =
        some (1, unlock_fork p.left_fork (unlock_fork r (is_simulation_over env s1).2)) := by
      unfold perform_cycle_actions
      rw [htake, Option.some_bind]
      simp only [hobs, if_true, hdrop, Option.map_some']
    refine ⟨_, ([.fork_lock a] ++ e1 ++ [.fork_lock b] ++ e2) ++
      [.fork_unlock r, .fork_unlock p.left_fork], hrun, ?_, ?_, ?_, ?_, ?_, ?_, ?_⟩
    · simp [is_simulation_over, htr]
    · simp [is_simulation_over]
    · simp only [unlock_fork_held]
      show ((s1.held.erase r).erase p.left_fork) = s.held
      rw [hT.held_eq]; exact hheld
    · simp [is_simulation_over, hs1_philos]
    · intro e he t id text hes
      subst hes
      simp only [List.mem_append, List.mem_singleton, List.mem_cons, List.mem_nil_iff,
        or_false] at he
      rcases he with (((h | h) | h) | h) | h
      · cases h
      · obtain ⟨t', ht'⟩ := hst _ (List.mem_append_left _ h)
        cases ht'; rfl
      · cases h
      · obtain ⟨t', ht'⟩ := hst _ (List.mem_append_right _ h)
        cases ht'; rfl
      · rcases h with h | h <;> cases h
    · intro e he id x y hes
      subst hes
      simp only [List.mem_append, List.mem_singleton, List.mem_cons, List.mem_nil_iff,
        or_false] at he
      rcases he with (((h | h) | h) | h) | h
      · cases h
      · obtain ⟨t', ht'⟩ := hst _ (List.mem_append_left _ h)
        cases ht'
      · cases h
      · obtain ⟨t', ht'⟩ := hst _ (List.mem_append_right _ h)
        cases ht'
      · rcases h with h | h <;> cases h
    · intro cycles s0 h0
      simp [philosopher_loop, h0, hrun]
  by_cases hpar : p.id % 2 = 0
  · simp only [hpar, if_true] at hT
    exact main _ _ hT (erase_two p.left_fork r s.held).1
  · simp only [hpar, if_false] at hT
    exact main _ _ hT (erase_two p.left_fork r s.held).2

/-- Witness of `cycle_stops_after_forks`: philosopher 1 of a ring of two; the
flag is raised just before the check that follows `take_forks`. -/
theorem cycle_stops_after_forks_witness :
    ∃ s2, perform_cycle_actions (Env.raise_at 4) 1 0 (Sim.start (ring_table 2)) = some (1, s2) ∧
      s2.held = (Sim.start (ring_table 2)).held ∧
      s2.table.philos = (Sim.start (ring_table 2)).table.philos := by
  obtain ⟨s2, _, h1, _, _, h4, h5, _⟩ := cycle_stops_after_forks (Env.raise_at 4) 1 0
    (Sim.start (ring_table 2))
    { Sim.start (ring_table 2) with
      trace := [.fork_lock 1, .status 0 1 "has taken a fork", .fork_lock 0,
        .status 1 1 "has taken a fork"],
      held := [0, 1], flag_reads := 4, clock_reads := 2 }
    { id := 1, meals_eaten := 0, last_meal_time := 0, thread_valid := false,
      state := .THINKING, left_fork := 0, right_fork := some 1 } 1
    (by decide) (by decide) (by decide) (by decide)
  exact ⟨s2, h1, h4, h5⟩

/-- C5, evaluation at the failing input. Philosopher 1 of a ring of two: the
flag is false at the check that follows `take_forks` and is raised just before
the entry check of `eat`. `eat` returns at once, `perform_cycle_actions`
returns 1 and the philosopher still holds fork slots 0 and 1; no unlock
operation was performed. -/
theorem cycle_returns_holding_forks :
    (perform_cycle_actions (Env.raise_at 5) 1 0 (Sim.start (ring_table 2))).map
        (fun r => (r.1, r.2.held, r.2.trace)) =
      some (1, [0, 1], [.fork_lock 1, .status 0 1 "has taken a fork", .fork_lock 0,
        .status 1 1 "has taken a fork"]) ∧
    (philosopher_loop (Env.raise_at 6) 1 0 1 (Sim.start (ring_table 2))).map Sim.held =
      some [0, 1] := by
  decide

/-! ## The termination flag is only ever raised -/

theorem keeps_flag_refl (s : Sim) : keeps_flag s s := id

theorem keeps_flag_trans {s s1 s2 : Sim} (h1 : keeps_flag s s1) (h2 : keeps_flag s1 s2) :
    keeps_flag s s2 := fun h => h2 (h1 h)

theorem is_simulation_over_keeps (env : Env) (s : Sim) :
    keeps_flag s (is_simulation_over env s).2 :=
  (is_simulation_over_observes (fun _ => True) env s).flag_mono

theorem FlagStep.of_flag_eq (env : Env) {s s1 : Sim}
    (h : s1.table.simulation_should_end = s.table.simulation_should_end) : FlagStep env s s1 :=
  ⟨fun hf => by rw [h]; exact hf, fun _ => h⟩

theorem FlagStep.fs_trans {env : Env} {s s1 s2 : Sim} (h1 : FlagStep env s s1)
    (h2 : FlagStep env s1 s2) : FlagStep env s s2 :=
  ⟨keeps_flag_trans h1.keeps h2.keeps, fun hq => (h2.untouched hq).trans (h1.untouched hq)⟩

theorem get_time_ms_step (env : Env) (s : Sim) : FlagStep env s (get_time_ms env s).2 :=
  FlagStep.of_flag_eq env rfl

theorem emit_step (env : Env) (e : Event) (s : Sim) : FlagStep env s (emit e s) :=
  FlagStep.of_flag_eq env rfl

theorem lock_fork_step (env : Env) (k : Nat) (s : Sim) : FlagStep env s (lock_fork k s) :=
  FlagStep.of_flag_eq env rfl

theorem is_simulation_over_step (env : Env) (s : Sim) :
    FlagStep env s (is_simulation_over env s).2 :=
  ⟨is_simulation_over_keeps env s, fun hq => by simp [is_simulation_over, hq]⟩

theorem print_status_step (env : Env) (i : Nat) (msg : String) (ov : Bool) (s s1 : Sim)
    (h : print_status env i msg ov s = some s1) : FlagStep env s s1 := by
  cases hp : s.table.philos[i]? with
  | none => simp [print_status, hp] at h
  | some p =>
    have a := is_simulation_over_step env s
    have b := is_simulation_over_step env (get_time_ms env (is_simulation_over env s).2).2
    have ab : FlagStep env s
        (is_simulation_over env (get_time_ms env (is_simulation_over env s).2).2).2 :=
      a.fs_trans ((get_time_ms_step env _).fs_trans b)
    simp only [print_status, hp] at h
    split_ifs at h
    · cases h; exact a
    · cases h; exact ab.fs_trans (emit_step env _ _)
    · cases h; exact ab

theorem precise_usleep_loop_step (env : Env) (time_ms start : Int) :
    ∀ (fuel : Nat) (s s1 : Sim), precise_usleep_loop env time_ms start fuel s = some s1 →
      FlagStep env s s1 := by
  intro fuel
  induction fuel with
  | zero => intro s s1 h; simp [precise_usleep_loop] at h
  | succ fuel ih =>
    intro s s1 h
    have a := is_simulation_over_step env s
    simp only [precise_usleep_loop] at h
    split_ifs at h
    · cases h; exact a
    · cases h; exact a.fs_trans (get_time_ms_step env _)
    · exact a.fs_trans ((get_time_ms_step env _).fs_trans
        ((emit_step env _ _).fs_trans (ih _ _ h)))

theorem precise_usleep_step (env : Env) (fuel : Nat) (time_ms : Int) (s s1 : Sim)
    (h : precise_usleep env fuel time_ms s = some s1) : FlagStep env s s1 :=
  (get_time_ms_step env s).fs_trans (precise_usleep_loop_step env time_ms _ fuel _ s1 h)

theorem lock_print_step (env : Env) (i k : Nat) (s s1 : Sim)
    (h : print_status env i "has taken a fork" false (lock_fork k s) = some s1) :
    FlagStep env s s1 :=
  (lock_fork_step env k s).fs_trans (print_status_step env i _ false _ s1 h)

theorem take_forks_step (env : Env) (i : Nat) (s s1 : Sim)
    (h : take_forks env i s = some s1) : FlagStep env s s1 := by
  cases hp : s.table.philos[i]? with
  | none => simp [take_forks, hp] at h
  | some p =>
    simp only [take_forks, hp] at h
    cases hr : p.right_fork with
    | none =>
      exfalso
      simp only [hr] at h
      split_ifs at h
      · cases hq : print_status env i "has taken a fork" false (lock_fork p.left_fork s) <;>
          simp [hq] at h
    | some r =>
      simp only [hr] at h
      split_ifs at h
      all_goals
        simp only [Option.bind_eq_some] at h
        obtain ⟨a, ha, hb⟩ := h
        exact (lock_print_step env i _ s a ha).fs_trans (lock_print_step env i _ a s1 hb)

theorem drop_forks_table (i : Nat) (s s1 : Sim) (h : drop_forks i s = some s1) :
    s1.table = s.table := by
  cases hp : s.table.philos[i]? with
  | none => simp [drop_forks, hp] at h
  | some p =>
    simp only [drop_forks, hp] at h
    cases hr : p.right_fork <;> simp only [hr] at h <;> cases h <;> rfl

theorem drop_forks_step (env : Env) (i : Nat) (s s1 : Sim) (h : drop_forks i s = some s1) :
    FlagStep env s s1 :=
  FlagStep.of_flag_eq env (by rw [drop_forks_table i s s1 h])

theorem set_state_step (env : Env) (i : Nat) (st : t_state) (s s1 : Sim)
    (h : set_state i st s = some s1) : FlagStep env s s1 := by
  cases hp : s.table.philos[i]? with
  | none => simp [set_state, hp] at h
  | some p =>
    rw [set_state_some i st s p hp] at h; cases h
    exact FlagStep.of_flag_eq env rfl

theorem record_meal_step (env : Env) (i : Nat) (s s1 : Sim)
    (h : record_meal env i s = some s1) : FlagStep env s s1 := by
  cases hp : s.table.philos[i]? with
  | none => simp [record_meal, hp] at h
  | some p =>
    obtain ⟨s1', h1, _, _, _, _, _, hflag, _⟩ := record_meal_some env i s p hp
    rw [h] at h1; cases h1
    exact FlagStep.of_flag_eq env hflag

theorem eat_step (env : Env) (fuel i : Nat) (s s1 : Sim) (h : eat env fuel i s = some s1) :
    FlagStep env s s1 := by
  have h0 := is_simulation_over_step env s
  simp only [eat] at h
  split_ifs at h
  · cases h; exact h0
  · simp only [Option.bind_eq_some] at h
    obtain ⟨a, ha, b, hb, c, hc, d, hd, e, he, hfin⟩ := h
    exact h0.fs_trans ((print_status_step _ _ _ _ _ _ ha).fs_trans
      ((set_state_step env _ _ _ _ hb).fs_trans ((record_meal_step _ _ _ _ hc).fs_trans
      ((precise_usleep_step _ _ _ _ _ hd).fs_trans ((drop_forks_step env _ _ _ he).fs_trans
      (set_state_step env _ _ _ _ hfin))))))

theorem sleep_philo_step (env : Env) (fuel i : Nat) (s s1 : Sim)
    (h : sleep_philo env fuel i s = some s1) : FlagStep env s s1 := by
  have h0 := is_simulation_over_step env s
  simp only [sleep_philo] at h
  split_ifs at h
  · cases h; exact h0
  · simp only [Option.bind_eq_some] at h
    obtain ⟨a, ha, hfin⟩ := h
    exact h0.fs_trans ((print_status_step _ _ _ _ _ _ ha).fs_trans
      (precise_usleep_step _ _ _ _ _ hfin))

theorem think_step (env : Env) (fuel i : Nat) (s s1 : Sim)
    (h : think env fuel i s = some s1) : FlagStep env s s1 := by
  have h0 := is_simulation_over_step env s
  simp only [think] at h
  split_ifs at h
  · cases h; exact h0
  · simp only [Option.bind_eq_some] at h
    obtain ⟨a, ha, b, hb, hfin⟩ := h
    have hab := h0.fs_trans ((print_status_step _ _ _ _ _ _ ha).fs_trans
      (set_state_step env _ _ _ _ hb))
    by_cases hc : b.table.num_philos > 1 ∧ b.table.time_to_eat > b.table.time_to_sleep
    · rw [if_pos hc] at hfin
      cases hp : b.table.philos[i]? with
      | none => simp [hp] at hfin
      | some p =>
        simp only [hp] at hfin
        have hmid : FlagStep env b
            (emit .meal_unlock (get_time_ms env (emit .meal_lock b)).2) :=
          FlagStep.of_flag_eq env rfl
        split_ifs at hfin
        all_goals
          first
          | (cases hfin; exact hab.fs_trans hmid)
          | exact hab.fs_trans (hmid.fs_trans (precise_usleep_step _ _ _ _ _ hfin))
    · rw [if_neg hc] at hfin; cases hfin; exact hab

theorem perform_cycle_actions_step (env : Env) (fuel i : Nat) (s s1 : Sim) (r : Int)
    (h : perform_cycle_actions env fuel i s = some (r, s1)) : FlagStep env s s1 := by
  simp only [perform_cycle_actions] at h
  simp only [Option.bind_eq_some] at h
  obtain ⟨a, ha, h⟩ := h
  have h1 := (take_forks_step _ _ _ _ ha).fs_trans (is_simulation_over_step env a)
  split_ifs at h
  · simp only [Option.map_eq_some'] at h
    obtain ⟨b, hb, hfin⟩ := h
    cases hfin
    exact h1.fs_trans (drop_forks_step env _ _ _ hb)
  · simp only [Option.bind_eq_some] at h
    obtain ⟨b, hb, h⟩ := h
    have h2 := h1.fs_trans ((eat_step _ _ _ _ _ hb).fs_trans (is_simulation_over_step env b))
    split_ifs at h
    · cases h; exact h2
    · simp only [Option.bind_eq_some] at h
      obtain ⟨c, hc, h⟩ := h
      have h3 := h2.fs_trans ((sleep_philo_step _ _ _ _ _ hc).fs_trans
        (is_simulation_over_step env c))
      split_ifs at h
      · cases h; exact h3
      · simp only [Option.map_eq_some'] at h
        obtain ⟨d, hd, hfin⟩ := h
        cases hfin
        exact h3.fs_trans (think_step _ _ _ _ _ hd)

theorem philosopher_loop_step (env : Env) (fuel i : Nat) :
    ∀ (cycles : Nat) (s s1 : Sim), philosopher_loop env fuel i cycles s = some s1 →
      FlagStep env s s1 := by
  intro cycles
  induction cycles with
  | zero => intro s s1 h; simp [philosopher_loop] at h
  | succ cycles ih =>
    intro s s1 h
    have h0 := is_simulation_over_step env s
    simp only [philosopher_loop] at h
    split_ifs at h
    · cases h; exact h0
    · cases hc : perform_cycle_actions env fuel i (is_simulation_over env s).2 with
      | none => simp [hc] at h
      | some x =>
        obtain ⟨r, s2⟩ := x
        simp only [hc] at h
        have h1 := h0.fs_trans (perform_cycle_actions_step _ _ _ _ _ _ hc)
        split_ifs at h
        · cases h; exact h1
        · exact h1.fs_trans (ih _ _ h)

theorem handle_single_philosopher_step (env : Env) (fuel i : Nat) (s s1 : Sim)
    (h : handle_single_philosopher env fuel i s = some s1) : FlagStep env s s1 := by
  simp only [handle_single_philosopher] at h
  simp only [Option.bind_eq_some] at h
  obtain ⟨a, ha, hfin⟩ := h
  exact (print_status_step _ _ _ _ _ _ ha).fs_trans (precise_usleep_step _ _ _ _ _ hfin)

theorem philosopher_routine_step (env : Env) (fuel cycles i : Nat) (s s1 : Sim)
    (h : philosopher_routine env fuel cycles i s = some s1) : FlagStep env s s1 := by
  simp only [philosopher_routine] at h
  cases hp : s.table.philos[i]? with
  | none => simp [hp] at h
  | some p =>
    simp only [hp, Option.bind_eq_some] at h
    obtain ⟨a, ha, h⟩ := h
    have h1 : FlagStep env s a := by
      split_ifs at ha
      · exact precise_usleep_step _ _ _ _ _ ha
      · cases ha; exact FlagStep.of_flag_eq env rfl
    split_ifs at h
    · exact h1.fs_trans (handle_single_philosopher_step _ _ _ _ _ h)
    · exact h1.fs_trans (philosopher_loop_step _ _ _ _ _ _ h)

/-! ## The monitor (`monitoring_routine`) -/

theorem died_lines_append (l1 l2 : List Event) :
    died_lines (l1 ++ l2) = died_lines l1 + died_lines l2 := by
  simp [died_lines, List.filter_append]

theorem died_lines_meal (l : List Event) (h : ∀ e ∈ l, e = .meal_lock ∨ e = .meal_unlock) :
    died_lines l = 0 := by
  unfold died_lines
  rw [List.length_eq_zero, List.filter_eq_nil_iff]
  intro e he
  rcases h e he with rfl | rfl <;> simp [Event.is_died]

theorem QuietStep.q_refl (env : Env) (s : Sim) : QuietStep env s s :=
  ⟨id, rfl, fun _ => rfl⟩

theorem QuietStep.q_trans {env : Env} {s s1 s2 : Sim} (h1 : QuietStep env s s1)
    (h2 : QuietStep env s1 s2) : QuietStep env s s2 :=
  ⟨keeps_flag_trans h1.keeps h2.keeps, h2.died_eq.trans h1.died_eq,
   fun h => (h2.flag_same h).trans (h1.flag_same h)⟩

theorem QuietStep.then_run {env : Env} {s s1 s2 : Sim} {e : Option MonitorExit}
    (h1 : QuietStep env s s1) (h2 : MonitorRun env s1 s2 e) : MonitorRun env s s2 e := by
  refine ⟨keeps_flag_trans h1.keeps h2.keeps, ?_, ?_, ?_, ?_⟩
  · rw [← h1.died_eq]; exact h2.at_most
  · intro he; rw [← h1.died_eq]; exact h2.other he
  · intro he hf hq
    rw [← h1.died_eq]
    exact h2.death he (by rw [h1.flag_same hq]; exact hf) hq
  · intro he hq
    rw [h2.running he hq, h1.flag_same hq]

theorem QuietStep.to_run {env : Env} {s s1 : Sim} {e : Option MonitorExit}
    (h : QuietStep env s s1) (he : e ≠ some .death)
    (hr : e = none → (∀ k, env.flag_raised k = false) →
      s1.table.simulation_should_end = s.table.simulation_should_end) :
    MonitorRun env s s1 e :=
  ⟨h.keeps, by rw [h.died_eq]; omega, fun _ => h.died_eq, fun h1 => absurd h1 he, hr⟩

theorem yield_quiet (env : Env) (s : Sim) : QuietStep env s (yield env s) :=
  ⟨id, rfl, fun _ => rfl⟩

theorem Sweeps.quiet {env : Env} {s s1 : Sim} (h : Sweeps env s s1) : QuietStep env s s1 := by
  obtain ⟨evs, hevs, hP⟩ := h.trace_ext
  exact ⟨h.flag_mono, by rw [hevs, died_lines_append, died_lines_meal evs hP]; rfl, h.flag_same⟩

theorem check_all_full_loop_sweeps (env : Env) :
    ∀ (r i : Nat) (s s1 : Sim) (a : Int), check_all_full_loop env r i s = some (a, s1) →
      Sweeps env s s1 := by
  intro r
  induction r with
  | zero =>
    intro i s s1 a h
    simp only [check_all_full_loop, Option.some.injEq, Prod.mk.injEq] at h
    rw [← h.2]; exact Sweeps.sw_refl env s
  | succ r ih =>
    intro i s s1 a h
    cases hp : s.table.philos[i]? with
    | none => simp [check_all_full_loop, is_philo_not_full_and_sim_running, hp] at h
    | some p =>
      obtain ⟨s2, h2, hsw⟩ := is_philo_not_full_spec env i s p hp
      by_cases hlt : p.meals_eaten < s.table.num_must_eat
      · simp [check_all_full_loop, h2, hlt] at h
        rw [← h.2]; exact hsw
      · simp [check_all_full_loop, h2, hlt] at h
        exact hsw.sw_trans (ih _ _ _ _ h)

theorem check_all_full_result (env : Env) (s s1 : Sim) (f : Int)
    (h : check_all_full env s = some (f, s1)) :
    keeps_flag s s1 ∧ died_lines s1.trace = died_lines s.trace ∧
    (f = 0 → QuietStep env s s1) := by
  unfold check_all_full at h
  split_ifs at h with hq
  · simp only [Option.some.injEq, Prod.mk.injEq] at h
    rw [← h.2]
    exact ⟨id, rfl, fun _ => QuietStep.q_refl env s⟩
  · simp only [Option.map_eq_some'] at h
    obtain ⟨⟨a, s2⟩, h2, hfin⟩ := h
    have hsw := (check_all_full_loop_sweeps env _ _ _ _ _ h2).quiet
    simp only [finalize_if_all_full] at hfin
    split_ifs at hfin with ha hobs
    · simp only [Prod.mk.injEq] at hfin
      rw [← hfin.2]
      refine ⟨fun _ => rfl, ?_, fun hf => ?_⟩
      · rw [← hsw.died_eq]; rfl
      · rw [hf] at hfin; exact absurd hfin.1 (by decide)
    · simp only [Prod.mk.injEq] at hfin
      rw [← hfin.2]
      refine ⟨keeps_flag_trans hsw.keeps (is_simulation_over_keeps env s2), ?_, fun hf => ?_⟩
      · rw [← hsw.died_eq]; rfl
      · rw [hf] at hfin; exact absurd hfin.1 (by decide)
    · simp only [Prod.mk.injEq] at hfin
      rw [← hfin.2]
      exact ⟨hsw.keeps, hsw.died_eq, fun _ => hsw⟩

theorem check_death_result (env : Env) (i : Nat) (s s1 : Sim) (d : Int)
    (h : check_death env i s = some (d, s1)) :
    (d = 0 → QuietStep env s s1) ∧ (d ≠ 0 → MonitorRun env s s1 (some .death)) := by
  cases hp : s.table.philos[i]? with
  | none => simp [check_death, hp] at h
  | some p =>
    obtain ⟨c1, c2, c3⟩ := check_death_cases env i s p hp
    have hm : died_lines [Event.meal_lock, Event.meal_unlock] = 0 := by decide
    by_cases hel : env.clock s.clock_reads - p.last_meal_time ≤ s.table.time_to_die
    · obtain ⟨s2, h2, htab, htr⟩ := c1 hel
      rw [h] at h2
      simp only [Option.some.injEq, Prod.mk.injEq] at h2
      obtain ⟨rfl, rfl⟩ := h2
      refine ⟨fun _ => ⟨fun hf => by rw [htab]; exact hf, ?_, fun _ => by rw [htab]⟩,
        fun hd => absurd rfl hd⟩
      rw [htr, died_lines_append, hm]; rfl
    · have hgt : env.clock s.clock_reads - p.last_meal_time > s.table.time_to_die := by omega
      by_cases hobs : (s.table.simulation_should_end || env.flag_raised s.flag_reads) = true
      · obtain ⟨s2, h2, htr, htab, _⟩ := c3 hgt hobs
        rw [h] at h2
        simp only [Option.some.injEq, Prod.mk.injEq] at h2
        obtain ⟨rfl, rfl⟩ := h2
        have hdl : died_lines s1.trace = died_lines s.trace := by
          rw [htr, died_lines_append, hm]; rfl
        refine ⟨fun hd => absurd hd (by decide), fun _ => ⟨fun _ => by rw [htab], ?_, ?_, ?_, ?_⟩⟩
        · rw [hdl]; omega
        · intro hne; exact absurd rfl hne
        · intro _ hf hq
          rw [hf, hq] at hobs
          exact absurd hobs (by decide)
        · intro hne; cases hne
      · have hf : s.table.simulation_should_end = false := by
          cases hx : s.table.simulation_should_end
          · rfl
          · rw [hx] at hobs; simp at hobs
        have hr : env.flag_raised s.flag_reads = false := by
          cases hx : env.flag_raised s.flag_reads
          · rfl
          · rw [hx] at hobs; simp at hobs
        obtain ⟨s2, h2, hflag, htr, _⟩ := c2 hgt hf hr
        rw [h] at h2
        simp only [Option.some.injEq, Prod.mk.injEq] at h2
        obtain ⟨rfl, rfl⟩ := h2
        have hdl : died_lines s1.trace = died_lines s.trace + 1 := by
          rw [htr, died_lines_append]
          simp [died_lines, Event.is_died]
        refine ⟨fun hd => absurd hd (by decide), fun _ => ⟨fun _ => hflag, ?_, ?_, ?_, ?_⟩⟩
        · rw [hdl]
        · intro hne; exact absurd rfl hne
        · intro _ _ _; exact hdl
        · intro hne; cases hne

theorem monitor_sweep_run (env : Env) :
    ∀ (r i : Nat) (s s1 : Sim) (e : Option MonitorExit),
      monitor_sweep env r i s = some (e, s1) → MonitorRun env s s1 e := by
  intro r
  induction r with
  | zero =>
    intro i s s1 e h
    simp only [monitor_sweep, Option.some.injEq, Prod.mk.injEq] at h
    obtain ⟨rfl, rfl⟩ := h
    exact (QuietStep.q_refl env s).to_run (by decide) (fun _ _ => rfl)
  | succ r ih =>
    intro i s s1 e h
    simp only [monitor_sweep] at h
    cases hd : check_death env i (yield env s) with
    | none => simp [hd] at h
    | some x =>
      obtain ⟨d, sd⟩ := x
      obtain ⟨hd0, hd1⟩ := check_death_result env i _ _ _ hd
      simp only [hd] at h
      by_cases hdz : d = 0
      · have q1 := (yield_quiet env s).q_trans (hd0 hdz)
        simp only [hdz, ne_eq, not_true_eq_false, if_false] at h
        cases hf : check_all_full env (yield env sd) with
        | none => simp [hf] at h
        | some y =>
          obtain ⟨f, sf⟩ := y
          obtain ⟨hk, hdl, hq⟩ := check_all_full_result env _ _ _ hf
          simp only [hf] at h
          by_cases hfz : f = 0
          · simp only [hfz, ne_eq, not_true_eq_false, if_false] at h
            exact (q1.q_trans ((yield_quiet env sd).q_trans (hq hfz))).then_run (ih _ _ _ _ h)
          · simp only [ne_eq, hfz, not_false_eq_true, if_true, Option.some.injEq,
              Prod.mk.injEq] at h
            obtain ⟨rfl, rfl⟩ := h
            refine q1.then_run ⟨hk, ?_, fun _ => hdl, (fun he => by cases he),
              (fun he => by cases he)⟩
            rw [hdl]
            show died_lines sd.trace ≤ died_lines sd.trace + 1
            omega
      · simp only [ne_eq, hdz, not_false_eq_true, if_true, Option.some.injEq,
          Prod.mk.injEq] at h
        obtain ⟨rfl, rfl⟩ := h
        exact (yield_quiet env s).then_run (hd1 hdz)

theorem nap_check_quiet (env : Env) (s : Sim) :
    QuietStep env s (is_simulation_over env (emit (.usleep 1000) s)).2 := by
  refine ⟨fun hf => by simp [is_simulation_over, hf], ?_, fun hq => ?_⟩
  · show died_lines (s.trace ++ [Event.usleep 1000]) = died_lines s.trace
    rw [died_lines_append]; rfl
  · simp [is_simulation_over, hq]

theorem monitoring_routine_run (env : Env) :
    ∀ (fuel : Nat) (s s1 : Sim) (e : Option MonitorExit),
      monitoring_routine env fuel s = some (e, s1) → MonitorRun env s s1 e := by
  intro fuel
  induction fuel with
  | zero =>
    intro s s1 e h
    simp only [monitoring_routine, Option.some.injEq, Prod.mk.injEq] at h
    obtain ⟨rfl, rfl⟩ := h
    exact (QuietStep.q_refl env s).to_run (by decide) (fun _ _ => rfl)
  | succ fuel ih =>
    intro s s1 e h
    simp only [monitoring_routine] at h
    cases hs : monitor_sweep env s.table.num_philos.toNat 0 s with
    | none => simp [hs] at h
    | some x =>
      obtain ⟨oe, s2⟩ := x
      have hrun := monitor_sweep_run env _ _ _ _ _ hs
      cases oe with
      | some e2 =>
        simp only [hs, Option.some.injEq, Prod.mk.injEq] at h
        obtain ⟨rfl, rfl⟩ := h
        exact hrun
      | none =>
        simp only [hs] at h
        have q1 : QuietStep env s s2 :=
          ⟨hrun.keeps, hrun.other (by decide), hrun.running rfl⟩
        have q2 := q1.q_trans (nap_check_quiet env s2)
        split_ifs at h
        · simp only [Option.some.injEq, Prod.mk.injEq] at h
          obtain ⟨rfl, rfl⟩ := h
          exact q2.to_run (by decide) (fun he => by cases he)
        · exact q2.then_run (ih _ _ _ h)

/-! ## Thread creation and table initialisation -/

theorem join_created_table : ∀ (n j : Nat) (s s1 : Sim), join_created n j s = some s1 →
    s1.table = s.table := by
  intro n
  induction n with
  | zero => intro j s s1 h; simp [join_created] at h; rw [h]
  | succ n ih =>
    intro j s s1 h
    cases hp : s.table.philos[j]? with
    | none => simp [join_created, hp] at h
    | some p =>
      simp only [join_created, hp] at h
      have := ih _ _ _ h
      rw [this]
      split_ifs <;> rfl

theorem handle_thread_creation_error_flag (a b : Nat) (s s1 : Sim)
    (h : handle_thread_creation_error a b s = some s1) :
    s1.table.simulation_should_end = true := by
  simp only [handle_thread_creation_error] at h
  rw [join_created_table _ _ _ _ h]

theorem create_philosopher_threads_loop_keeps (env : Env) (start_time : Int) :
    ∀ (n i : Nat) (s s1 : Sim) (r : Int),
      create_philosopher_threads_loop env start_time n i s = some (r, s1) → keeps_flag s s1 := by
  intro n
  induction n with
  | zero =>
    intro i s s1 r h
    simp only [create_philosopher_threads_loop, Option.some.injEq, Prod.mk.injEq] at h
    rw [← h.2]; exact id
  | succ n ih =>
    intro i s s1 r h
    cases hp : s.table.philos[i]? with
    | none => simp [create_philosopher_threads_loop, hp] at h
    | some p =>
      simp only [create_philosopher_threads_loop, hp] at h
      split_ifs at h
      · simp only [Option.map_eq_some'] at h
        obtain ⟨s2, h2, hfin⟩ := h
        simp only [Prod.mk.injEq] at hfin
        rw [← hfin.2]
        exact fun _ => handle_thread_creation_error_flag _ _ _ _ h2
      · exact fun hf => ih _ _ _ _ h (by simpa [set_philo, emit] using hf)

theorem create_monitor_thread_keeps (env : Env) (s : Sim) :
    keeps_flag s (create_monitor_thread env s).2 := by
  intro hf
  simp only [create_monitor_thread]
  split_ifs
  · rfl
  · exact hf

theorem launch_threads_keeps (env : Env) (s s1 : Sim) (r : Int)
    (h : launch_threads env s = some (r, s1)) : keeps_flag s s1 := by
  simp only [launch_threads, create_philosopher_threads] at h
  cases hc : create_philosopher_threads_loop env (get_time_ms env s).1
      (get_time_ms env s).2.table.num_philos.toNat 0
      { (get_time_ms env s).2 with table :=
        { (get_time_ms env s).2.table with start_time := (get_time_ms env s).1 } } with
  | none => simp [hc] at h
  | some x =>
    obtain ⟨r2, s2⟩ := x
    have hk := create_philosopher_threads_loop_keeps env _ _ _ _ _ _ hc
    have h1 : keeps_flag s s2 := fun hf => hk (by simpa [get_time_ms] using hf)
    simp only [hc] at h
    split_ifs at h
    all_goals
      simp only [Option.some.injEq, Prod.mk.injEq] at h
      rw [← h.2]
      first
      | exact h1
      | exact keeps_flag_trans h1 (create_monitor_thread_keeps env s2)

theorem init_table_flag (argc : Int) (argv : List String) (s s1 : Sim)
    (h : init_table argc argv s = some (0, s1)) : s1.table.simulation_should_end = false := by
  simp only [init_table, Option.map_eq_some'] at h
  obtain ⟨r, _, hfin⟩ := h
  split_ifs at hfin
  · simp only [Prod.mk.injEq] at hfin
    exact absurd hfin.1 (by decide)
  · simp only [Prod.mk.injEq] at hfin
    rw [← hfin.2]

theorem create_philosopher_threads_loop_ok (env : Env) (start_time : Int) :
    ∀ (n i : Nat) (s s1 : Sim),
      create_philosopher_threads_loop env start_time n i s = some (0, s1) →
      s1.table.simulation_should_end = s.table.simulation_should_end := by
  intro n
  induction n with
  | zero =>
    intro i s s1 h
    simp only [create_philosopher_threads_loop, Option.some.injEq, Prod.mk.injEq] at h
    rw [← h.2]
  | succ n ih =>
    intro i s s1 h
    cases hp : s.table.philos[i]? with
    | none => simp [create_philosopher_threads_loop, hp] at h
    | some p =>
      simp only [create_philosopher_threads_loop, hp] at h
      split_ifs at h
      · simp only [Option.map_eq_some'] at h
        obtain ⟨s2, _, hfin⟩ := h
        simp only [Prod.mk.injEq] at hfin
        exact absurd hfin.1 (by decide)
      · rw [ih _ _ _ h]; rfl

theorem launch_threads_ok_flag (env : Env) (s s1 : Sim)
    (h : launch_threads env s = some (0, s1)) :
    s1.table.simulation_should_end = s.table.simulation_should_end := by
  simp only [launch_threads, create_philosopher_threads] at h
  cases hc : create_philosopher_threads_loop env (get_time_ms env s).1
      (get_time_ms env s).2.table.num_philos.toNat 0
      { (get_time_ms env s).2 with table :=
        { (get_time_ms env s).2.table with start_time := (get_time_ms env s).1 } } with
  | none => simp [hc] at h
  | some x =>
    obtain ⟨r2, s2⟩ := x
    simp only [hc] at h
    by_cases hr : r2 = 0
    · subst hr
      have h2 := create_philosopher_threads_loop_ok env _ _ _ _ _ hc
      simp only [ne_eq, not_true_eq_false, if_false] at h
      by_cases hok : env.pthread_create_ok s2.thread_creates = true
      · have e : create_monitor_thread env s2 =
            (0, { s2 with thread_creates := s2.thread_creates + 1 }) := by
          simp [create_monitor_thread, hok]
        rw [e] at h
        simp only [not_true_eq_false, if_false, Option.some.injEq, Prod.mk.injEq,
          true_and] at h
        rw [← h]
        exact h2
      · have e : (create_monitor_thread env s2).1 = 1 := by
          simp [create_monitor_thread, hok]
        rw [e] at h
        simp at h
    · simp only [ne_eq, hr, not_false_eq_true, if_true, Option.some.injEq, Prod.mk.injEq] at h
      exact absurd h.1 (by decide)

/-- C7. Exactly-once termination. `init_table` leaves the termination flag
false, and a successful `launch_threads` leaves it as it was. No operation of
the program lowers it again: `check_death`, `check_all_full`, the
thread-creation failure handlers (`handle_thread_creation_error`,
`create_monitor_thread`, and `launch_threads` that calls them) end with the
flag true whenever they start with it true, and the actions of a philosopher
(`take_forks`, `drop_forks`, `eat`, `sleep_philo`, `think`,
`perform_cycle_actions`, `philosopher_routine`) do not write it at all. Every
run of `monitoring_routine`, over any number of sweeps, keeps the flag and
prints at most one "died" line: none while it is still running and none when
it returns by the completion check or the check between sweeps, and exactly
one when it returns by the death check, the flag being false at its start and
no other thread raising it meanwhile. -/
theorem termination_exactly_once :
    (∀ argc argv s s1, init_table argc argv s = some (0, s1) →
      s1.table.simulation_should_end = false) ∧
    (∀ env s s1, launch_threads env s = some (0, s1) →
      s1.table.simulation_should_end = s.table.simulation_should_end) ∧
    (∀ env i s d s1, check_death env i s = some (d, s1) → keeps_flag s s1) ∧
    (∀ env s f s1, check_all_full env s = some (f, s1) → keeps_flag s s1) ∧
    (∀ a b s s1, handle_thread_creation_error a b s = some s1 → keeps_flag s s1) ∧
    (∀ env s, keeps_flag s (create_monitor_thread env s).2) ∧
    (∀ env s r s1, launch_threads env s = some (r, s1) → keeps_flag s s1) ∧
    (∀ env i s s1, take_forks env i s = some s1 → FlagStep env s s1) ∧
    (∀ env i s s1, drop_forks i s = some s1 → FlagStep env s s1) ∧
    (∀ env fuel i s s1, eat env fuel i s = some s1 → FlagStep env s s1) ∧
    (∀ env fuel i s s1, sleep_philo env fuel i s = some s1 → FlagStep env s s1) ∧
    (∀ env fuel i s s1, think env fuel i s = some s1 → FlagStep env s s1) ∧
    (∀ env fuel i s r s1, perform_cycle_actions env fuel i s = some (r, s1) →
      FlagStep env s s1) ∧
    (∀ env fuel cycles i s s1, philosopher_routine env fuel cycles i s = some s1 →
      FlagStep env s s1) ∧
    (∀ env fuel s e s1, monitoring_routine env fuel s = some (e, s1) →
      keeps_flag s s1 ∧
      died_lines s1.trace ≤ died_lines s.trace + 1 ∧
      (e ≠ some .death → died_lines s1.trace = died_lines s.trace) ∧
      (e = some .death → s.table.simulation_should_end = false →
        (∀ k, env.flag_raised k = false) →
        died_lines s1.trace = died_lines s.trace + 1)) := by
  refine ⟨init_table_flag, launch_threads_ok_flag, ?_, ?_, ?_, create_monitor_thread_keeps,
    (fun env s r s1 h => launch_threads_keeps env s s1 r h),
    take_forks_step, drop_forks_step, eat_step, sleep_philo_step, think_step, ?_, ?_, ?_⟩
  · intro env i s d s1 h
    obtain ⟨h0, h1⟩ := check_death_result env i s s1 d h
    by_cases hd : d = 0
    · exact (h0 hd).keeps
    · exact (h1 hd).keeps
  · intro env s f s1 h
    exact (check_all_full_result env s s1 f h).1
  · intro a b s s1 h _
    exact handle_thread_creation_error_flag a b s s1 h
  · intro env fuel i s r s1 h
    exact perform_cycle_actions_step env fuel i s s1 r h
  · intro env fuel cycles i s s1 h
    exact philosopher_routine_step env fuel cycles i s s1 h
  · intro env fuel s e s1 h
    have hrun := monitoring_routine_run env fuel s s1 e h
    exact ⟨hrun.keeps, hrun.at_most, hrun.other, hrun.death⟩

/-- Witness of `termination_exactly_once`: a monitor that finds, at time 10,
a philosopher whose last meal was at time 0 with `time_to_die = 5` returns by
the death check with exactly one "died" line printed. -/
theorem termination_exactly_once_witness :
    ∃ s1, monitoring_routine { Env.quiet with clock := fun k => 10 + (k : Int) } 1
        (Sim.start { ring_table 2 with time_to_die := 5, num_must_eat := -1 }) =
          some (some .death, s1) ∧
      died_lines s1.trace =
        died_lines (Sim.start { ring_table 2 with time_to_die := 5, num_must_eat := -1 }).trace
          + 1 := by
  obtain ⟨x, hx⟩ : ∃ x, monitoring_routine { Env.quiet with clock := fun k => 10 + (k : Int) } 1
      (Sim.start { ring_table 2 with time_to_die := 5, num_must_eat := -1 }) = some x :=
    Option.isSome_iff_exists.mp (by decide)
  obtain ⟨e, s1⟩ := x
  have he : e = some MonitorExit.death := by
    have h2 : (monitoring_routine { Env.quiet with clock := fun k => 10 + (k : Int) } 1
        (Sim.start { ring_table 2 with time_to_die := 5, num_must_eat := -1 })).map Prod.fst =
        some (some MonitorExit.death) := by decide
    rw [hx] at h2
    exact Option.some.inj h2
  subst he
  exact ⟨s1, hx, (termination_exactly_once.2.2.2.2.2.2.2.2.2.2.2.2.2.2 _ 1 _ _ s1 hx).2.2.2 rfl
    (by decide) (fun _ => rfl)⟩

/-! ## Status reporting (`print_status`) -/

theorem print_status_trace (env : Env) (i : Nat) (msg : String) (ov : Bool) (s : Sim)
    (p : t_philo) (hp : s.table.philos[i]? = some p) :
    ∃ s1, print_status env i msg ov s = some s1 ∧
      s1.trace = s.trace ++
        (if ov = true ∨ (s.table.simulation_should_end = false ∧
            env.flag_raised s.flag_reads = false ∧
            env.flag_raised (s.flag_reads + 1) = false) then
          [.status (env.clock s.clock_reads - s.table.start_time) p.id msg]
        else []) := by
  cases ov <;> cases hf : s.table.simulation_should_end <;>
    cases h0 : env.flag_raised s.flag_reads <;>
    cases h1 : env.flag_raised (s.flag_reads + 1) <;>
    simp [print_status, hp, is_simulation_over, get_time_ms, emit, hf, h0, h1]

/-- C11. Status reporting. For philosopher `i` with record `p`, `print_status`
returns and appends to the output either nothing or the single line
`<elapsed_ms> <p.id> <message>` with `elapsed_ms` the clock reading minus
`start_time`; the line is printed exactly when override is set or the flag is
false at both reads that `print_status` makes of it. So with override 0
nothing is printed when the flag is true (at its first read, or at its second
read under the print lock); with override set exactly one line is printed
whatever the flag; and when the flag is false exactly one line is printed. -/
theorem print_status_spec (env : Env) (i : Nat) (msg : String) (ov : Bool) (s : Sim)
    (p : t_philo) (hp : s.table.philos[i]? = some p) :
    ∃ s1, print_status env i msg ov s = some s1 ∧
      s1.trace = s.trace ++
        (if ov = true ∨ (s.table.simulation_should_end = false ∧
            env.flag_raised s.flag_reads = false ∧
            env.flag_raised (s.flag_reads + 1) = false) then
          [.status (env.clock s.clock_reads - s.table.start_time) p.id msg]
        else []) ∧
      (ov = false → (is_simulation_over env s).1 = true → s1.trace = s.trace) ∧
      (ov = false →
        (is_simulation_over env (get_time_ms env (is_simulation_over env s).2).2).1 = true →
        s1.trace = s.trace) ∧
      (ov = true → s1.trace = s.trace ++
        [.status (env.clock s.clock_reads - s.table.start_time) p.id msg]) ∧
      ((is_simulation_over env s).1 = false →
        (is_simulation_over env (get_time_ms env (is_simulation_over env s).2).2).1 = false →
        s1.trace = s.trace ++
          [.status (env.clock s.clock_reads - s.table.start_time) p.id msg]) := by
  obtain ⟨s1, h1, htr⟩ := print_status_trace env i msg ov s p hp
  refine ⟨s1, h1, htr, ?_, ?_, ?_, ?_⟩
  · intro hov hv
    rw [htr, if_neg, List.append_nil]
    simp only [is_simulation_over, Bool.or_eq_true] at hv
    rintro (h | ⟨h2, h3, _⟩)
    · rw [hov] at h; cases h
    · rcases hv with hv | hv
      · rw [h2] at hv; cases hv
      · rw [h3] at hv; cases hv
  · intro hov hv
    rw [htr, if_neg, List.append_nil]
    simp only [is_simulation_over, get_time_ms, Bool.or_eq_true] at hv
    rintro (h | ⟨h2, h3, h4⟩)
    · rw [hov] at h; cases h
    · rcases hv with (hv | hv) | hv
      · rw [h2] at hv; cases hv
      · rw [h3] at hv; cases hv
      · rw [h4] at hv; cases hv
  · intro hov
    rw [htr, if_pos (Or.inl hov)]
  · intro hv1 hv2
    rw [htr, if_pos]
    right
    simp only [is_simulation_over, get_time_ms, Bool.or_eq_false_iff] at hv1 hv2
    exact ⟨hv1.1, hv1.2, hv2.2⟩

/-- Witness of `print_status_spec`: philosopher 1 of a ring of two reports
with nobody interfering. -/
theorem print_status_spec_witness :
    ∃ s1, print_status Env.quiet 0 "is eating" false (Sim.start (ring_table 2)) = some s1 ∧
      s1.trace = [.status 0 1 "is eating"] := by
  obtain ⟨s1, h1, _, _, _, _, h5⟩ := print_status_spec Env.quiet 0 "is eating" false
    (Sim.start (ring_table 2))
    { id := 1, meals_eaten := 0, last_meal_time := 0, thread_valid := false,
      state := .THINKING, left_fork := 0, right_fork := some 1 } (by decide)
  exact ⟨s1, h1, h5 (by decide) (by decide)⟩

/-! ## Interruptible wait: the first poll that ends it -/

theorem precise_usleep_loop_first (env : Env) (time_ms start : Int) :
    ∀ (k fuel : Nat) (s : Sim), k < fuel →
      (∀ j, j < k → ¬ (s.table.simulation_should_end = true ∨
        env.flag_raised (s.flag_reads + j) = true ∨
        time_ms ≤ env.clock (s.clock_reads + j) - start)) →
      (s.table.simulation_should_end = true ∨ env.flag_raised (s.flag_reads + k) = true ∨
        time_ms ≤ env.clock (s.clock_reads + k) - start) →
      ∃ s1, precise_usleep_loop env time_ms start fuel s = some s1 ∧
        s1.trace = s.trace ++ List.replicate k (.usleep 500) ∧
        s1.flag_reads = s.flag_reads + k + 1 ∧
        s1.table.simulation_should_end =
          (s.table.simulation_should_end || env.flag_raised (s.flag_reads + k)) ∧
        s1.clock_reads = s.clock_reads + k +
          (if (s.table.simulation_should_end || env.flag_raised (s.flag_reads + k)) = true
            then 0 else 1) := by
  intro k
  induction k with
  | zero =>
    intro fuel s hk _ hend
    obtain ⟨n, rfl⟩ : ∃ n, fuel = n + 1 := ⟨fuel - 1, by omega⟩
    simp only [Nat.add_zero] at hend ⊢
    by_cases hv : (s.table.simulation_should_end || env.flag_raised s.flag_reads) = true
    · simp [precise_usleep_loop, is_simulation_over, hv]
    · have ht : time_ms ≤ env.clock s.clock_reads - start := by
        rcases hend with h | h | h
        · rw [h] at hv; simp at hv
        · rw [h] at hv; simp at hv
        · exact h
      simp only [Bool.not_eq_true] at hv
      simp [precise_usleep_loop, is_simulation_over, get_time_ms, hv, ht]
  | succ k ih =>
    intro fuel s hk hnot hend
    obtain ⟨n, rfl⟩ : ∃ n, fuel = n + 1 := ⟨fuel - 1, by omega⟩
    have h0 := hnot 0 (by omega)
    simp only [Nat.add_zero, not_or] at h0
    obtain ⟨hf, hr, ht⟩ := h0
    have hf' : s.table.simulation_should_end = false := by simpa using hf
    have hr' : env.flag_raised s.flag_reads = false := by simpa using hr
    have hstep : precise_usleep_loop env time_ms start (n + 1) s =
        precise_usleep_loop env time_ms start n
          (emit (.usleep 500) (get_time_ms env (is_simulation_over env s).2).2) := by
      simp [precise_usleep_loop, is_simulation_over, get_time_ms, hf', hr', ht]
    rw [hstep]
    have e1 : ∀ j, s.flag_reads + 1 + j = s.flag_reads + (j + 1) := fun j => by omega
    have e2 : ∀ j, s.clock_reads + 1 + j = s.clock_reads + (j + 1) := fun j => by omega
    obtain ⟨s1, h1, htr, hfr, hfl, hcr⟩ := ih n
      (emit (.usleep 500) (get_time_ms env (is_simulation_over env s).2).2) (by omega)
      (by
        intro j hj
        have := hnot (j + 1) (by omega)
        simpa [is_simulation_over, get_time_ms, emit, hf', hr', e1, e2] using this)
      (by simpa [is_simulation_over, get_time_ms, emit, hf', hr', e1, e2] using hend)
    refine ⟨s1, h1, ?_, ?_, ?_, ?_⟩
    · rw [htr]
      simp [is_simulation_over, get_time_ms, emit, List.replicate_succ]
    · rw [hfr]; simp [is_simulation_over, get_time_ms, emit]; omega
    · rw [hfl]; simp [is_simulation_over, get_time_ms, emit, hf', hr', e1]
    · rw [hcr]; simp [is_simulation_over, get_time_ms, emit, hf', hr', e1]; omega

theorem precise_usleep_loop_sound (env : Env) (time_ms start : Int) :
    ∀ (fuel : Nat) (s s1 : Sim), precise_usleep_loop env time_ms start fuel s = some s1 →
      s1.table.simulation_should_end = true ∨
      (s.clock_reads + 1 ≤ s1.clock_reads ∧
        time_ms ≤ env.clock (s1.clock_reads - 1) - start) := by
  intro fuel
  induction fuel with
  | zero => intro s s1 h; simp [precise_usleep_loop] at h
  | succ fuel ih =>
    intro s s1 h
    simp only [precise_usleep_loop] at h
    split_ifs at h with hf ht
    · cases h; left; exact hf
    · cases h; right
      exact ⟨by simp [get_time_ms, is_simulation_over], by
        simpa [get_time_ms, is_simulation_over] using ht⟩
    · rcases ih _ _ h with h1 | ⟨h1, h2⟩
      · left; exact h1
      · right
        refine ⟨?_, h2⟩
        simp only [emit, get_time_ms, is_simulation_over] at h1
        omega

/-- C14. Interruptible wait. Over any clock readings and flag observations,
`precise_usleep` returns at the first poll `k` (given more than `k` polls of
budget) at which the termination flag is true or the clock reading is at
least `time_ms` after the reading taken at entry: it has then slept (`usleep
(500)`) exactly `k` times and read the flag `k + 1` times. When the flag is
already true at entry it performs no sleep at all. And whenever it returns,
the flag is true or the last clock reading is at least `time_ms` after the
first one. -/
theorem precise_usleep_spec (env : Env) (fuel : Nat) (time_ms : Int) (s : Sim) :
    (∀ k, k < fuel → (∀ j, j < k → ¬ poll_ends env time_ms s j) → poll_ends env time_ms s k →
      ∃ s1, precise_usleep env fuel time_ms s = some s1 ∧
        s1.trace = s.trace ++ List.replicate k (.usleep 500) ∧
        s1.flag_reads = s.flag_reads + k + 1 ∧
        s1.table.simulation_should_end =
          (s.table.simulation_should_end || env.flag_raised (s.flag_reads + k))) ∧
    (0 < fuel → (is_simulation_over env s).1 = true →
      ∃ s1, precise_usleep env fuel time_ms s = some s1 ∧ s1.trace = s.trace) ∧
    (∀ s1, precise_usleep env fuel time_ms s = some s1 →
      s1.table.simulation_should_end = true ∨
      (s.clock_reads + 2 ≤ s1.clock_reads ∧
        time_ms ≤ env.clock (s1.clock_reads - 1) - env.clock s.clock_reads)) := by
  have first : ∀ k, k < fuel → (∀ j, j < k → ¬ poll_ends env time_ms s j) →
      poll_ends env time_ms s k →
      ∃ s1, precise_usleep env fuel time_ms s = some s1 ∧
        s1.trace = s.trace ++ List.replicate k (.usleep 500) ∧
        s1.flag_reads = s.flag_reads + k + 1 ∧
        s1.table.simulation_should_end =
          (s.table.simulation_should_end || env.flag_raised (s.flag_reads + k)) := by
    intro k hk hnot hend
    obtain ⟨s1, h1, h2, h3, h4, _⟩ := precise_usleep_loop_first env time_ms
      (get_time_ms env s).1 k fuel (get_time_ms env s).2 hk
      (by intro j hj; simpa [poll_ends, get_time_ms] using hnot j hj)
      (by simpa [poll_ends, get_time_ms] using hend)
    exact ⟨s1, h1, h2, h3, h4⟩
  refine ⟨first, ?_, ?_⟩
  · intro hfuel hv
    obtain ⟨s1, h1, h2, _⟩ := first 0 hfuel (fun j hj => absurd hj (Nat.not_lt_zero j)) (by
      simp only [is_simulation_over, Bool.or_eq_true] at hv
      rcases hv with h | h
      · exact Or.inl h
      · exact Or.inr (Or.inl h))
    exact ⟨s1, h1, by simpa using h2⟩
  · intro s1 h
    rcases precise_usleep_loop_sound env time_ms _ fuel _ s1 h with h1 | ⟨h1, h2⟩
    · exact Or.inl h1
    · right
      simp only [get_time_ms] at h1 h2
      exact ⟨by omega, h2⟩

/-- Witness of `precise_usleep_spec`: with a clock advancing one millisecond
per reading and nobody raising the flag, a wait of 3 ms ends at its third
poll (index 2) after two sleeps. -/
theorem precise_usleep_spec_witness :
    ∃ s1, precise_usleep Env.quiet 5 3 (Sim.start (ring_table 2)) = some s1 ∧
      s1.trace = [.usleep 500, .usleep 500] := by
  obtain ⟨s1, h1, h2, _⟩ := (precise_usleep_spec Env.quiet 5 3 (Sim.start (ring_table 2))).1 2
    (by decide)
    (by
      intro j hj
      have : j = 0 ∨ j = 1 := by omega
      rcases this with rfl | rfl <;> decide)
    (by decide)
  exact ⟨s1, h1, by simpa using h2⟩

/-! ## The monitor returns only with the flag true -/

theorem check_death_fires_flag (env : Env) (i : Nat) (s s1 : Sim) (d : Int)
    (h : check_death env i s = some (d, s1)) (hd : d ≠ 0) :
    s1.table.simulation_should_end = true := by
  cases hp : s.table.philos[i]? with
  | none => simp [check_death, hp] at h
  | some p =>
    obtain ⟨c1, c2, c3⟩ := check_death_cases env i s p hp
    by_cases hel : env.clock s.clock_reads - p.last_meal_time ≤ s.table.time_to_die
    · obtain ⟨s2, h2, _⟩ := c1 hel
      rw [h] at h2
      simp only [Option.some.injEq, Prod.mk.injEq] at h2
      exact absurd h2.1 hd
    · have hgt : env.clock s.clock_reads - p.last_meal_time > s.table.time_to_die := by omega
      by_cases hobs : (s.table.simulation_should_end || env.flag_raised s.flag_reads) = true
      · obtain ⟨s2, h2, _, htab, _⟩ := c3 hgt hobs
        rw [h] at h2
        simp only [Option.some.injEq, Prod.mk.injEq] at h2
        rw [h2.2, htab]
      · have hf : s.table.simulation_should_end = false := by
          cases hx : s.table.simulation_should_end
          · rfl
          · rw [hx] at hobs; simp at hobs
        have hr : env.flag_raised s.flag_reads = false := by
          cases hx : env.flag_raised s.flag_reads
          · rfl
          · rw [hx] at hobs; simp at hobs
        obtain ⟨s2, h2, hflag, _⟩ := c2 hgt hf hr
        rw [h] at h2
        simp only [Option.some.injEq, Prod.mk.injEq] at h2
        rw [h2.2]; exact hflag

theorem check_all_full_fires_flag (env : Env) (s s1 : Sim) (f : Int)
    (h : check_all_full env s = some (f, s1)) (hf : f ≠ 0) :
    s1.table.simulation_should_end = true := by
  unfold check_all_full at h
  split_ifs at h with hq
  · simp only [Option.some.injEq, Prod.mk.injEq] at h
    exact absurd h.1.symm hf
  · simp only [Option.map_eq_some'] at h
    obtain ⟨⟨a, s2⟩, _, hfin⟩ := h
    simp only [finalize_if_all_full] at hfin
    split_ifs at hfin with ha hobs
    · simp only [Prod.mk.injEq] at hfin
      rw [← hfin.2]
    · simp only [Prod.mk.injEq] at hfin
      rw [← hfin.2]
      simpa using hobs
    · simp only [Prod.mk.injEq] at hfin
      exact absurd hfin.1.symm hf

theorem monitor_sweep_flag (env : Env) :
    ∀ (r i : Nat) (s s1 : Sim) (e : MonitorExit),
      monitor_sweep env r i s = some (some e, s1) → s1.table.simulation_should_end = true := by
  intro r
  induction r with
  | zero => intro i s s1 e h; simp [monitor_sweep] at h
  | succ r ih =>
    intro i s s1 e h
    simp only [monitor_sweep] at h
    cases hd : check_death env i (yield env s) with
    | none => simp [hd] at h
    | some x =>
      obtain ⟨d, sd⟩ := x
      simp only [hd] at h
      by_cases hdz : d = 0
      · simp only [hdz, ne_eq, not_true_eq_false, if_false] at h
        cases hf : check_all_full env (yield env sd) with
        | none => simp [hf] at h
        | some y =>
          obtain ⟨f, sf⟩ := y
          simp only [hf] at h
          by_cases hfz : f = 0
          · simp only [hfz, ne_eq, not_true_eq_false, if_false] at h
            exact ih _ _ _ _ h
          · simp only [ne_eq, hfz, not_false_eq_true, if_true, Option.some.injEq,
              Prod.mk.injEq] at h
            rw [← h.2]
            exact check_all_full_fires_flag env _ _ _ hf hfz
      · simp only [ne_eq, hdz, not_false_eq_true, if_true, Option.some.injEq,
          Prod.mk.injEq] at h
        rw [← h.2]
        exact check_death_fires_flag env i _ _ _ hd hdz

theorem monitoring_routine_flag (env : Env) :
    ∀ (fuel : Nat) (s s1 : Sim) (e : MonitorExit),
      monitoring_routine env fuel s = some (some e, s1) →
      s1.table.simulation_should_end = true := by
  intro fuel
  induction fuel with
  | zero => intro s s1 e h; simp [monitoring_routine] at h
  | succ fuel ih =>
    intro s s1 e h
    simp only [monitoring_routine] at h
    cases hs : monitor_sweep env s.table.num_philos.toNat 0 s with
    | none => simp [hs] at h
    | some x =>
      obtain ⟨oe, s2⟩ := x
      cases oe with
      | some e2 =>
        simp only [hs, Option.some.injEq, Prod.mk.injEq] at h
        obtain ⟨h1, h2⟩ := h
        rw [← h2]
        exact monitor_sweep_flag env _ _ _ _ e2 hs
      | none =>
        simp only [hs] at h
        split_ifs at h with hobs
        · simp only [Option.some.injEq, Prod.mk.injEq] at h
          rw [← h.2]
          simpa [is_simulation_over] using hobs
        · exact ih _ _ _ h

theorem option_fst_exists {α β : Type} (o : Option (α × β)) (a : α)
    (h : o.map Prod.fst = some a) : ∃ b, o = some (a, b) := by
  cases o with
  | none => cases h
  | some x =>
    obtain ⟨a1, b⟩ := x
    simp only [Option.map_some', Option.some.injEq] at h
    subst h
    exact ⟨b, rfl⟩

/-- C15. The monitor terminates only when the termination flag is true: for
every run of `monitoring_routine` that returns, by the death check, by the
completion check or by the check between sweeps, the flag is true in the
state at the moment of return. -/
theorem monitor_returns_with_flag (env : Env) (fuel : Nat) (s s1 : Sim) (e : MonitorExit)
    (h : monitoring_routine env fuel s = some (some e, s1)) :
    s1.table.simulation_should_end = true :=
  monitoring_routine_flag env fuel s s1 e h

/-- Witness of `monitor_returns_with_flag`: one run for each of the three
ways of returning (a starved philosopher; a quota of 0 meals; the flag raised
by another thread before the check between sweeps). -/
theorem monitor_returns_with_flag_witness :
    (∃ s1, monitoring_routine { Env.quiet with clock := fun k => 10 + (k : Int) } 1
        (Sim.start { ring_table 2 with time_to_die := 5, num_must_eat := -1 }) =
          some (some .death, s1) ∧ s1.table.simulation_should_end = true) ∧
    (∃ s1, monitoring_routine Env.quiet 1
        (Sim.start { ring_table 2 with time_to_die := 5, num_must_eat := 0 }) =
          some (some .all_full, s1) ∧ s1.table.simulation_should_end = true) ∧
    (∃ s1, monitoring_routine (Env.raise_at 0) 1
        (Sim.start { ring_table 2 with time_to_die := 5, num_must_eat := -1 }) =
          some (some .flag_seen, s1) ∧ s1.table.simulation_should_end = true) := by
  refine ⟨?_, ?_, ?_⟩
  · obtain ⟨s1, h1⟩ := option_fst_exists
      (monitoring_routine { Env.quiet with clock := fun k => 10 + (k : Int) } 1
        (Sim.start { ring_table 2 with time_to_die := 5, num_must_eat := -1 }))
      (some .death) (by decide)
    exact ⟨s1, h1, monitor_returns_with_flag
      { Env.quiet with clock := fun k => 10 + (k : Int) } 1
      (Sim.start { ring_table 2 with time_to_die := 5, num_must_eat := -1 }) s1 .death h1⟩
  · obtain ⟨s1, h1⟩ := option_fst_exists
      (monitoring_routine Env.quiet 1
        (Sim.start { ring_table 2 with time_to_die := 5, num_must_eat := 0 }))
      (some .all_full) (by decide)
    exact ⟨s1, h1, monitor_returns_with_flag Env.quiet 1
      (Sim.start { ring_table 2 with time_to_die := 5, num_must_eat := 0 }) s1 .all_full h1⟩
  · obtain ⟨s1, h1⟩ := option_fst_exists
      (monitoring_routine (Env.raise_at 0) 1
        (Sim.start { ring_table 2 with time_to_die := 5, num_must_eat := -1 }))
      (some .flag_seen) (by decide)
    exact ⟨s1, h1, monitor_returns_with_flag (Env.raise_at 0) 1
      (Sim.start { ring_table 2 with time_to_die := 5, num_must_eat := -1 }) s1 .flag_seen h1⟩

/-! ## The thinking phase -/

theorem think_time_eq (a b : Int) (h : a > b) :
    (if Int.tdiv (a - b) 2 ≤ 0 then 1 else Int.tdiv (a - b) 2) = max 1 ((a - b) / 2) := by
  have e : Int.tdiv (a - b) 2 = (a - b) / 2 := Int.tdiv_eq_ediv (by omega) (by omega)
  rw [e]
  split_ifs with h1
  · omega
  · omega

theorem think_unfold (env : Env) (fuel i : Nat) (s s1 : Sim) (p : t_philo)
    (hp : s.table.philos[i]? = some p)
    (hentry : (is_simulation_over env s).1 = false)
    (h1 : print_status env i "is thinking" false (is_simulation_over env s).2 = some s1) :
    think env fuel i s =
      if s.table.num_philos > 1 ∧ s.table.time_to_eat > s.table.time_to_sleep then
        if env.clock s1.clock_reads - p.last_meal_time +
            max 1 ((s.table.time_to_eat - s.table.time_to_sleep) / 2) <
              s.table.time_to_die then
          precise_usleep env fuel
            (max 1 ((s.table.time_to_eat - s.table.time_to_sleep) / 2))
            (emit .meal_unlock (get_time_ms env (emit .meal_lock
              (set_philo i { p with state := .THINKING } s1))).2)
        else some (emit .meal_unlock (get_time_ms env (emit .meal_lock
              (set_philo i { p with state := .THINKING } s1))).2)
      else some (set_philo i { p with state := .THINKING } s1) := by
  have hp0 : (is_simulation_over env s).2.table.philos[i]? = some p := by
    simpa [is_simulation_over] using hp
  obtain ⟨s1', h1', hobs⟩ := print_status_observes env i "is thinking" false _ p hp0
  rw [h1] at h1'
  simp only [Option.some.injEq] at h1'
  subst h1'
  have htab := hobs.table_eq
  have hp1 : s1.table.philos[i]? = some p := by
    rw [htab]; simpa [is_simulation_over] using hp
  have hn : s1.table.num_philos = s.table.num_philos := by rw [htab]; rfl
  have he : s1.table.time_to_eat = s.table.time_to_eat := by rw [htab]; rfl
  have hs : s1.table.time_to_sleep = s.table.time_to_sleep := by rw [htab]; rfl
  have hd : s1.table.time_to_die = s.table.time_to_die := by rw [htab]; rfl
  have hget : (set_philo i { p with state := .THINKING } s1).table.philos[i]? =
      some { p with state := .THINKING } := set_philo_get i _ p s1 hp1
  have hn2 : (set_philo i { p with state := .THINKING } s1).table.num_philos =
      s.table.num_philos := hn
  have he2 : (set_philo i { p with state := .THINKING } s1).table.time_to_eat =
      s.table.time_to_eat := he
  have hs2 : (set_philo i { p with state := .THINKING } s1).table.time_to_sleep =
      s.table.time_to_sleep := hs
  have hd3 : (emit .meal_unlock (get_time_ms env (emit .meal_lock
      (set_philo i { p with state := .THINKING } s1))).2).table.time_to_die =
        s.table.time_to_die := hd
  have hc1 : (get_time_ms env (emit .meal_lock
      (set_philo i { p with state := .THINKING } s1))).1 = env.clock s1.clock_reads := rfl
  simp only [think, hentry, Bool.false_eq_true, if_false, h1, Option.some_bind,
    set_state_some i .THINKING s1 p hp1, hn2, he2, hs2, hget, hd3, hc1]
  by_cases hc : s.table.num_philos > 1 ∧ s.table.time_to_eat > s.table.time_to_sleep
  · rw [if_pos hc, if_pos hc]
    simp only [think_time_eq _ _ hc.2]
  · rw [if_neg hc, if_neg hc]

/-- C13 as amended. When the guarded read at the entry of `think` gives true,
`think` returns at once: no report, no change of state, no wait. When it gives
false, `think` reports "is thinking" (one line, printed provided no other
thread raises the flag before `print_status` has read it twice) and sets the
state to `THINKING`; it then waits only when `num_philos > 1` and
`time_to_eat > time_to_sleep`; the pause is then
`max 1 ((time_to_eat - time_to_sleep) / 2)`, which is at least 1, and the wait
`precise_usleep` of that pause is performed only if the clock reading made
under the meal lock minus `last_meal_time`, plus the pause, is below
`time_to_die`; in every other case `think` returns without waiting. -/
theorem think_spec (env : Env) (fuel i : Nat) (s : Sim) (p : t_philo)
    (hp : s.table.philos[i]? = some p) :
    ((is_simulation_over env s).1 = true →
      think env fuel i s = some (is_simulation_over env s).2 ∧
      (is_simulation_over env s).2.trace = s.trace ∧
      (is_simulation_over env s).2.table.philos = s.table.philos) ∧
    ((is_simulation_over env s).1 = false →
      ∃ s1 s2 s3 report now pause,
        print_status env i "is thinking" false (is_simulation_over env s).2 = some s1 ∧
        s1.trace = s.trace ++ report ∧
        (report = [] ∨ ∃ t, report = [.status t p.id "is thinking"]) ∧
        ((∀ k, k < 3 → env.flag_raised (s.flag_reads + k) = false) →
          report = [.status (env.clock s.clock_reads - s.table.start_time) p.id
            "is thinking"]) ∧
        s2.trace = s1.trace ∧
        s2.table.philos = s.table.philos.set i { p with state := .THINKING } ∧
        s3.trace = s2.trace ++ [.meal_lock, .meal_unlock] ∧
        s3.table.philos = s2.table.philos ∧
        now = env.clock s1.clock_reads ∧
        pause = max 1 ((s.table.time_to_eat - s.table.time_to_sleep) / 2) ∧
        1 ≤ pause ∧
        (¬ (s.table.num_philos > 1 ∧ s.table.time_to_eat > s.table.time_to_sleep) →
          think env fuel i s = some s2) ∧
        (s.table.num_philos > 1 → s.table.time_to_eat > s.table.time_to_sleep →
          ¬ (now - p.last_meal_time + pause < s.table.time_to_die) →
          think env fuel i s = some s3) ∧
        (s.table.num_philos > 1 → s.table.time_to_eat > s.table.time_to_sleep →
          now - p.last_meal_time + pause < s.table.time_to_die →
          think env fuel i s = precise_usleep env fuel pause s3) ∧
        (wait_completes env fuel pause s3.flag_reads s3.clock_reads →
          ∃ s4, think env fuel i s = some s4 ∧ s4.table.philos = s2.table.philos)) := by
  constructor
  · intro hentry
    refine ⟨?_, rfl, rfl⟩
    simp only [think, hentry, if_true]
  · intro hentry
    have hf0 : s.table.simulation_should_end = false := by
      simp [is_simulation_over] at hentry; exact hentry.1
    have hr0 : env.flag_raised s.flag_reads = false := by
      simp [is_simulation_over] at hentry; exact hentry.2
    have hp0 : (is_simulation_over env s).2.table.philos[i]? = some p := by
      simpa [is_simulation_over] using hp
    obtain ⟨s1, h1, htr⟩ := print_status_trace env i "is thinking" false _ p hp0
    obtain ⟨s1', h1', hobs⟩ := print_status_observes env i "is thinking" false _ p hp0
    rw [h1] at h1'
    simp only [Option.some.injEq] at h1'
    subst h1'
    have hphil : s1.table.philos = s.table.philos := by rw [hobs.table_eq]; rfl
    have hun := think_unfold env fuel i s s1 p hp hentry h1
    refine ⟨s1, set_philo i { p with state := .THINKING } s1,
      emit .meal_unlock (get_time_ms env (emit .meal_lock
        (set_philo i { p with state := .THINKING } s1))).2, _,
      env.clock s1.clock_reads,
      max 1 ((s.table.time_to_eat - s.table.time_to_sleep) / 2),
      h1, htr, ?_, ?_, rfl, ?_, ?_, rfl, rfl, rfl, le_max_left _ _, ?_, ?_, ?_, ?_⟩
    · split
      · exact Or.inr ⟨_, rfl⟩
      · exact Or.inl rfl
    · intro hq
      have q1 := hq 1 (by omega)
      have q2 := hq 2 (by omega)
      rw [if_pos]
      · rfl
      · right
        refine ⟨?_, ?_, ?_⟩
        · simp [is_simulation_over, hf0, hr0]
        · exact q1
        · exact q2
    · simp [hphil]
    · simp [emit, get_time_ms]
    · intro hc
      rw [hun, if_neg hc]
    · intro hn he hd
      rw [hun, if_pos ⟨hn, he⟩, if_neg hd]
    · intro hn he hd
      rw [hun, if_pos ⟨hn, he⟩, if_pos hd]
    · intro hw
      rw [hun]
      split_ifs with hc hd
      · obtain ⟨s4, h4, o4⟩ := precise_usleep_returns env fuel _ _ (Or.inr hw)
        refine ⟨s4, h4, ?_⟩
        rw [o4.table_eq]
        rfl
      · exact ⟨_, rfl, rfl⟩
      · exact ⟨_, rfl, rfl⟩

/-- Witness of `think_spec`: philosopher 1 of a ring of two with
`time_to_eat = 10`, `time_to_sleep = 4` and `time_to_die = 100`, nobody
interfering: the report is printed and the pause of 3 ms is taken. -/
theorem think_spec_witness :
    ∃ s3, think Env.quiet 5 0
        (Sim.start { ring_table 2 with time_to_die := 100, time_to_eat := 10,
                                       time_to_sleep := 4 }) =
        precise_usleep Env.quiet 5 3 s3 ∧
      s3.trace = [.status 0 1 "is thinking", .meal_lock, .meal_unlock] := by
  obtain ⟨s1, s2, s3, report, now, pause, h1, h2, _, h4, h5, _, h7, _, h9, h10, _, _, _,
      h14, _⟩ :=
    (think_spec Env.quiet 5 0
      (Sim.start { ring_table 2 with time_to_die := 100, time_to_eat := 10,
                                     time_to_sleep := 4 })
      { id := 1, meals_eaten := 0, last_meal_time := 0, thread_valid := false,
        state := .THINKING, left_fork := 0, right_fork := some 1 } (by decide)).2 (by decide)
  have hrep := h4 (fun _ _ => rfl)
  have e : s1.clock_reads = 1 := by
    have : print_status Env.quiet 0 "is thinking" false
        (is_simulation_over Env.quiet
          (Sim.start { ring_table 2 with time_to_die := 100, time_to_eat := 10,
                                         time_to_sleep := 4 })).2 = some
        { (is_simulation_over Env.quiet
            (Sim.start { ring_table 2 with time_to_die := 100, time_to_eat := 10,
                                           time_to_sleep := 4 })).2 with
          trace := [.status 0 1 "is thinking"], flag_reads := 3, clock_reads := 1 } := by
      decide
    rw [this] at h1
    rw [← Option.some.inj h1]
  have hpause : pause = 3 := by rw [h10]; decide
  have hnow : now = 1 := by rw [h9, e]; rfl
  refine ⟨s3, ?_, ?_⟩
  · rw [← hpause]
    exact h14 (by decide) (by decide) (by rw [hnow, hpause]; decide)
  · rw [h7, h5, h2, hrep]
    rfl

/-- Counterexample to C13 as stated, in a ring of two with
`time_to_eat = time_to_sleep` (so no pause is due). First run: the flag is
true at entry and the philosopher is `SLEEPING`; `think` prints nothing and
leaves the state `SLEEPING`. Second run: the flag is raised right after the
entry check; the state becomes `THINKING` but no "is thinking" line is
printed. -/
theorem think_without_report :
    (think Env.quiet 1 0
        (set_philo 0 { id := 1, meals_eaten := 0, last_meal_time := 0, thread_valid := false,
                       state := .SLEEPING, left_fork := 0, right_fork := some 1 }
          (Sim.start { ring_table 2 with simulation_should_end := true }))).map
        (fun s => (s.trace, (s.table.philos[0]?).map (fun q => q.state))) =
      some ([], some .SLEEPING) ∧
    (is_simulation_over (Env.raise_at 1) (Sim.start (ring_table 2))).1 = false ∧
    (think (Env.raise_at 1) 1 0 (Sim.start (ring_table 2))).map
        (fun s => (s.trace, (s.table.philos[0]?).map (fun q => q.state))) =
      some ([], some .THINKING) := by
  decide

/-! ## A lone philosopher -/

theorem yield_idle (env : Env) (hact : ∀ k l, env.actors k l = l) (s : Sim) :
    yield env s = { s with yields := s.yields + 1 } := by
  simp only [yield, hact]

theorem lone_sweep_quiet (env : Env)
    (hact : ∀ k l, env.actors k l = l) (s : Sim) (p : t_philo)
    (hn : s.table.num_philos = 1) (hp : s.table.philos[0]? = some p)
    (hq : s.table.num_must_eat = -1 ∨ p.meals_eaten < s.table.num_must_eat)
    (hel : env.clock s.clock_reads - p.last_meal_time ≤ s.table.time_to_die) :
    ∃ s2 evs, monitor_sweep env 1 0 s = some (none, s2) ∧ s2.table = s.table ∧
      s2.clock_reads = s.clock_reads + 1 ∧ s2.flag_reads = s.flag_reads ∧
      s2.trace = s.trace ++ evs ∧
      ∀ e ∈ evs, e = .meal_lock ∨ e = .meal_unlock := by
  have hel1 : ¬ env.clock s.clock_reads - p.last_meal_time > s.table.time_to_die := by omega
  by_cases hm : s.table.num_must_eat = -1
  · refine ⟨{ s with trace := s.trace ++ [.meal_lock, .meal_unlock],
                      clock_reads := s.clock_reads + 1, yields := s.yields + 1 + 1 },
      [.meal_lock, .meal_unlock], ?_, ?_, ?_, ?_, ?_, ?_⟩
    · simp [monitor_sweep, check_death, yield_idle env hact, hp, get_time_ms, emit, hel1,
        check_all_full, hm]
    · rfl
    · rfl
    · rfl
    · simp
    · intro e he
      simpa using he
  · have hlt : p.meals_eaten < s.table.num_must_eat := by
      rcases hq with hq | hq
      · exact absurd hq hm
      · exact hq
    refine ⟨{ s with trace := s.trace ++ [.meal_lock, .meal_unlock, .meal_lock, .meal_unlock],
                     clock_reads := s.clock_reads + 1, yields := s.yields + 1 + 1 },
      [.meal_lock, .meal_unlock, .meal_lock, .meal_unlock], ?_, ?_, ?_, ?_, ?_, ?_⟩
    · simp [monitor_sweep, hn, check_death, yield_idle env hact, hp, get_time_ms, emit, hel1,
        check_all_full, hm, check_all_full_loop, is_philo_not_full_and_sim_running, hlt,
        finalize_if_all_full]
    · rfl
    · rfl
    · rfl
    · simp
    · intro e he
      simp at he
      tauto

theorem lone_sweep_fires (env : Env) (hquiet : ∀ k, env.flag_raised k = false)
    (hact : ∀ k l, env.actors k l = l) (s : Sim) (p : t_philo)
    (hp : s.table.philos[0]? = some p) (hf : s.table.simulation_should_end = false)
    (hel : env.clock s.clock_reads - p.last_meal_time > s.table.time_to_die) :
    ∃ s1, monitor_sweep env 1 0 s = some (some .death, s1) ∧
      s1.trace = s.trace ++ [.meal_lock, .meal_unlock,
        .status (env.clock (s.clock_reads + 1) - s.table.start_time) p.id "died"] ∧
      s1.table.simulation_should_end = true := by
  have hy0 : (yield env s).table.philos[0]? = some p := by
    rw [yield_idle env hact]; exact hp
  obtain ⟨_, c2, _⟩ := check_death_cases env 0 (yield env s) p hy0
  obtain ⟨s1, h1, hflag, htr, _⟩ := c2 (by rw [yield_idle env hact]; exact hel)
    (by rw [yield_idle env hact]; exact hf) (hquiet _)
  refine ⟨s1, ?_, ?_, hflag⟩
  · simp [monitor_sweep, h1]
  · rw [htr, yield_idle env hact]

theorem lone_monitor_fires (env : Env) (hquiet : ∀ k, env.flag_raised k = false)
    (hact : ∀ k l, env.actors k l = l) :
    ∀ (j : Nat) (s : Sim) (p : t_philo), s.table.num_philos = 1 →
      s.table.philos[0]? = some p → s.table.simulation_should_end = false →
      (s.table.num_must_eat = -1 ∨ p.meals_eaten < s.table.num_must_eat) →
      (∀ m, m < j →
        env.clock (s.clock_reads + m) - p.last_meal_time ≤ s.table.time_to_die) →
      env.clock (s.clock_reads + j) - p.last_meal_time > s.table.time_to_die →
      ∃ s1 evs, monitoring_routine env (j + 1) s = some (some .death, s1) ∧
        s1.trace = s.trace ++ evs ++
          [.status (env.clock (s.clock_reads + j + 1) - s.table.start_time) p.id "died"] ∧
        (∀ e ∈ evs, e = .meal_lock ∨ e = .meal_unlock ∨ e = .usleep 1000) ∧
        s1.table.simulation_should_end = true := by
  intro j
  induction j with
  | zero =>
    intro s p hn hp hf _ _ hfire
    obtain ⟨s1, h1, htr, hflag⟩ := lone_sweep_fires env hquiet hact s p hp hf hfire
    refine ⟨s1, [.meal_lock, .meal_unlock], ?_, ?_, ?_, hflag⟩
    · simp [monitoring_routine, hn, h1]
    · rw [htr]; simp
    · intro e he
      simp at he
      tauto
  | succ j ih =>
    intro s p hn hp hf hq hle hfire
    obtain ⟨s2, evs, h2, htab, hcr, hfr, htr, hevs⟩ :=
      lone_sweep_quiet env hact s p hn hp hq (by simpa using hle 0 (by omega))
    have hf2 : s2.table.simulation_should_end = false := by rw [htab]; exact hf
    have hov : (is_simulation_over env (emit (.usleep 1000) s2)).1 = false := by
      simp [is_simulation_over, emit, hf2, hquiet]
    have htab3 : (is_simulation_over env (emit (.usleep 1000) s2)).2.table = s.table := by
      rw [← htab]
      simp only [is_simulation_over, emit, hf2, hquiet, Bool.or_self]
      rw [← hf2]
    have hcr3 : (is_simulation_over env (emit (.usleep 1000) s2)).2.clock_reads =
        s.clock_reads + 1 := hcr
    have htr3 : (is_simulation_over env (emit (.usleep 1000) s2)).2.trace =
        s.trace ++ evs ++ [.usleep 1000] := by
      simp [is_simulation_over, emit, htr]
    obtain ⟨s1, evs1, h1, htr1, hevs1, hflag⟩ :=
      ih (is_simulation_over env (emit (.usleep 1000) s2)).2 p
        (by rw [htab3]; exact hn) (by rw [htab3]; exact hp) (by rw [htab3]; exact hf)
        (by rw [htab3]; exact hq)
        (by
          intro m hm
          rw [htab3, hcr3]
          have := hle (m + 1) (by omega)
          have e : s.clock_reads + 1 + m = s.clock_reads + (m + 1) := by omega
          rw [e]; exact this)
        (by
          rw [htab3, hcr3]
          have e : s.clock_reads + 1 + j = s.clock_reads + (j + 1) := by omega
          rw [e]; exact hfire)
    refine ⟨s1, evs ++ [.usleep 1000] ++ evs1, ?_, ?_, ?_, hflag⟩
    · have hn1 : s.table.num_philos.toNat = 1 := by rw [hn]; rfl
      rw [monitoring_routine, hn1, h2]
      simp only [hov, Bool.false_eq_true, if_false]
      exact h1
    · rw [htr1, htr3, htab3, hcr3]
      have e : s.clock_reads + 1 + j + 1 = s.clock_reads + (j + 1) + 1 := by omega
      rw [e]
      simp
    · intro e he
      simp only [List.mem_append, List.mem_singleton] at he
      rcases he with (he | he) | he
      · rcases hevs e he with h | h
        · exact Or.inl h
        · exact Or.inr (Or.inl h)
      · exact Or.inr (Or.inr he)
      · exact hevs1 e he

/-- C12 as amended. With `num_philos = 1` the routine of the lone philosopher
(id 1) calls `print_status` for "has taken a fork" (one line, printed provided
the flag is not raised before `print_status` has read it twice, otherwise
none), then performs the interruptible wait `precise_usleep` of
`time_to_die * 2` and returns; it leaves every record as it was (so
`meals_eaten` and `last_meal_time` keep their values), holds what it held
before and prints no other status line. As the record never changes, the
death check of the monitor fires at the first sweep whose clock reading is
more than `time_to_die` after `last_meal_time` (no other thread raising the
flag, quota absent or not reached): the monitor returns by the death check
having printed one "died" line and no other status line. -/
theorem lone_philosopher_spec (env : Env) (fuel cycles : Nat) (s : Sim) (p : t_philo)
    (hn : s.table.num_philos = 1) (hp : s.table.philos[0]? = some p) (hid : p.id = 1) :
    (∃ s1 report,
      print_status env 0 "has taken a fork" false s = some s1 ∧
      s1.trace = s.trace ++ report ∧
      (report = [] ∨ ∃ t, report = [.status t p.id "has taken a fork"]) ∧
      (s.table.simulation_should_end = false → env.flag_raised s.flag_reads = false →
        env.flag_raised (s.flag_reads + 1) = false →
        report = [.status (env.clock s.clock_reads - s.table.start_time) p.id
          "has taken a fork"]) ∧
      philosopher_routine env fuel cycles 0 s =
        precise_usleep env fuel (s.table.time_to_die * 2) s1 ∧
      (wait_completes env fuel (s.table.time_to_die * 2) s1.flag_reads s1.clock_reads →
        ∃ s2 naps, philosopher_routine env fuel cycles 0 s = some s2 ∧
          s2.trace = s1.trace ++ naps ∧ (∀ e ∈ naps, e = .usleep 500) ∧
          s2.table.philos = s.table.philos ∧ s2.held = s.held ∧
          ∀ e ∈ report ++ naps, ∀ t id text, e = Event.status t id text →
            text = "has taken a fork")) ∧
    (∀ j : Nat, (∀ k, env.flag_raised k = false) → (∀ k l, env.actors k l = l) →
      s.table.simulation_should_end = false →
      (s.table.num_must_eat = -1 ∨ p.meals_eaten < s.table.num_must_eat) →
      (∀ m, m < j →
        env.clock (s.clock_reads + m) - p.last_meal_time ≤ s.table.time_to_die) →
      env.clock (s.clock_reads + j) - p.last_meal_time > s.table.time_to_die →
      ∃ s1 evs, monitoring_routine env (j + 1) s = some (some .death, s1) ∧
        s1.trace = s.trace ++ evs ++
          [.status (env.clock (s.clock_reads + j + 1) - s.table.start_time) p.id "died"] ∧
        (∀ e ∈ evs, e = .meal_lock ∨ e = .meal_unlock ∨ e = .usleep 1000) ∧
        s1.table.simulation_should_end = true ∧
        ∀ e ∈ evs ++
            [.status (env.clock (s.clock_reads + j + 1) - s.table.start_time) p.id "died"],
          ∀ t id text, e = Event.status t id text → text = "died") := by
  constructor
  · obtain ⟨s1, h1, htr⟩ := print_status_trace env 0 "has taken a fork" false s p hp
    obtain ⟨s1', h1', hobs⟩ := print_status_observes env 0 "has taken a fork" false s p hp
    rw [h1] at h1'
    simp only [Option.some.injEq] at h1'
    subst h1'
    have hodd : ¬ Int.tmod p.id 2 = 0 := by rw [hid]; decide
    have hphil : s1.table.philos = s.table.philos := by rw [hobs.table_eq]
    have htd : s1.table.time_to_die = s.table.time_to_die := by rw [hobs.table_eq]
    have hrt : philosopher_routine env fuel cycles 0 s =
        precise_usleep env fuel (s.table.time_to_die * 2) s1 := by
      simp only [philosopher_routine, hp, hodd, if_false, Option.some_bind, hn, if_true,
        handle_single_philosopher, h1, htd]
    have hrep : ∀ e ∈ (if false = true ∨ (s.table.simulation_should_end = false ∧
            env.flag_raised s.flag_reads = false ∧
            env.flag_raised (s.flag_reads + 1) = false) then
          [Event.status (env.clock s.clock_reads - s.table.start_time) p.id "has taken a fork"]
        else []), e = Event.status (env.clock s.clock_reads - s.table.start_time) p.id
          "has taken a fork" := by
      intro e he
      split at he
      · simpa using he
      · cases he
    refine ⟨s1, _, h1, htr, ?_, ?_, hrt, ?_⟩
    · split
      · exact Or.inr ⟨_, rfl⟩
      · exact Or.inl rfl
    · intro a b c
      rw [if_pos (Or.inr ⟨a, b, c⟩)]
    · intro hw
      obtain ⟨s2, h2, o2⟩ := precise_usleep_returns env fuel _ s1 (Or.inr hw)
      obtain ⟨naps, hnaps, hP⟩ := o2.trace_ext
      refine ⟨s2, naps, by rw [hrt]; exact h2, hnaps, hP, ?_, ?_, ?_⟩
      · rw [o2.table_eq]; exact hphil
      · rw [o2.held_eq, hobs.held_eq]
      · intro e he t id text heq
        rcases List.mem_append.mp he with he | he
        · have := hrep e he
          rw [heq] at this
          injection this
        · have := hP e he
          rw [heq] at this
          cases this
  · intro j hquiet hact hf hq hle hfire
    obtain ⟨s1, evs, h1, htr, hevs, hflag⟩ :=
      lone_monitor_fires env hquiet hact j s p hn hp hf hq hle hfire
    refine ⟨s1, evs, h1, htr, hevs, hflag, ?_⟩
    intro e he t id text heq
    rcases List.mem_append.mp he with he | he
    · rcases hevs e he with h | h | h <;> rw [heq] at h <;> cases h
    · rw [List.mem_singleton] at he
      rw [heq] at he
      injection he

/-- Witness of `lone_philosopher_spec`: one philosopher with `time_to_die = 2`
and no quota, a clock that advances 1 ms per reading: the routine prints its
line and starts the wait of 4 ms; the fourth sweep of the monitor finds
`3 - 0 > 2` and prints "died". -/
theorem lone_philosopher_spec_witness :
    (∃ s1, philosopher_routine Env.quiet 9 0 0
        (Sim.start { ring_table 1 with time_to_die := 2, num_must_eat := -1 }) =
        precise_usleep Env.quiet 9 4 s1 ∧
      s1.trace = [.status 0 1 "has taken a fork"]) ∧
    (∃ s1 evs, monitoring_routine Env.quiet 4
        (Sim.start { ring_table 1 with time_to_die := 2, num_must_eat := -1 }) =
          some (some .death, s1) ∧
      s1.trace = evs ++ [.status 4 1 "died"]) := by
  have h := lone_philosopher_spec Env.quiet 9 0
    (Sim.start { ring_table 1 with time_to_die := 2, num_must_eat := -1 })
    { id := 1, meals_eaten := 0, last_meal_time := 0, thread_valid := false,
      state := .THINKING, left_fork := 0, right_fork := none } (by decide) (by decide) rfl
  obtain ⟨⟨s1, report, _, htr, _, hrep, hrt, _⟩, hmon⟩ := h
  constructor
  · refine ⟨s1, hrt, ?_⟩
    rw [htr, hrep rfl rfl rfl]
    rfl
  · obtain ⟨s1, evs, h1, htr, _⟩ := hmon 3 (fun _ => rfl) (fun _ _ => rfl) rfl (Or.inl rfl)
      (by
        intro m hm
        show ((0 + m : Nat) : Int) - 0 ≤ 2
        omega)
      (by decide)
    refine ⟨s1, evs, h1, ?_⟩
    rw [htr]
    rfl

/-- Counterexample to C12 as stated: one philosopher, the termination flag
raised before the routine of the philosopher reads it. The routine returns
without having printed a "has taken a fork" line. -/
theorem lone_without_report :
    (ring_table 1).num_philos = 1 ∧
    (philosopher_routine (Env.raise_at 0) 1 0 0
        (Sim.start { ring_table 1 with time_to_die := 2, num_must_eat := -1 })).map
        (fun s => s.trace) = some [] := by
  decide

/-! ## Meal data are monotone -/

theorem MealsKept.mk_refl (s : Sim) : MealsKept s s := ⟨rfl, le_refl _⟩

theorem MealsKept.mk_trans {s s1 s2 : Sim} (h1 : MealsKept s s1) (h2 : MealsKept s1 s2) :
    MealsKept s s2 :=
  ⟨h2.data_eq.trans h1.data_eq, le_trans h1.reads_le h2.reads_le⟩

theorem MealsKept.of_eq {s s1 : Sim} (h1 : s1.table.philos = s.table.philos)
    (h2 : s.clock_reads ≤ s1.clock_reads) : MealsKept s s1 :=
  ⟨by simp only [meal_data, h1], h2⟩

theorem is_simulation_over_kept (env : Env) (s : Sim) :
    MealsKept s (is_simulation_over env s).2 :=
  MealsKept.of_eq rfl (le_refl _)

theorem get_time_ms_kept (env : Env) (s : Sim) : MealsKept s (get_time_ms env s).2 :=
  MealsKept.of_eq rfl (Nat.le_succ _)

theorem emit_kept (e : Event) (s : Sim) : MealsKept s (emit e s) :=
  MealsKept.of_eq rfl (le_refl _)

theorem print_status_kept (env : Env) (i : Nat) (msg : String) (ov : Bool) (s s1 : Sim)
    (h : print_status env i msg ov s = some s1) : MealsKept s s1 := by
  cases hp : s.table.philos[i]? with
  | none => simp [print_status, hp] at h
  | some p =>
    simp only [print_status, hp] at h
    split_ifs at h <;> simp only [Option.some.injEq] at h <;> subst h
    · exact MealsKept.of_eq rfl (le_refl _)
    · exact MealsKept.of_eq rfl (Nat.le_succ _)
    · exact MealsKept.of_eq rfl (Nat.le_succ _)

theorem precise_usleep_loop_kept (env : Env) (time_ms start : Int) :
    ∀ (fuel : Nat) (s s1 : Sim), precise_usleep_loop env time_ms start fuel s = some s1 →
      MealsKept s s1 := by
  intro fuel
  induction fuel with
  | zero => intro s s1 h; simp [precise_usleep_loop] at h
  | succ fuel ih =>
    intro s s1 h
    simp only [precise_usleep_loop] at h
    split_ifs at h
    · simp only [Option.some.injEq] at h; subst h
      exact MealsKept.of_eq rfl (le_refl _)
    · simp only [Option.some.injEq] at h; subst h
      exact MealsKept.of_eq rfl (Nat.le_succ _)
    · have k : MealsKept s
          (emit (.usleep 500) (get_time_ms env (is_simulation_over env s).2).2) :=
        MealsKept.of_eq rfl (Nat.le_succ _)
      exact k.mk_trans (ih _ _ h)

theorem precise_usleep_kept (env : Env) (fuel : Nat) (time_ms : Int) (s s1 : Sim)
    (h : precise_usleep env fuel time_ms s = some s1) : MealsKept s s1 := by
  unfold precise_usleep at h
  exact (get_time_ms_kept env s).mk_trans (precise_usleep_loop_kept env _ _ _ _ _ h)

theorem map_set_same {α β : Type} (f : α → β) :
    ∀ (l : List α) (i : Nat) (p q : α), l[i]? = some p → f q = f p →
      (l.set i q).map f = l.map f := by
  intro l
  induction l with
  | nil => intro i p q h _; simp at h
  | cons a l ih =>
    intro i p q h hf
    cases i with
    | zero =>
      simp only [List.getElem?_cons_zero, Option.some.injEq] at h
      subst h
      simp [hf]
    | succ i =>
      simp only [List.getElem?_cons_succ] at h
      simp only [List.set_cons_succ, List.map_cons, ih i p q h hf]

theorem set_philo_kept (i : Nat) (p q : t_philo) (s : Sim) (hp : s.table.philos[i]? = some p)
    (hm : q.meals_eaten = p.meals_eaten) (hl : q.last_meal_time = p.last_meal_time) :
    MealsKept s (set_philo i q s) := by
  refine ⟨?_, le_refl _⟩
  simp only [meal_data, set_philo]
  exact map_set_same _ _ i p q hp (by rw [hm, hl])

theorem set_state_kept (i : Nat) (st : t_state) (s s1 : Sim)
    (h : set_state i st s = some s1) : MealsKept s s1 := by
  cases hp : s.table.philos[i]? with
  | none => simp [set_state, hp] at h
  | some p =>
    rw [set_state_some i st s p hp] at h
    simp only [Option.some.injEq] at h
    subst h
    exact set_philo_kept i p _ s hp rfl rfl

theorem drop_forks_kept (i : Nat) (s s1 : Sim) (h : drop_forks i s = some s1) :
    MealsKept s s1 := by
  have ht := drop_forks_table i s s1 h
  refine ⟨by simp only [meal_data, ht], ?_⟩
  cases hp : s.table.philos[i]? with
  | none => simp [drop_forks, hp] at h
  | some p =>
    simp only [drop_forks, hp] at h
    cases hr : p.right_fork <;> simp only [hr] at h <;> cases h <;> exact le_refl _

theorem think_kept (env : Env) (fuel i : Nat) (s s1 : Sim)
    (h : think env fuel i s = some s1) : MealsKept s s1 := by
  simp only [think] at h
  split_ifs at h with h0
  · simp only [Option.some.injEq] at h; subst h
    exact is_simulation_over_kept env s
  · simp only [Option.bind_eq_some] at h
    obtain ⟨s2, h2, s3, h3, h4⟩ := h
    have k2 := (is_simulation_over_kept env s).mk_trans (print_status_kept env i _ _ _ _ h2)
    have k3 := k2.mk_trans (set_state_kept i _ _ _ h3)
    by_cases hc : s3.table.num_philos > 1 ∧ s3.table.time_to_eat > s3.table.time_to_sleep
    · rw [if_pos hc] at h4
      cases hp : s3.table.philos[i]? with
      | none => simp [hp] at h4
      | some p =>
        simp only [hp] at h4
        have k4 : MealsKept s3 (emit .meal_unlock (get_time_ms env (emit .meal_lock s3)).2) :=
          MealsKept.of_eq rfl (Nat.le_succ _)
        split_ifs at h4 <;>
          first
          | exact (k3.mk_trans k4).mk_trans (precise_usleep_kept env _ _ _ _ h4)
          | (simp only [Option.some.injEq] at h4; subst h4; exact k3.mk_trans k4)
    · rw [if_neg hc] at h4
      simp only [Option.some.injEq] at h4; subst h4
      exact k3

theorem sleep_philo_kept (env : Env) (fuel i : Nat) (s s1 : Sim)
    (h : sleep_philo env fuel i s = some s1) : MealsKept s s1 := by
  simp only [sleep_philo] at h
  split_ifs at h with h0
  · simp only [Option.some.injEq] at h; subst h
    exact is_simulation_over_kept env s
  · simp only [Option.bind_eq_some] at h
    obtain ⟨s2, h2, h3⟩ := h
    exact ((is_simulation_over_kept env s).mk_trans
      (print_status_kept env i _ _ _ _ h2)).mk_trans (precise_usleep_kept env _ _ _ _ h3)

theorem check_death_kept (env : Env) (i : Nat) (s s1 : Sim) (d : Int)
    (h : check_death env i s = some (d, s1)) : MealsKept s s1 := by
  cases hp : s.table.philos[i]? with
  | none => simp [check_death, hp] at h
  | some p =>
    simp only [check_death, hp] at h
    have k1 : MealsKept s (emit .meal_unlock (get_time_ms env (emit .meal_lock s)).2) :=
      MealsKept.of_eq rfl (Nat.le_succ _)
    split_ifs at h with hgt hr
    · simp only [Option.bind_eq_some, Option.map_eq_some'] at h
      obtain ⟨s3, h3, s4, h4, h5⟩ := h
      simp only [Prod.mk.injEq] at h5
      rw [← h5.2]
      have k2 : MealsKept (emit .meal_unlock (get_time_ms env (emit .meal_lock s)).2)
          { (is_simulation_over env
              (emit .meal_unlock (get_time_ms env (emit .meal_lock s)).2)).2 with
            table := { (is_simulation_over env
              (emit .meal_unlock (get_time_ms env (emit .meal_lock s)).2)).2.table with
                simulation_should_end := true } } :=
        MealsKept.of_eq rfl (le_refl _)
      exact ((k1.mk_trans k2).mk_trans (print_status_kept env i _ _ _ _ h3)).mk_trans
        (set_state_kept i _ _ _ h4)
    · simp only [Option.some.injEq, Prod.mk.injEq] at h
      rw [← h.2]
      exact k1.mk_trans (is_simulation_over_kept env _)
    · simp only [Option.some.injEq, Prod.mk.injEq] at h
      rw [← h.2]
      exact k1

theorem is_philo_not_full_kept (env : Env) (i : Nat) (s s1 : Sim) (r : Int)
    (h : is_philo_not_full_and_sim_running env i s = some (r, s1)) : MealsKept s s1 := by
  cases hp : s.table.philos[i]? with
  | none => simp [is_philo_not_full_and_sim_running, hp] at h
  | some p =>
    simp only [is_philo_not_full_and_sim_running, hp] at h
    split_ifs at h <;> simp only [Option.some.injEq, Prod.mk.injEq] at h <;> rw [← h.2]
    · exact MealsKept.of_eq rfl (le_refl _)
    · have k1 : MealsKept s
          (is_simulation_over env (emit .meal_unlock (emit .meal_lock s))).2 :=
        MealsKept.of_eq rfl (le_refl _)
      exact k1.mk_trans (set_philo_kept i p _ _ hp rfl rfl)
    · exact MealsKept.of_eq rfl (le_refl _)

theorem check_all_full_loop_kept (env : Env) :
    ∀ (r i : Nat) (s s1 : Sim) (a : Int), check_all_full_loop env r i s = some (a, s1) →
      MealsKept s s1 := by
  intro r
  induction r with
  | zero =>
    intro i s s1 a h
    simp only [check_all_full_loop, Option.some.injEq, Prod.mk.injEq] at h
    rw [← h.2]; exact MealsKept.mk_refl s
  | succ r ih =>
    intro i s s1 a h
    simp only [check_all_full_loop] at h
    cases hx : is_philo_not_full_and_sim_running env i s with
    | none => simp [hx] at h
    | some x =>
      obtain ⟨b, s2⟩ := x
      simp only [hx] at h
      have k := is_philo_not_full_kept env i s s2 b hx
      split_ifs at h
      · simp only [Option.some.injEq, Prod.mk.injEq] at h
        rw [← h.2]; exact k
      · exact k.mk_trans (ih _ _ _ _ h)

theorem check_all_full_kept (env : Env) (s s1 : Sim) (f : Int)
    (h : check_all_full env s = some (f, s1)) : MealsKept s s1 := by
  unfold check_all_full at h
  split_ifs at h with hq
  · simp only [Option.some.injEq, Prod.mk.injEq] at h
    rw [← h.2]; exact MealsKept.mk_refl s
  · simp only [Option.map_eq_some'] at h
    obtain ⟨⟨a, s2⟩, h2, hfin⟩ := h
    have k := check_all_full_loop_kept env _ _ _ _ _ h2
    simp only [finalize_if_all_full] at hfin
    split_ifs at hfin <;> simp only [Prod.mk.injEq] at hfin <;> rw [← hfin.2]
    · exact k.mk_trans (MealsKept.of_eq rfl (le_refl _))
    · exact k.mk_trans (MealsKept.of_eq rfl (le_refl _))
    · exact k

theorem meal_data_get (s : Sim) (i : Nat) (p : t_philo) (hp : s.table.philos[i]? = some p) :
    (meal_data s)[i]? = some (p.meals_eaten, p.last_meal_time) := by
  simp [meal_data, hp]

theorem eat_meals (env : Env) (fuel i : Nat) (s s1 : Sim) (p : t_philo)
    (hp : s.table.philos[i]? = some p) (h : eat env fuel i s = some s1) :
    ((is_simulation_over env s).1 = true → MealsKept s s1) ∧
    ((is_simulation_over env s).1 = false →
      ∃ c, s.clock_reads ≤ c ∧ c < s1.clock_reads ∧
        meal_data s1 = (meal_data s).set i (wrap32 (p.meals_eaten + 1), env.clock c)) := by
  simp only [eat] at h
  constructor
  · intro h0
    rw [if_pos h0] at h
    simp only [Option.some.injEq] at h; subst h
    exact is_simulation_over_kept env s
  · intro h0
    rw [h0] at h
    simp only [Bool.false_eq_true, if_false, Option.bind_eq_some] at h
    obtain ⟨s2, h2, s3, h3, s4, h4, s5, h5, s6, h6, h7⟩ := h
    have k3 := ((is_simulation_over_kept env s).mk_trans
      (print_status_kept env i _ _ _ _ h2)).mk_trans (set_state_kept i _ _ _ h3)
    have hget : (meal_data s3)[i]? = some (p.meals_eaten, p.last_meal_time) := by
      rw [k3.data_eq]; exact meal_data_get s i p hp
    cases hp3 : s3.table.philos[i]? with
    | none => simp [meal_data, hp3] at hget
    | some p3 =>
      have e3 := meal_data_get s3 i p3 hp3
      rw [hget] at e3
      simp only [Option.some.injEq, Prod.mk.injEq] at e3
      obtain ⟨s4', h4', hph, _, _, _, hcr, _, _⟩ := record_meal_some env i s3 p3 hp3
      rw [h4] at h4'
      simp only [Option.some.injEq] at h4'
      subst h4'
      have k7 := ((precise_usleep_kept env _ _ _ _ h5).mk_trans
        (drop_forks_kept i _ _ h6)).mk_trans (set_state_kept i _ _ _ h7)
      refine ⟨s3.clock_reads, k3.reads_le, ?_, ?_⟩
      · have := k7.reads_le
        omega
      · rw [k7.data_eq, ← k3.data_eq]
        simp only [meal_data, hph, List.map_set, e3.1]

theorem Restamped.rs_refl (st : Int) (s : Sim) : Restamped st s s :=
  ⟨rfl, rfl, fun j d e hd he => by
    rw [hd] at he
    simp only [Option.some.injEq] at he
    subst he
    exact ⟨rfl, Or.inl rfl⟩⟩

theorem Restamped.rs_trans {st : Int} {s s1 s2 : Sim} (h1 : Restamped st s s1)
    (h2 : Restamped st s1 s2) : Restamped st s s2 := by
  refine ⟨h2.reads_eq.trans h1.reads_eq, h2.length_eq.trans h1.length_eq, ?_⟩
  intro j d e hd he
  have hj : j < (meal_data s1).length := by
    rw [h1.length_eq]
    exact (List.getElem?_eq_some_iff.mp hd).1
  obtain ⟨a1, a2⟩ := h1.stamp j d _ hd (List.getElem?_eq_getElem hj)
  obtain ⟨b1, b2⟩ := h2.stamp j _ e (List.getElem?_eq_getElem hj) he
  refine ⟨b1.trans a1, ?_⟩
  rcases b2 with b2 | b2
  · rcases a2 with a2 | a2
    · exact Or.inl (b2.trans a2)
    · exact Or.inr (b2.trans a2)
  · exact Or.inr b2

theorem Restamped.of_data_eq {st : Int} {s s1 : Sim} (h1 : s1.table.philos = s.table.philos)
    (h2 : s1.clock_reads = s.clock_reads) : Restamped st s s1 := by
  have e : meal_data s1 = meal_data s := by simp only [meal_data, h1]
  refine ⟨h2, by rw [e], ?_⟩
  intro j d x hd hx
  rw [e, hd] at hx
  simp only [Option.some.injEq] at hx
  subst hx
  exact ⟨rfl, Or.inl rfl⟩

theorem set_philo_restamped (st : Int) (i : Nat) (p q : t_philo) (s : Sim)
    (hp : s.table.philos[i]? = some p) (hm : q.meals_eaten = p.meals_eaten)
    (hl : q.last_meal_time = p.last_meal_time ∨ q.last_meal_time = st) :
    Restamped st s (set_philo i q s) := by
  have e : meal_data (set_philo i q s) =
      (meal_data s).set i (q.meals_eaten, q.last_meal_time) := by
    simp only [meal_data, set_philo, List.map_set]
  refine ⟨rfl, by rw [e, List.length_set], ?_⟩
  intro j d x hd hx
  have hi : i < (meal_data s).length := (List.getElem?_eq_some_iff.mp (meal_data_get s i p hp)).1
  rw [e] at hx
  by_cases hij : i = j
  · subst hij
    rw [List.getElem?_set_self hi] at hx
    simp only [Option.some.injEq] at hx
    subst hx
    rw [meal_data_get s i p hp] at hd
    simp only [Option.some.injEq] at hd
    subst hd
    exact ⟨hm, hl⟩
  · rw [List.getElem?_set_ne hij, hd] at hx
    simp only [Option.some.injEq] at hx
    subst hx
    exact ⟨rfl, Or.inl rfl⟩

theorem join_created_reads : ∀ (n j : Nat) (s s1 : Sim), join_created n j s = some s1 →
    s1.clock_reads = s.clock_reads := by
  intro n
  induction n with
  | zero => intro j s s1 h; simp [join_created] at h; rw [h]
  | succ n ih =>
    intro j s s1 h
    cases hp : s.table.philos[j]? with
    | none => simp [join_created, hp] at h
    | some p =>
      simp only [join_created, hp] at h
      have := ih _ _ _ h
      rw [this]
      split_ifs <;> rfl

theorem create_philosopher_threads_loop_meals (env : Env) (st : Int) :
    ∀ (r i : Nat) (s s1 : Sim) (x : Int),
      create_philosopher_threads_loop env st r i s = some (x, s1) → Restamped st s s1 := by
  intro r
  induction r with
  | zero =>
    intro i s s1 x h
    simp only [create_philosopher_threads_loop, Option.some.injEq, Prod.mk.injEq] at h
    rw [← h.2]; exact Restamped.rs_refl st s
  | succ r ih =>
    intro i s s1 x h
    cases hp : s.table.philos[i]? with
    | none => simp [create_philosopher_threads_loop, hp] at h
    | some p =>
      simp only [create_philosopher_threads_loop, hp] at h
      have k1 : Restamped st s (set_philo i { p with last_meal_time := st } s) :=
        set_philo_restamped st i p _ s hp rfl (Or.inr rfl)
      have hg := set_philo_get i { p with last_meal_time := st } p s hp
      split_ifs at h with hok
      · simp only [Option.map_eq_some'] at h
        obtain ⟨s3, h3, h4⟩ := h
        simp only [Prod.mk.injEq] at h4
        rw [← h4.2]
        simp only [handle_thread_creation_error] at h3
        have ht := join_created_table _ _ _ _ h3
        have hc := join_created_reads _ _ _ _ h3
        exact k1.rs_trans (Restamped.of_data_eq (by rw [ht]; rfl) (by rw [hc]; rfl))
      · have ka : Restamped st (set_philo i { p with last_meal_time := st } s)
            (emit (.thread_create i)
              { set_philo i { p with last_meal_time := st } s with
                thread_creates :=
                  (set_philo i { p with last_meal_time := st } s).thread_creates + 1 }) :=
          Restamped.of_data_eq rfl rfl
        have kb : Restamped st
            (emit (.thread_create i)
              { set_philo i { p with last_meal_time := st } s with
                thread_creates :=
                  (set_philo i { p with last_meal_time := st } s).thread_creates + 1 })
            (set_philo i { p with last_meal_time := st, thread_valid := true }
              (emit (.thread_create i)
                { set_philo i { p with last_meal_time := st } s with
                  thread_creates :=
                    (set_philo i { p with last_meal_time := st } s).thread_creates + 1 })) :=
          set_philo_restamped st i { p with last_meal_time := st } _ _ hg rfl (Or.inr rfl)
        exact ((k1.rs_trans ka).rs_trans kb).rs_trans (ih _ _ _ _ h)

theorem mem_of_get {α : Type} (l : List α) (i : Nat) (a : α) (h : l[i]? = some a) : a ∈ l := by
  obtain ⟨hi, e⟩ := List.getElem?_eq_some_iff.mp h
  rw [← e]
  exact List.getElem_mem hi

theorem MealsKept.kept_grow {env : Env} {s s1 : Sim} (h : MealsKept s s1) (hinv : meal_inv env s) :
    MealsGrow env s s1 := by
  refine ⟨by rw [h.data_eq], ?_, ?_, ?_⟩
  · intro i d e hd he
    rw [h.data_eq, hd] at he
    simp only [Option.some.injEq] at he
    subst he
    exact ⟨le_refl _, le_refl _⟩
  · intro e he
    rw [h.data_eq] at he
    exact (hinv e he).1
  · intro e he
    rw [h.data_eq] at he
    exact ⟨(hinv e he).1, fun k hk => (hinv e he).2 k (le_trans h.reads_le hk)⟩

theorem Restamped.stamp_grow {env : Env} {st : Int} {s s1 : Sim} (h : Restamped st s s1)
    (hinv : meal_inv env s) (hold : ∀ d ∈ meal_data s, d.2 ≤ st)
    (hst : ∀ k, s.clock_reads ≤ k → st ≤ env.clock k) : MealsGrow env s s1 := by
  have key : ∀ e ∈ meal_data s1, ∃ d ∈ meal_data s, e.1 = d.1 ∧ (e.2 = d.2 ∨ e.2 = st) := by
    intro e he
    obtain ⟨j, hj, hje⟩ := List.mem_iff_getElem.mp he
    have hj2 : j < (meal_data s).length := by rw [← h.length_eq]; exact hj
    refine ⟨(meal_data s)[j], List.getElem_mem hj2, ?_⟩
    exact h.stamp j _ e (List.getElem?_eq_getElem hj2)
      (by rw [List.getElem?_eq_getElem hj, hje])
  refine ⟨h.length_eq, ?_, ?_, ?_⟩
  · intro i d e hd he
    obtain ⟨a, b⟩ := h.stamp i d e hd he
    refine ⟨le_of_eq a.symm, ?_⟩
    rcases b with b | b
    · exact le_of_eq b.symm
    · rw [b]; exact hold d (mem_of_get _ _ _ hd)
  · intro e he
    obtain ⟨d, hd, a, _⟩ := key e he
    rw [a]; exact (hinv d hd).1
  · intro e he
    obtain ⟨d, hd, a, b⟩ := key e he
    refine ⟨by rw [a]; exact (hinv d hd).1, fun k hk => ?_⟩
    rw [h.reads_eq] at hk
    rcases b with b | b
    · rw [b]; exact (hinv d hd).2 k hk
    · rw [b]; exact hst k hk

theorem meals_grow_of_set (env : Env) (hmono : ∀ a b, a ≤ b → env.clock a ≤ env.clock b)
    (s s1 : Sim) (i c : Nat) (m l : Int) (hinv : meal_inv env s)
    (hget : (meal_data s)[i]? = some (m, l)) (hc : s.clock_reads ≤ c) (hc1 : c < s1.clock_reads)
    (hdata : meal_data s1 = (meal_data s).set i (m + 1, env.clock c)) :
    MealsGrow env s s1 := by
  have hi : i < (meal_data s).length := (List.getElem?_eq_some_iff.mp hget).1
  have hml := hinv (m, l) (mem_of_get _ _ _ hget)
  have hnew : ∀ e ∈ meal_data s1, e = (m + 1, env.clock c) ∨ e ∈ meal_data s := by
    intro e he
    rw [hdata] at he
    rcases List.mem_or_eq_of_mem_set he with h | h
    · exact Or.inr h
    · exact Or.inl h
  refine ⟨by rw [hdata, List.length_set], ?_, ?_, ?_⟩
  · intro j d e hd he
    rw [hdata] at he
    by_cases hij : i = j
    · subst hij
      rw [List.getElem?_set_self hi] at he
      simp only [Option.some.injEq] at he
      subst he
      rw [hget] at hd
      simp only [Option.some.injEq] at hd
      subst hd
      exact ⟨by simp, hml.2 c hc⟩
    · rw [List.getElem?_set_ne hij, hd] at he
      simp only [Option.some.injEq] at he
      subst he
      exact ⟨le_refl _, le_refl _⟩
  · intro e he
    rcases hnew e he with h | h
    · rw [h]
      have := hml.1
      simp only at this ⊢
      omega
    · exact (hinv e h).1
  · intro e he
    rcases hnew e he with h | h
    · rw [h]
      refine ⟨?_, fun k hk => hmono c k (by omega)⟩
      have := hml.1
      simp only at this ⊢
      omega
    · exact ⟨(hinv e h).1, fun k hk => (hinv e h).2 k (by omega)⟩

theorem Restamped.meals_eq {st : Int} {s s1 : Sim} (h : Restamped st s s1) :
    (meal_data s1).map Prod.fst = (meal_data s).map Prod.fst := by
  apply List.ext_getElem
  · simp only [List.length_map, h.length_eq]
  · intro j h1 h2
    simp only [List.length_map] at h1 h2
    simp only [List.getElem_map]
    exact (h.stamp j _ _ (List.getElem?_eq_getElem h2) (List.getElem?_eq_getElem h1)).1

theorem launch_threads_meals (env : Env) (s s1 : Sim) (x : Int)
    (h : launch_threads env s = some (x, s1)) :
    Restamped (env.clock s.clock_reads)
      { (get_time_ms env s).2 with
        table := { (get_time_ms env s).2.table with start_time := env.clock s.clock_reads } }
      s1 := by
  simp only [launch_threads] at h
  cases hc : create_philosopher_threads env (get_time_ms env s).1
      { (get_time_ms env s).2 with
        table := { (get_time_ms env s).2.table with start_time := (get_time_ms env s).1 } } with
  | none => simp [hc] at h
  | some y =>
    obtain ⟨r, s2⟩ := y
    simp only [hc] at h
    have k := create_philosopher_threads_loop_meals env _ _ _ _ _ _ hc
    split_ifs at h with hr hm
    · simp only [Option.some.injEq, Prod.mk.injEq] at h
      rw [← h.2]; exact k
    · simp only [Option.some.injEq, Prod.mk.injEq] at h
      rw [← h.2]
      refine k.rs_trans (Restamped.of_data_eq ?_ ?_)
      · simp only [create_monitor_thread]
        split_ifs <;> rfl
      · simp only [create_monitor_thread]
        split_ifs <;> rfl
    · simp only [Option.some.injEq, Prod.mk.injEq] at h
      rw [← h.2]
      refine k.rs_trans (Restamped.of_data_eq ?_ ?_)
      · simp only [create_monitor_thread]
        split_ifs <;> rfl
      · simp only [create_monitor_thread]
        split_ifs <;> rfl

theorem last_meal_grows_of_set (env : Env) (s s1 : Sim) (i c : Nat) (m l v : Int)
    (hinv : meal_inv env s) (hget : (meal_data s)[i]? = some (m, l)) (hc : s.clock_reads ≤ c)
    (hdata : meal_data s1 = (meal_data s).set i (v, env.clock c)) :
    ∀ (j : Nat) (d e : Int × Int), (meal_data s)[j]? = some d →
      (meal_data s1)[j]? = some e → d.2 ≤ e.2 := by
  have hi : i < (meal_data s).length := (List.getElem?_eq_some_iff.mp hget).1
  have hml := hinv (m, l) (mem_of_get _ _ _ hget)
  intro j d e hd he
  rw [hdata] at he
  by_cases hij : i = j
  · subst hij
    rw [List.getElem?_set_self hi] at he
    simp only [Option.some.injEq] at he
    subst he
    rw [hget] at hd
    simp only [Option.some.injEq] at hd
    subst hd
    exact hml.2 c hc
  · rw [List.getElem?_set_ne hij, hd] at he
    simp only [Option.some.injEq] at he
    subst he
    exact le_refl _

/-- C20 as amended. Per-philosopher meal data are monotone while the `int`
counter `meals_eaten` is below 2147483647. Let the clock be non-decreasing and
let `s` be a state in which every `meals_eaten` is non-negative and every
stored `last_meal_time` is at most each clock reading still to come (as after
`init_philos`, which stores 0, when the clock is non-negative). Then across
`create_philosopher_threads` (stamping a time that is neither below a stored
`last_meal_time` nor above a coming reading, as the one read by
`launch_threads`), `launch_threads`, `think`, `sleep_philo`, `check_death`
and `check_all_full`: no `meals_eaten` and no `last_meal_time` of any record
decreases, every `meals_eaten` stays non-negative, no `meals_eaten` changes
(`think`, `sleep_philo` and the two checks leave `last_meal_time` too), and
the assumption on `s` holds again afterwards. A call of `eat` for
philosopher `i` that is stopped at its entry check changes nothing; one that
gets past it stamps the `last_meal_time` of `i` with a clock reading, which
never decreases it, and increments the `int` counter `meals_eaten` of `i`,
leaving the others alone: when the counter is below 2147483647 this adds
exactly 1, no meal count decreases, all stay non-negative and the assumption
on `s` holds again. -/
theorem meal_data_monotone (env : Env) (hmono : ∀ a b, a ≤ b → env.clock a ≤ env.clock b)
    (s : Sim) (hinv : meal_inv env s) :
    (∀ (st x : Int) (s1 : Sim), (∀ d ∈ meal_data s, d.2 ≤ st) →
      (∀ k, s.clock_reads ≤ k → st ≤ env.clock k) →
      create_philosopher_threads env st s = some (x, s1) →
      MealsGrow env s s1 ∧ (meal_data s1).map Prod.fst = (meal_data s).map Prod.fst) ∧
    (∀ (x : Int) (s1 : Sim), launch_threads env s = some (x, s1) →
      MealsGrow env s s1 ∧ (meal_data s1).map Prod.fst = (meal_data s).map Prod.fst) ∧
    (∀ (fuel i : Nat) (p : t_philo) (s1 : Sim), s.table.philos[i]? = some p →
      eat env fuel i s = some s1 →
      ((is_simulation_over env s).1 = true →
        meal_data s1 = meal_data s ∧ MealsGrow env s s1) ∧
      ((is_simulation_over env s).1 = false →
        ∃ c, meal_data s1 =
          (meal_data s).set i (wrap32 (p.meals_eaten + 1), env.clock c)) ∧
      (∀ (j : Nat) (d e : Int × Int), (meal_data s)[j]? = some d →
        (meal_data s1)[j]? = some e → d.2 ≤ e.2) ∧
      (p.meals_eaten < 2147483647 →
        wrap32 (p.meals_eaten + 1) = p.meals_eaten + 1 ∧ MealsGrow env s s1)) ∧
    (∀ (fuel i : Nat) (s1 : Sim), think env fuel i s = some s1 →
      MealsGrow env s s1 ∧ meal_data s1 = meal_data s) ∧
    (∀ (fuel i : Nat) (s1 : Sim), sleep_philo env fuel i s = some s1 →
      MealsGrow env s s1 ∧ meal_data s1 = meal_data s) ∧
    (∀ (i : Nat) (d : Int) (s1 : Sim), check_death env i s = some (d, s1) →
      MealsGrow env s s1 ∧ meal_data s1 = meal_data s) ∧
    (∀ (f : Int) (s1 : Sim), check_all_full env s = some (f, s1) →
      MealsGrow env s s1 ∧ meal_data s1 = meal_data s) := by
  refine ⟨?_, ?_, ?_, ?_, ?_, ?_, ?_⟩
  · intro st x s1 hold hst h
    have k := create_philosopher_threads_loop_meals env st _ _ _ _ _ h
    exact ⟨k.stamp_grow hinv hold hst, k.meals_eq⟩
  · intro x s1 h
    have k := launch_threads_meals env s s1 x h
    have k0 : MealsKept s { (get_time_ms env s).2 with
        table := { (get_time_ms env s).2.table with start_time := env.clock s.clock_reads } } :=
      MealsKept.of_eq rfl (Nat.le_succ _)
    have hinv0 := (k0.kept_grow hinv).inv
    have g := k.stamp_grow hinv0
      (fun d hd => by
        rw [k0.data_eq] at hd
        exact (hinv d hd).2 _ (le_refl _))
      (fun j hj => hmono _ _ (le_trans (Nat.le_succ _) hj))
    have e0 : meal_data { (get_time_ms env s).2 with
        table := { (get_time_ms env s).2.table with start_time := env.clock s.clock_reads } } =
        meal_data s := k0.data_eq
    refine ⟨⟨?_, ?_, g.nonneg, g.inv⟩, ?_⟩
    · rw [g.length_eq, e0]
    · intro i d e hd he
      exact g.mono i d e (by rw [e0]; exact hd) he
    · rw [k.meals_eq, e0]
  · intro fuel i p s1 hp h
    obtain ⟨e1, e2⟩ := eat_meals env fuel i s s1 p hp h
    have hp0 : 0 ≤ p.meals_eaten := (hinv _ (mem_of_get _ _ _ (meal_data_get s i p hp))).1
    refine ⟨fun h0 => ⟨(e1 h0).data_eq, (e1 h0).kept_grow hinv⟩, fun h0 => ?_, ?_, fun hlt => ?_⟩
    · obtain ⟨c, _, _, hd⟩ := e2 h0
      exact ⟨c, hd⟩
    · cases h0 : (is_simulation_over env s).1
      · obtain ⟨c, hc, _, hd⟩ := e2 h0
        exact last_meal_grows_of_set env s s1 i c _ _ _ hinv (meal_data_get s i p hp) hc hd
      · intro j d e hd he
        rw [(e1 h0).data_eq, hd] at he
        simp only [Option.some.injEq] at he
        subst he
        exact le_refl _
    · have hw : wrap32 (p.meals_eaten + 1) = p.meals_eaten + 1 :=
        wrap32_id _ (by omega) (by omega)
      refine ⟨hw, ?_⟩
      cases h0 : (is_simulation_over env s).1
      · obtain ⟨c, hc, hc1, hd⟩ := e2 h0
        rw [hw] at hd
        exact meals_grow_of_set env hmono s s1 i c _ _ hinv (meal_data_get s i p hp) hc hc1 hd
      · exact (e1 h0).kept_grow hinv
  · intro fuel i s1 h
    have k := think_kept env fuel i s s1 h
    exact ⟨k.kept_grow hinv, k.data_eq⟩
  · intro fuel i s1 h
    have k := sleep_philo_kept env fuel i s s1 h
    exact ⟨k.kept_grow hinv, k.data_eq⟩
  · intro i d s1 h
    have k := check_death_kept env i s s1 d h
    exact ⟨k.kept_grow hinv, k.data_eq⟩
  · intro f s1 h
    have k := check_all_full_kept env s s1 f h
    exact ⟨k.kept_grow hinv, k.data_eq⟩

/-- Witness of `meal_data_monotone`: the state left by `init_philos` for a
ring of two, a clock that advances 1 ms per reading; philosopher 1 eats
once. -/
theorem meal_data_monotone_witness :
    ∃ s1, eat Env.quiet 1 0 (Sim.start (ring_table 2)) = some s1 ∧
      MealsGrow Env.quiet (Sim.start (ring_table 2)) s1 ∧
      ∃ c, meal_data s1 = [(1, Env.quiet.clock c), (0, 0)] := by
  have hsome : (eat Env.quiet 1 0 (Sim.start (ring_table 2))).isSome = true := by decide
  obtain ⟨s1, h1⟩ := Option.isSome_iff_exists.mp hsome
  have hd : meal_data (Sim.start (ring_table 2)) = [(0, 0), (0, 0)] := by decide
  have h := (meal_data_monotone Env.quiet (fun a b hab => Int.ofNat_le.mpr hab)
    (Sim.start (ring_table 2))
    (by
      intro d hd1
      rw [hd] at hd1
      simp only [List.mem_cons, List.mem_singleton, List.mem_nil_iff, or_false, or_self] at hd1
      subst hd1
      exact ⟨le_refl _, fun k _ => Int.ofNat_nonneg k⟩)).2.2.1 1 0
    { id := 1, meals_eaten := 0, last_meal_time := 0, thread_valid := false,
      state := .THINKING, left_fork := 0, right_fork := some 1 } s1 (by decide) h1
  obtain ⟨_, hset, _, hgrow⟩ := h
  obtain ⟨c, hc⟩ := hset (by decide)
  refine ⟨s1, h1, (hgrow (by decide)).2, c, ?_⟩
  rw [hc, hd]
  rfl

/-! ## The meal counter at the end of its range

A philosopher of a ring run with times of 1 ms, no other thread interfering
and the clock advancing by 1 ms per reading: every cycle of its loop is
completed, and counts one meal. -/

theorem quiet_over (s : Sim) (hflag : s.table.simulation_should_end = false) :
    is_simulation_over Env.quiet s = (false, { s with flag_reads := s.flag_reads + 1 }) := by
  simp only [is_simulation_over, Env.quiet, hflag, Bool.or_false]
  congr 2
  cases s with
  | mk table trace held flag_reads clock_reads yields mallocs mutex_inits thread_creates =>
    cases table
    simp only at hflag
    subst hflag
    rfl

theorem quiet_print (i : Nat) (msg : String) (s : Sim) (p : t_philo)
    (hp : s.table.philos[i]? = some p) (hflag : s.table.simulation_should_end = false) :
    ∃ s1, print_status Env.quiet i msg false s = some s1 ∧ s1.table = s.table := by
  simp only [print_status, hp]
  rw [quiet_over s hflag]
  simp only [Bool.false_and, Bool.false_eq_true, if_false]
  rw [quiet_over _ (by simpa [get_time_ms] using hflag)]
  simp [emit, get_time_ms]

theorem quiet_wait (s : Sim) (hflag : s.table.simulation_should_end = false) :
    ∃ s1, precise_usleep Env.quiet 1 1 s = some s1 ∧ s1.table = s.table := by
  simp only [precise_usleep, precise_usleep_loop]
  rw [quiet_over _ (by simpa [get_time_ms] using hflag)]
  simp [get_time_ms, Env.quiet]

theorem quiet_lock_print (i k : Nat) (s : Sim) (p : t_philo)
    (hp : s.table.philos[i]? = some p) (hflag : s.table.simulation_should_end = false) :
    ∃ s1, print_status Env.quiet i "has taken a fork" false (lock_fork k s) = some s1 ∧
      s1.table = s.table :=
  quiet_print i _ (lock_fork k s) p hp hflag

theorem quiet_take_forks (i : Nat) (s : Sim) (p : t_philo) (r : Nat)
    (hp : s.table.philos[i]? = some p) (hr : p.right_fork = some r)
    (hflag : s.table.simulation_should_end = false) :
    ∃ s1, take_forks Env.quiet i s = some s1 ∧ s1.table = s.table := by
  simp only [take_forks, hp, hr]
  split
  · obtain ⟨s1, h1, t1⟩ := quiet_lock_print i p.left_fork s p hp hflag
    obtain ⟨s2, h2, t2⟩ := quiet_lock_print i r s1 p (by rw [t1]; exact hp) (by rw [t1]; exact hflag)
    refine ⟨s2, ?_, by rw [t2, t1]⟩
    rw [h1]
    exact h2
  · obtain ⟨s1, h1, t1⟩ := quiet_lock_print i r s p hp hflag
    obtain ⟨s2, h2, t2⟩ := quiet_lock_print i p.left_fork s1 p (by rw [t1]; exact hp)
      (by rw [t1]; exact hflag)
    refine ⟨s2, ?_, by rw [t2, t1]⟩
    rw [h1]
    exact h2

theorem quiet_sleep (i : Nat) (s : Sim) (p : t_philo)
    (hp : s.table.philos[i]? = some p) (hflag : s.table.simulation_should_end = false)
    (hts : s.table.time_to_sleep = 1) :
    ∃ s1, sleep_philo Env.quiet 1 i s = some s1 ∧ s1.table = s.table := by
  simp only [sleep_philo]
  rw [quiet_over s hflag]
  simp only [Bool.false_eq_true, if_false]
  obtain ⟨s1, h1, t1⟩ := quiet_print i "is sleeping" { s with flag_reads := s.flag_reads + 1 } p
    hp hflag
  rw [h1]
  simp only [Option.some_bind]
  have e : s1.table.time_to_sleep = 1 := by rw [t1]; exact hts
  rw [e]
  obtain ⟨s2, h2, t2⟩ := quiet_wait s1 (by rw [t1]; exact hflag)
  exact ⟨s2, h2, by rw [t2, t1]⟩

theorem quiet_think (i : Nat) (s : Sim) (p : t_philo)
    (hp : s.table.philos[i]? = some p) (hflag : s.table.simulation_should_end = false)
    (hte : s.table.time_to_eat = 1) (hts : s.table.time_to_sleep = 1) :
    ∃ s1, think Env.quiet 1 i s = some s1 ∧
      s1.table = { s.table with philos := s.table.philos.set i { p with state := .THINKING } } := by
  simp only [think]
  rw [quiet_over s hflag]
  simp only [Bool.false_eq_true, if_false]
  obtain ⟨s1, h1, t1⟩ := quiet_print i "is thinking" { s with flag_reads := s.flag_reads + 1 } p
    hp hflag
  have t1' : s1.table = s.table := t1
  rw [h1]
  have hp1 : s1.table.philos[i]? = some p := by rw [t1']; exact hp
  simp only [Option.some_bind, set_state, hp1]
  have hc : ¬ ((set_philo i { p with state := .THINKING } s1).table.num_philos > 1 ∧
      (set_philo i { p with state := .THINKING } s1).table.time_to_eat >
        (set_philo i { p with state := .THINKING } s1).table.time_to_sleep) := by
    intro hc
    have h2 := hc.2
    simp only [set_philo, t1', hte, hts] at h2
    exact absurd h2 (by decide)
  rw [if_neg hc]
  refine ⟨_, rfl, ?_⟩
  simp only [set_philo, t1']

theorem record_meal_sleep_time (env : Env) (i : Nat) (s s1 : Sim)
    (h : record_meal env i s = some s1) :
    s1.table.time_to_sleep = s.table.time_to_sleep := by
  simp only [record_meal] at h
  split at h
  · cases h
  · simp only [Option.some.injEq] at h
    rw [← h]
    rfl

theorem quiet_eat (i : Nat) (s : Sim) (p : t_philo) (r : Nat)
    (hp : s.table.philos[i]? = some p) (hr : p.right_fork = some r)
    (hflag : s.table.simulation_should_end = false) (hte : s.table.time_to_eat = 1)
    (hts : s.table.time_to_sleep = 1) :
    ∃ s1 q, eat Env.quiet 1 i s = some s1 ∧ s1.table.philos[i]? = some q ∧
      q.meals_eaten = wrap32 (p.meals_eaten + 1) ∧ q.right_fork = some r ∧
      s1.table.simulation_should_end = false ∧ s1.table.time_to_eat = 1 ∧
      s1.table.time_to_sleep = 1 := by
  have hi : i < s.table.philos.length := (List.getElem?_eq_some_iff.mp hp).1
  have hentry : (is_simulation_over Env.quiet s).1 = false := by
    simp [is_simulation_over, hflag, Env.quiet]
  obtain ⟨s1, s3, s4, s5, report, naps, h1, _, _, _, h3, _, h4, _, _, h5, heat, _, _, hphilos, _⟩ :=
    eat_run Env.quiet 1 i s p r hp hr hentry (by decide)
      (fun _ => ⟨0, by decide, Or.inr (by
        rw [hte]
        show (1 : Int) ≤ ((s.clock_reads + 2 + 1 + 0 : Nat) : Int) - ((s.clock_reads + 2 : Nat) : Int)
        push_cast
        omega)⟩)
  have hstep := eat_step Env.quiet 1 i s s5 heat
  have hp0 : (is_simulation_over Env.quiet s).2.table.philos[i]? = some p := by
    simpa [is_simulation_over] using hp
  obtain ⟨s1', h1', o1⟩ := print_status_observes Env.quiet i "is eating" false _ p hp0
  rw [h1] at h1'
  simp only [Option.some.injEq] at h1'
  subst h1'
  have hp1 : s1.table.philos[i]? = some p := by rw [o1.table_eq]; exact hp0
  obtain ⟨s3', h3', _, _, _, _, _, _, hte3⟩ := record_meal_some Env.quiet i
    (set_philo i { p with state := .EATING } s1) _ (set_philo_get i _ p s1 hp1)
  rw [h3] at h3'
  simp only [Option.some.injEq] at h3'
  subst h3'
  have hts3 := record_meal_sleep_time Env.quiet i _ s3 h3
  have o4 := precise_usleep_observes Env.quiet 1 _ s3 s4 h4
  have hte1 : s1.table.time_to_eat = s.table.time_to_eat := by rw [o1.table_eq]; rfl
  have hts1 : s1.table.time_to_sleep = s.table.time_to_sleep := by rw [o1.table_eq]; rfl
  have hte4 : s4.table.time_to_eat = s3.table.time_to_eat := by rw [o4.table_eq]
  have hts4 : s4.table.time_to_sleep = s3.table.time_to_sleep := by rw [o4.table_eq]
  refine ⟨s5, { p with last_meal_time := Env.quiet.clock s1.clock_reads,
                       meals_eaten := wrap32 (p.meals_eaten + 1), state := .SLEEPING },
    heat, ?_, rfl, hr, ?_, ?_, ?_⟩
  · rw [hphilos]
    exact List.getElem?_set_self hi
  · rw [hstep.untouched (fun _ => rfl)]
    exact hflag
  · rw [h5]
    show s4.table.time_to_eat = 1
    rw [hte4, hte3]
    show s1.table.time_to_eat = 1
    rw [hte1, hte]
  · rw [h5]
    show s4.table.time_to_sleep = 1
    rw [hts4, hts3]
    show s1.table.time_to_sleep = 1
    rw [hts1, hts]

theorem quiet_cycle (i : Nat) (s : Sim) (p : t_philo) (r : Nat)
    (hp : s.table.philos[i]? = some p) (hr : p.right_fork = some r)
    (hflag : s.table.simulation_should_end = false) (hte : s.table.time_to_eat = 1)
    (hts : s.table.time_to_sleep = 1) :
    ∃ sf se s1 qe q,
      take_forks Env.quiet i (is_simulation_over Env.quiet s).2 = some sf ∧
      (is_simulation_over Env.quiet sf).1 = false ∧
      (is_simulation_over Env.quiet sf).2.table.philos[i]? = some p ∧
      eat Env.quiet 1 i (is_simulation_over Env.quiet sf).2 = some se ∧
      se.table.philos[i]? = some qe ∧ qe.meals_eaten = wrap32 (p.meals_eaten + 1) ∧
      perform_cycle_actions Env.quiet 1 i (is_simulation_over Env.quiet s).2 = some (0, s1) ∧
      s1.table.philos[i]? = some q ∧ q.meals_eaten = wrap32 (p.meals_eaten + 1) ∧
      q.right_fork = some r ∧ s1.table.simulation_should_end = false ∧
      s1.table.time_to_eat = 1 ∧ s1.table.time_to_sleep = 1 := by
  have hs0 := quiet_over s hflag
  obtain ⟨sf, hf, tf⟩ := quiet_take_forks i { s with flag_reads := s.flag_reads + 1 } p r hp hr
    hflag
  have tf' : sf.table = s.table := tf
  have hflagf : sf.table.simulation_should_end = false := by rw [tf']; exact hflag
  have hsf := quiet_over sf hflagf
  obtain ⟨se, qe, he, hqe, hqem, hqer, hflage, htee, htse⟩ :=
    quiet_eat i { sf with flag_reads := sf.flag_reads + 1 } p r
      (by show sf.table.philos[i]? = some p; rw [tf']; exact hp) hr hflagf
      (by show sf.table.time_to_eat = 1; rw [tf']; exact hte)
      (by show sf.table.time_to_sleep = 1; rw [tf']; exact hts)
  have hse := quiet_over se hflage
  obtain ⟨ss, hs, tss⟩ := quiet_sleep i { se with flag_reads := se.flag_reads + 1 } qe hqe hflage
    htse
  have tss' : ss.table = se.table := tss
  have hflags : ss.table.simulation_should_end = false := by rw [tss']; exact hflage
  have hss := quiet_over ss hflags
  obtain ⟨s1, ht, tt⟩ := quiet_think i { ss with flag_reads := ss.flag_reads + 1 } qe
    (by show ss.table.philos[i]? = some qe; rw [tss']; exact hqe) hflags
    (by show ss.table.time_to_eat = 1; rw [tss']; exact htee)
    (by show ss.table.time_to_sleep = 1; rw [tss']; exact htse)
  have hie : i < se.table.philos.length := (List.getElem?_eq_some_iff.mp hqe).1
  refine ⟨sf, se, s1, qe, { qe with state := .THINKING }, ?_, ?_, ?_, ?_, hqe, hqem, ?_, ?_,
    hqem, hqer, ?_, ?_, ?_⟩
  · rw [hs0]
    exact hf
  · rw [hsf]
  · rw [hsf]
    show sf.table.philos[i]? = some p
    rw [tf']
    exact hp
  · rw [hsf]
    exact he
  · rw [hs0]
    simp only [perform_cycle_actions]
    rw [hf]
    simp only [Option.some_bind]
    rw [hsf]
    simp only [Bool.false_eq_true, if_false]
    rw [he]
    simp only [Option.some_bind]
    rw [hse]
    simp only [Bool.false_eq_true, if_false]
    rw [hs]
    simp only [Option.some_bind]
    rw [hss]
    simp only [Bool.false_eq_true, if_false]
    rw [ht]
    rfl
  · rw [tt]
    show (ss.table.philos.set i _)[i]? = some _
    rw [tss']
    exact List.getElem?_set_self hie
  · rw [tt]
    exact hflags
  · rw [tt]
    show ss.table.time_to_eat = 1
    rw [tss']
    exact htee
  · rw [tt]
    show ss.table.time_to_sleep = 1
    rw [tss']
    exact htse

theorem quiet_loop_cycles (i r : Nat) :
    ∀ (n : Nat) (s : Sim) (p : t_philo), s.table.philos[i]? = some p →
      p.right_fork = some r → s.table.simulation_should_end = false →
      s.table.time_to_eat = 1 → s.table.time_to_sleep = 1 →
      0 ≤ p.meals_eaten → p.meals_eaten + n ≤ 2147483647 →
      ∃ s1 q, (∀ c, philosopher_loop Env.quiet 1 i (n + c) s =
          philosopher_loop Env.quiet 1 i c s1) ∧
        s1.table.philos[i]? = some q ∧ q.meals_eaten = p.meals_eaten + n ∧
        q.right_fork = some r ∧ s1.table.simulation_should_end = false ∧
        s1.table.time_to_eat = 1 ∧ s1.table.time_to_sleep = 1 := by
  intro n
  induction n with
  | zero =>
    intro s p hp hr hflag hte hts _ _
    exact ⟨s, p, fun c => by rw [Nat.zero_add], hp, by simp, hr, hflag, hte, hts⟩
  | succ n ih =>
    intro s p hp hr hflag hte hts h0 hmax
    obtain ⟨_, _, s1, _, q, _, _, _, _, _, _, hcyc, hq, hqm, hqr, hf1, hte1, hts1⟩ :=
      quiet_cycle i s p r hp hr hflag hte hts
    have hw : wrap32 (p.meals_eaten + 1) = p.meals_eaten + 1 :=
      wrap32_id _ (by omega) (by push_cast at hmax; omega)
    rw [hw] at hqm
    obtain ⟨s2, q2, h2, hq2, hq2m, hq2r, hf2, hte2, hts2⟩ := ih s1 q hq hqr hf1 hte1 hts1
      (by omega) (by push_cast at hmax; omega)
    refine ⟨s2, q2, fun c => ?_, hq2, ?_, hq2r, hf2, hte2, hts2⟩
    · have e : n + 1 + c = (n + c) + 1 := by omega
      rw [e]
      simp only [philosopher_loop]
      have ho : (is_simulation_over Env.quiet s).1 = false := by rw [quiet_over s hflag]
      simp only [ho, Bool.false_eq_true, if_false, hcyc, ne_eq, not_true_eq_false]
      exact h2 c
    · rw [hq2m, hqm]
      push_cast
      omega

theorem philosopher_routine_odd (env : Env) (fuel cycles i : Nat) (s : Sim) (p : t_philo)
    (hp : s.table.philos[i]? = some p) (hodd : Int.tmod p.id 2 ≠ 0)
    (hn : s.table.num_philos ≠ 1) :
    philosopher_routine env fuel cycles i s = philosopher_loop env fuel i cycles s := by
  simp [philosopher_routine, hp, hodd, hn]

theorem quiet_start_state :
    ∃ t1 s0, initialize_simulation Env.quiet 5 ["./philo", "2", "800", "1", "1"]
        (Sim.start (ring_table 0)) = some (0, t1) ∧
      launch_threads Env.quiet t1 = some (0, s0) ∧
      s0.table.philos[0]? = some
        { id := 1, meals_eaten := 0, last_meal_time := 0, thread_valid := true,
          state := .THINKING, left_fork := 0, right_fork := some 1 } ∧
      s0.table.simulation_should_end = false ∧ s0.table.time_to_eat = 1 ∧
      s0.table.time_to_sleep = 1 ∧ s0.table.num_philos = 2 :=
  ⟨_, _, rfl, rfl, rfl, rfl, rfl, rfl, rfl⟩

/-- Counterexample to C20 as stated: the program is started with the arguments
`2 800 1 1` (two philosophers, no meal quota), every library call succeeds, no
other thread interferes with philosopher 1 and nobody dies. The loop of its
routine then completes 2147483647 cycles, which brings its `meals_eaten` to
2147483647; in the next cycle `eat` is entered with that count and returns
with the `int` counter wrapped to -2147483648: it has decreased, is negative
and has not changed by +1. -/
theorem meals_eaten_overflows :
    ∃ t1 s0 s q,
      initialize_simulation Env.quiet 5 ["./philo", "2", "800", "1", "1"]
        (Sim.start (ring_table 0)) = some (0, t1) ∧
      launch_threads Env.quiet t1 = some (0, s0) ∧
      (∀ c, philosopher_routine Env.quiet 1 (2147483647 + c) 0 s0 =
        philosopher_loop Env.quiet 1 0 c s) ∧
      s.table.philos[0]? = some q ∧ q.meals_eaten = 2147483647 ∧
      ∃ sf se qe, take_forks Env.quiet 0 (is_simulation_over Env.quiet s).2 = some sf ∧
        (is_simulation_over Env.quiet sf).1 = false ∧
        (is_simulation_over Env.quiet sf).2.table.philos[0]? = some q ∧
        eat Env.quiet 1 0 (is_simulation_over Env.quiet sf).2 = some se ∧
        se.table.philos[0]? = some qe ∧ qe.meals_eaten = -2147483648 := by
  obtain ⟨t1, s0, hinit, hlaunch, hp0, hflag0, hte0, hts0, hn0⟩ := quiet_start_state
  obtain ⟨s, q, hloop, hq, hqm, hqr, hflag, hte, hts⟩ :=
    quiet_loop_cycles 0 1 2147483647 s0 _ hp0 rfl hflag0 hte0 hts0 (by decide) (by decide)
  have hqm' : q.meals_eaten = 2147483647 := by
    rw [hqm]
    rfl
  obtain ⟨sf, se, _, qe, _, hf, hsf, hpf, he, hqe, hqem, _⟩ :=
    quiet_cycle 0 s q 1 hq hqr hflag hte hts
  refine ⟨t1, s0, s, q, hinit, hlaunch, fun c => ?_, hq, hqm', sf, se, qe, hf, hsf, hpf, he,
    hqe, ?_⟩
  · rw [philosopher_routine_odd Env.quiet 1 _ 0 s0 _ hp0 (by decide) (by rw [hn0]; decide)]
    exact hloop c
  · rw [hqem, hqm']
    decide

/-! ## Configuration (`init_table`) -/

theorem init_table_four (s : Sim) (a0 a1 a2 a3 a4 : String) :
    init_table 5 [a0, a1, a2, a3, a4] s =
      some (if 0 < ft_atoi a1.toList ∧ 0 < ft_atoi a2.toList ∧ 0 < ft_atoi a3.toList ∧
              0 < ft_atoi a4.toList then
          if ft_atoi a1.toList ≤ 200 then
            (0, { s with table :=
              { num_philos := ft_atoi a1.toList, time_to_die := ft_atoi a2.toList,
                time_to_eat := ft_atoi a3.toList, time_to_sleep := ft_atoi a4.toList,
                num_must_eat := -1, start_time := 0, simulation_should_end := false,
                philos := [], forks := [], forks_initialized_count := 0,
                print_mutex_initialized := false, sim_end_mutex_initialized := false,
                meal_time_mutex_initialized := false } })
          else
            (1, emit (.message "Error: Number of philosophers cannot exceed 200.")
              { s with table := { s.table with
                num_philos := ft_atoi a1.toList, time_to_die := ft_atoi a2.toList,
                time_to_eat := ft_atoi a3.toList, time_to_sleep := ft_atoi a4.toList,
                num_must_eat := -1 } })
        else
          (1, print_usage (emit (.message "Error: Invalid arguments.")
            { s with table := { s.table with
              num_philos := ft_atoi a1.toList, time_to_die := ft_atoi a2.toList,
              time_to_eat := ft_atoi a3.toList, time_to_sleep := ft_atoi a4.toList,
              num_must_eat := -1 } }))) := by
  simp only [init_table, parse_args, List.getElem?_cons_succ, List.getElem?_cons_zero]
  generalize ft_atoi a1.toList = n
  generalize ft_atoi a2.toList = d
  generalize ft_atoi a3.toList = e
  generalize ft_atoi a4.toList = sl
  by_cases h : 0 < n ∧ 0 < d ∧ 0 < e ∧ 0 < sl
  · have h' : ¬ (n ≤ 0 ∨ d ≤ 0 ∨ e ≤ 0 ∨ sl ≤ 0) := by omega
    by_cases h2 : n ≤ 200
    · have h2' : ¬ n > 200 := by omega
      simp [h, h', h2, h2', emit]
    · have h2' : n > 200 := by omega
      simp [h, h', h2, h2', emit]
  · have h' : n ≤ 0 ∨ d ≤ 0 ∨ e ≤ 0 ∨ sl ≤ 0 := by omega
    simp [h, h', emit, print_usage]

theorem init_table_five (s : Sim) (a0 a1 a2 a3 a4 a5 : String) :
    init_table 6 [a0, a1, a2, a3, a4, a5] s =
      some (if 0 < ft_atoi a1.toList ∧ 0 < ft_atoi a2.toList ∧ 0 < ft_atoi a3.toList ∧
              0 < ft_atoi a4.toList ∧ 0 < ft_atoi a5.toList then
          if ft_atoi a1.toList ≤ 200 then
            (0, { s with table :=
              { num_philos := ft_atoi a1.toList, time_to_die := ft_atoi a2.toList,
                time_to_eat := ft_atoi a3.toList, time_to_sleep := ft_atoi a4.toList,
                num_must_eat := ft_atoi a5.toList, start_time := 0,
                simulation_should_end := false,
                philos := [], forks := [], forks_initialized_count := 0,
                print_mutex_initialized := false, sim_end_mutex_initialized := false,
                meal_time_mutex_initialized := false } })
          else
            (1, emit (.message "Error: Number of philosophers cannot exceed 200.")
              { s with table := { s.table with
                num_philos := ft_atoi a1.toList, time_to_die := ft_atoi a2.toList,
                time_to_eat := ft_atoi a3.toList, time_to_sleep := ft_atoi a4.toList,
                num_must_eat := ft_atoi a5.toList } })
        else
          (1, print_usage (emit (.message "Error: Invalid arguments.")
            { s with table := { s.table with
              num_philos := ft_atoi a1.toList, time_to_die := ft_atoi a2.toList,
              time_to_eat := ft_atoi a3.toList, time_to_sleep := ft_atoi a4.toList,
              num_must_eat := ft_atoi a5.toList } }))) := by
  simp only [init_table, parse_args, List.getElem?_cons_succ, List.getElem?_cons_zero,
    if_true, Option.map_some']
  generalize ft_atoi a1.toList = n
  generalize ft_atoi a2.toList = d
  generalize ft_atoi a3.toList = e
  generalize ft_atoi a4.toList = sl
  generalize ft_atoi a5.toList = q
  by_cases h : 0 < n ∧ 0 < d ∧ 0 < e ∧ 0 < sl ∧ 0 < q
  · have h' : ¬ (n ≤ 0 ∨ d ≤ 0 ∨ e ≤ 0 ∨ sl ≤ 0 ∨ q ≤ 0) := by omega
    by_cases h2 : n ≤ 200
    · have h2' : ¬ n > 200 := by omega
      simp [h, h', h2, h2', emit]
    · have h2' : n > 200 := by omega
      simp [h, h', h2, h2', emit]
  · have h' : n ≤ 0 ∨ d ≤ 0 ∨ e ≤ 0 ∨ sl ≤ 0 ∨ q ≤ 0 := by omega
    simp [h, h', emit, print_usage]

/-- C16 as amended. For every argument vector of 4 or 5 arguments (after the
program name), `init_table` returns 0 exactly when the value that `ft_atoi`
parses from each argument is positive and the parsed number of philosophers
is at most 200, and returns 1 otherwise; an argument that is not an integer
is judged by the value `ft_atoi` gives it. On success nothing is printed and
the table holds the parsed values, `num_must_eat` is the parsed quota, or -1
when the quota is absent, `start_time` is 0, the termination flag is false,
both arrays are `NULL`, and the fork counter and the three initialised flags
are 0. -/
theorem init_table_spec (s : Sim) (a0 a1 a2 a3 a4 a5 : String) :
    (∃ r s1, init_table 5 [a0, a1, a2, a3, a4] s = some (r, s1) ∧ (r = 0 ∨ r = 1) ∧
      (r = 0 ↔ 0 < ft_atoi a1.toList ∧ 0 < ft_atoi a2.toList ∧ 0 < ft_atoi a3.toList ∧
        0 < ft_atoi a4.toList ∧ ft_atoi a1.toList ≤ 200) ∧
      (r = 0 → s1 = { s with table :=
        { num_philos := ft_atoi a1.toList, time_to_die := ft_atoi a2.toList,
          time_to_eat := ft_atoi a3.toList, time_to_sleep := ft_atoi a4.toList,
          num_must_eat := -1, start_time := 0, simulation_should_end := false,
          philos := [], forks := [], forks_initialized_count := 0,
          print_mutex_initialized := false, sim_end_mutex_initialized := false,
          meal_time_mutex_initialized := false } })) ∧
    (∃ r s1, init_table 6 [a0, a1, a2, a3, a4, a5] s = some (r, s1) ∧ (r = 0 ∨ r = 1) ∧
      (r = 0 ↔ 0 < ft_atoi a1.toList ∧ 0 < ft_atoi a2.toList ∧ 0 < ft_atoi a3.toList ∧
        0 < ft_atoi a4.toList ∧ 0 < ft_atoi a5.toList ∧ ft_atoi a1.toList ≤ 200) ∧
      (r = 0 → s1 = { s with table :=
        { num_philos := ft_atoi a1.toList, time_to_die := ft_atoi a2.toList,
          time_to_eat := ft_atoi a3.toList, time_to_sleep := ft_atoi a4.toList,
          num_must_eat := ft_atoi a5.toList, start_time := 0,
          simulation_should_end := false,
          philos := [], forks := [], forks_initialized_count := 0,
          print_mutex_initialized := false, sim_end_mutex_initialized := false,
          meal_time_mutex_initialized := false } })) := by
  constructor
  · rw [init_table_four]
    by_cases h : 0 < ft_atoi a1.toList ∧ 0 < ft_atoi a2.toList ∧ 0 < ft_atoi a3.toList ∧
        0 < ft_atoi a4.toList
    · by_cases h2 : ft_atoi a1.toList ≤ 200
      · rw [if_pos h, if_pos h2]
        exact ⟨0, _, rfl, Or.inl rfl, ⟨fun _ => ⟨h.1, h.2.1, h.2.2.1, h.2.2.2, h2⟩, fun _ => rfl⟩,
          fun _ => rfl⟩
      · rw [if_pos h, if_neg h2]
        refine ⟨1, _, rfl, Or.inr rfl, ⟨fun h0 => ?_, fun h0 => ?_⟩, fun h0 => ?_⟩
        · exact absurd h0 (by decide)
        · exact absurd h0.2.2.2.2 h2
        · exact absurd h0 (by decide)
    · rw [if_neg h]
      refine ⟨1, _, rfl, Or.inr rfl, ⟨fun h0 => ?_, fun h0 => ?_⟩, fun h0 => ?_⟩
      · exact absurd h0 (by decide)
      · exact absurd ⟨h0.1, h0.2.1, h0.2.2.1, h0.2.2.2.1⟩ h
      · exact absurd h0 (by decide)
  · rw [init_table_five]
    by_cases h : 0 < ft_atoi a1.toList ∧ 0 < ft_atoi a2.toList ∧ 0 < ft_atoi a3.toList ∧
        0 < ft_atoi a4.toList ∧ 0 < ft_atoi a5.toList
    · by_cases h2 : ft_atoi a1.toList ≤ 200
      · rw [if_pos h, if_pos h2]
        exact ⟨0, _, rfl, Or.inl rfl,
          ⟨fun _ => ⟨h.1, h.2.1, h.2.2.1, h.2.2.2.1, h.2.2.2.2, h2⟩, fun _ => rfl⟩, fun _ => rfl⟩
      · rw [if_pos h, if_neg h2]
        refine ⟨1, _, rfl, Or.inr rfl, ⟨fun h0 => ?_, fun h0 => ?_⟩, fun h0 => ?_⟩
        · exact absurd h0 (by decide)
        · exact absurd h0.2.2.2.2.2 h2
        · exact absurd h0 (by decide)
    · rw [if_neg h]
      refine ⟨1, _, rfl, Or.inr rfl, ⟨fun h0 => ?_, fun h0 => ?_⟩, fun h0 => ?_⟩
      · exact absurd h0 (by decide)
      · exact absurd ⟨h0.1, h0.2.1, h0.2.2.1, h0.2.2.2.1, h0.2.2.2.2.1⟩ h
      · exact absurd h0 (by decide)

/-- Counterexample to C16 as stated: the argument `5x` is not an integer (not
all of its characters are digits), yet `ft_atoi` reads 5 from it and
`init_table` returns 0 with 5 philosophers. -/
theorem init_table_accepts_non_integer :
    "5x".toList.all Char.isDigit = false ∧ ft_atoi "5x".toList = 5 ∧
    (init_table 5 ["./philo", "5x", "800", "200", "200"] (Sim.start (ring_table 0))).map
        (fun r => (r.1, r.2.table.num_philos)) = some (0, 5) := by
  decide

/-- Witness of `init_table_spec`: `./philo 5 800 200 200` is accepted and the
table holds 5, 800, 200, 200 and no quota. -/
theorem init_table_spec_witness :
    ∃ s1, init_table 5 ["./philo", "5", "800", "200", "200"] (Sim.start (ring_table 0)) =
        some (0, s1) ∧
      s1.table.num_philos = 5 ∧ s1.table.time_to_die = 800 ∧ s1.table.num_must_eat = -1 := by
  obtain ⟨r, s1, h, _, hiff, hs⟩ :=
    (init_table_spec (Sim.start (ring_table 0)) "./philo" "5" "800" "200" "200" "").1
  have hr : r = 0 := hiff.mpr (by decide)
  subst hr
  refine ⟨s1, h, ?_⟩
  rw [hs rfl]
  decide

/-! ## Rejected arguments (`main`) -/

theorem main_rejects (env : Env) (argc : Int) (argv : List String) (s s1 : Sim)
    (hargc : ¬ (argc < 5 ∨ argc > 6)) (h : init_table argc argv s = some (1, s1)) :
    main env argc argv s = some (1, s1) := by
  simp [main, hargc, initialize_simulation, h]

/-- C17. Evaluation of `main` on rejected arguments. When `argc` is outside
5..6, `main` prints the usage text and returns 1, and when a parsed value is
not positive it prints "Error: Invalid arguments." and the usage text and
returns 1, in both cases without any `malloc`, `pthread_mutex_init` or
`pthread_create`. But on `./philo 201 800 200 200`, which `parse_args`
rejects for its number of philosophers above 200, `main` returns 1 having
printed only "Error: Number of philosophers cannot exceed 200.": the usage
text is not printed. -/
theorem main_over_limit_no_usage :
    (∀ (env : Env) (argc : Int) (argv : List String) (s : Sim), argc < 5 ∨ argc > 6 →
      main env argc argv s = some (1, print_usage s)) ∧
    (∀ (env : Env) (s : Sim) (a0 a1 a2 a3 a4 : String),
      ¬ (0 < ft_atoi a1.toList ∧ 0 < ft_atoi a2.toList ∧ 0 < ft_atoi a3.toList ∧
        0 < ft_atoi a4.toList) →
      ∃ s1, main env 5 [a0, a1, a2, a3, a4] s = some (1, s1) ∧
        s1.trace = (print_usage (emit (.message "Error: Invalid arguments.") s)).trace ∧
        s1.mallocs = s.mallocs ∧ s1.mutex_inits = s.mutex_inits ∧
        s1.thread_creates = s.thread_creates) ∧
    (∀ (env : Env) (s : Sim) (a0 a1 a2 a3 a4 a5 : String),
      ¬ (0 < ft_atoi a1.toList ∧ 0 < ft_atoi a2.toList ∧ 0 < ft_atoi a3.toList ∧
        0 < ft_atoi a4.toList ∧ 0 < ft_atoi a5.toList) →
      ∃ s1, main env 6 [a0, a1, a2, a3, a4, a5] s = some (1, s1) ∧
        s1.trace = (print_usage (emit (.message "Error: Invalid arguments.") s)).trace ∧
        s1.mallocs = s.mallocs ∧ s1.mutex_inits = s.mutex_inits ∧
        s1.thread_creates = s.thread_creates) ∧
    (main Env.quiet 5 ["./philo", "201", "800", "200", "200"] (Sim.start (ring_table 0))).map
        (fun r => (r.1, r.2.trace, r.2.mallocs, r.2.mutex_inits, r.2.thread_creates)) =
      some (1, [.message "Error: Number of philosophers cannot exceed 200."], 0, 0, 0) := by
  refine ⟨?_, ?_, ?_, ?_⟩
  · intro env argc argv s h
    simp [main, h]
  · intro env s a0 a1 a2 a3 a4 h
    have e := init_table_four s a0 a1 a2 a3 a4
    rw [if_neg h] at e
    exact ⟨_, main_rejects env 5 _ s _ (by decide) e, rfl, rfl, rfl, rfl⟩
  · intro env s a0 a1 a2 a3 a4 a5 h
    have e := init_table_five s a0 a1 a2 a3 a4 a5
    rw [if_neg h] at e
    exact ⟨_, main_rejects env 6 _ s _ (by decide) e, rfl, rfl, rfl, rfl⟩
  · decide

/-! ## Unwinding of a partial initialisation -/

theorem destroy_fork_mutexes_loop_flags :
    ∀ (n k : Nat) (s s1 : Sim), destroy_fork_mutexes_loop n k s = some s1 →
      same_utility_flags s.table s1.table := by
  intro n
  induction n with
  | zero =>
    intro k s s1 h
    simp only [destroy_fork_mutexes_loop, Option.some.injEq] at h
    subst h
    exact ⟨rfl, rfl, rfl⟩
  | succ n ih =>
    intro k s s1 h
    simp only [destroy_fork_mutexes_loop] at h
    split_ifs at h
    have k := ih _ _ _ h
    exact k

theorem destroy_n_fork_mutexes_unwinds (n : Int) (s s1 : Sim)
    (h : destroy_n_fork_mutexes n s = some s1) :
    s1.table.forks = [] ∧ s1.table.forks_initialized_count = 0 ∧
      same_utility_flags s.table s1.table := by
  simp only [destroy_n_fork_mutexes, Option.map_eq_some'] at h
  obtain ⟨s2, h2, rfl⟩ := h
  have k := destroy_fork_mutexes_loop_flags _ _ _ _ h2
  exact ⟨rfl, rfl, k⟩

theorem init_fork_mutexes_loop_unwinds (env : Env) :
    ∀ (r i : Nat) (s s1 : Sim) (x : Int), init_fork_mutexes_loop env r i s = some (x, s1) →
      same_utility_flags s.table s1.table ∧ (x = 0 ∨ x = 1) ∧
      (x ≠ 0 → s1.table.forks = [] ∧ s1.table.forks_initialized_count = 0) := by
  intro r
  induction r with
  | zero =>
    intro i s s1 x h
    simp only [init_fork_mutexes_loop, Option.some.injEq, Prod.mk.injEq] at h
    obtain ⟨rfl, rfl⟩ := h
    exact ⟨⟨rfl, rfl, rfl⟩, Or.inl rfl, fun hx => absurd rfl hx⟩
  | succ r ih =>
    intro i s s1 x h
    simp only [init_fork_mutexes_loop] at h
    split_ifs at h with hok
    · simp only [Option.map_eq_some'] at h
      obtain ⟨s2, h2, h3⟩ := h
      simp only [Prod.mk.injEq] at h3
      obtain ⟨rfl, rfl⟩ := h3
      obtain ⟨a, b, c⟩ := destroy_n_fork_mutexes_unwinds _ _ _ h2
      exact ⟨c, Or.inr rfl, fun _ => ⟨a, b⟩⟩
    · have k := ih _ _ _ _ h
      exact k

theorem init_fork_mutexes_unwinds (env : Env) (s s1 : Sim) (x : Int)
    (h : init_fork_mutexes env s = some (x, s1)) (hc : s.table.forks_initialized_count = 0) :
    same_utility_flags s.table s1.table ∧ (x = 0 ∨ x = 1) ∧
      (x ≠ 0 → s1.table.forks = [] ∧ s1.table.forks_initialized_count = 0) := by
  simp only [init_fork_mutexes] at h
  split_ifs at h with hok
  · simp only [Option.some.injEq, Prod.mk.injEq] at h
    obtain ⟨rfl, rfl⟩ := h
    exact ⟨⟨rfl, rfl, rfl⟩, Or.inr rfl, fun _ => ⟨rfl, hc⟩⟩
  · have k := init_fork_mutexes_loop_unwinds env _ _ _ _ _ h
    exact k

theorem init_utility_mutexes_unwinds (env : Env) (s : Sim)
    (hp : s.table.print_mutex_initialized = false)
    (he : s.table.sim_end_mutex_initialized = false)
    (hm : s.table.meal_time_mutex_initialized = false) :
    ((init_utility_mutexes env s).1 = 0 ∨ (init_utility_mutexes env s).1 = 1) ∧
    ((init_utility_mutexes env s).1 ≠ 0 →
      (init_utility_mutexes env s).2.table.print_mutex_initialized = false ∧
      (init_utility_mutexes env s).2.table.sim_end_mutex_initialized = false ∧
      (init_utility_mutexes env s).2.table.meal_time_mutex_initialized = false) := by
  cases h0 : env.mutex_init_ok s.mutex_inits <;>
    cases h1 : env.mutex_init_ok (s.mutex_inits + 1) <;>
    cases h2 : env.mutex_init_ok (s.mutex_inits + 1 + 1) <;>
    simp [init_utility_mutexes, init_print_mutex_internal, init_sim_end_mutex_internal,
      init_meal_time_mutex_internal, undo_print_mutex, undo_sim_end_mutex, emit, h0, h1, h2,
      hp, he, hm]

theorem init_mutexes_unwinds (env : Env) (s s1 : Sim) (x : Int)
    (h : init_mutexes env s = some (x, s1))
    (hc : s.table.forks_initialized_count = 0)
    (hp : s.table.print_mutex_initialized = false)
    (he : s.table.sim_end_mutex_initialized = false)
    (hm : s.table.meal_time_mutex_initialized = false) :
    (x = 0 ∨ x = 1) ∧ (x ≠ 0 → unwound s1.table) := by
  simp only [init_mutexes] at h
  cases hf : init_fork_mutexes env s with
  | none => simp [hf] at h
  | some y =>
    obtain ⟨r, s2⟩ := y
    simp only [hf] at h
    obtain ⟨⟨f1, f2, f3⟩, _, hun⟩ := init_fork_mutexes_unwinds env s s2 r hf hc
    by_cases hr : r = 0
    · simp only [hr, ne_eq, not_true_eq_false, if_false] at h
      obtain ⟨_, hu⟩ := init_utility_mutexes_unwinds env s2 (by rw [f1, hp]) (by rw [f2, he])
        (by rw [f3, hm])
      by_cases hu0 : (init_utility_mutexes env s2).1 = 0
      · simp only [hu0, ne_eq, not_true_eq_false, if_false, Option.some.injEq,
          Prod.mk.injEq] at h
        exact ⟨Or.inl h.1.symm, fun hx => absurd h.1.symm hx⟩
      · simp only [ne_eq, hu0, not_false_eq_true, if_true, Option.map_eq_some'] at h
        obtain ⟨s3, h3, h4⟩ := h
        simp only [Prod.mk.injEq] at h4
        obtain ⟨rfl, rfl⟩ := h4
        obtain ⟨a, b, c1, c2, c3⟩ := destroy_n_fork_mutexes_unwinds _ _ _ h3
        obtain ⟨u1, u2, u3⟩ := hu hu0
        exact ⟨Or.inr rfl, fun _ => ⟨a, b, by rw [c1, u1], by rw [c2, u2], by rw [c3, u3]⟩⟩
    · simp only [ne_eq, hr, not_false_eq_true, if_true, Option.some.injEq, Prod.mk.injEq] at h
      obtain ⟨rfl, rfl⟩ := h
      obtain ⟨a, b⟩ := hun hr
      exact ⟨Or.inr rfl, fun _ => ⟨a, b, by rw [f1, hp], by rw [f2, he], by rw [f3, hm]⟩⟩

theorem init_table_ok_fields (argc : Int) (argv : List String) (s s0 : Sim)
    (h : init_table argc argv s = some (0, s0)) :
    s0.table.forks_initialized_count = 0 ∧ s0.table.print_mutex_initialized = false ∧
      s0.table.sim_end_mutex_initialized = false ∧
      s0.table.meal_time_mutex_initialized = false := by
  simp only [init_table, Option.map_eq_some'] at h
  obtain ⟨⟨r, s2⟩, _, h2⟩ := h
  split_ifs at h2 with hr
  · simp only [Prod.mk.injEq] at h2
    exact absurd h2.1 (by decide)
  · simp only [Prod.mk.injEq] at h2
    rw [← h2.2]
    exact ⟨rfl, rfl, rfl, rfl⟩

/-- C18. Evaluation of `initialize_simulation` at its failure points. When
`init_mutexes` fails after a successful `init_table` (allocation of the fork
array, creation of any fork mutex, creation of any utility mutex),
`initialize_simulation` returns 1 with `forks` `NULL`, the fork counter 0 and
the three initialised flags 0; so it is on `./philo 2 800 200 200` when the
first `malloc` fails and when any of the five `pthread_mutex_init` calls
fails. But when the second `malloc`, that of the philosopher records in
`init_philos`, fails, `initialize_simulation` returns 1 with both fork
mutexes and the three utility mutexes still initialised, and `main` returns 1
without a single `pthread_mutex_destroy`. -/
theorem init_philos_failure_leaks :
    (∀ (env : Env) (argc : Int) (argv : List String) (s s0 s1 : Sim) (x : Int),
      init_table argc argv s = some (0, s0) → init_mutexes env s0 = some (x, s1) → x ≠ 0 →
      initialize_simulation env argc argv s = some (1, s1) ∧ unwound s1.table) ∧
    (initialize_simulation (Env.malloc_fails_at 0) 5 ["./philo", "2", "800", "200", "200"]
        (Sim.start (ring_table 0))).map (fun r => (r.1, decide (unwound r.2.table))) =
      some (1, true) ∧
    (∀ k, k < 5 →
      (initialize_simulation (Env.mutex_init_fails_at k) 5
          ["./philo", "2", "800", "200", "200"] (Sim.start (ring_table 0))).map
          (fun r => (r.1, decide (unwound r.2.table))) = some (1, true)) ∧
    (initialize_simulation (Env.malloc_fails_at 1) 5 ["./philo", "2", "800", "200", "200"]
        (Sim.start (ring_table 0))).map
        (fun r => (r.1, r.2.table.forks, r.2.table.forks_initialized_count,
          r.2.table.print_mutex_initialized, r.2.table.sim_end_mutex_initialized,
          r.2.table.meal_time_mutex_initialized)) =
      some (1, [true, true], 2, true, true, true) ∧
    (main (Env.malloc_fails_at 1) 5 ["./philo", "2", "800", "200", "200"]
        (Sim.start (ring_table 0))).map
        (fun r => (r.1, r.2.table.forks, r.2.table.forks_initialized_count,
          r.2.table.print_mutex_initialized, r.2.table.sim_end_mutex_initialized,
          r.2.table.meal_time_mutex_initialized)) =
      some (1, [true, true], 2, true, true, true) ∧
    (main (Env.malloc_fails_at 1) 5 ["./philo", "2", "800", "200", "200"]
        (Sim.start (ring_table 0))).map (fun r => r.2.trace) =
      some [.mutex_init (.fork 0), .mutex_init (.fork 1), .mutex_init .print,
         .mutex_init .sim_end, .mutex_init .meal_time,
         .message "Error: Malloc failed for philosophers."] := by
  refine ⟨?_, by decide, by decide, by decide, by decide, by decide⟩
  intro env argc argv s s0 s1 x h0 h1 hx
  obtain ⟨hc, hp, he, hm⟩ := init_table_ok_fields argc argv s s0 h0
  obtain ⟨hx01, hun⟩ := init_mutexes_unwinds env s0 s1 x h1 hc hp he hm
  refine ⟨?_, hun hx⟩
  simp [initialize_simulation, h0, h1, hx]

/-! ## Failure of `pthread_create` -/

theorem join_created_trace (i : Nat) :
    ∀ (r j : Nat) (s : Sim),
      (∀ k p, s.table.philos[k]? = some p → p.thread_valid = decide (k < i)) →
      j + r ≤ s.table.philos.length →
      join_created r j s = some { s with trace := s.trace ++
        ((List.range' j r).filter fun k => decide (k < i)).map Event.thread_join } := by
  intro r
  induction r with
  | zero =>
    intro j s _ _
    simp [join_created]
  | succ r ih =>
    intro j s hv hlen
    have hj : j < s.table.philos.length := by omega
    have hp : s.table.philos[j]? = some s.table.philos[j] := List.getElem?_eq_getElem hj
    have hvj := hv j _ hp
    simp only [join_created, hp, hvj]
    by_cases hji : j < i
    · simp only [hji, decide_True, if_true]
      rw [ih (j + 1) (emit (.thread_join j) s) hv (by simpa [emit] using (by omega : j + 1 + r ≤ s.table.philos.length))]
      simp [emit, List.range'_succ, hji]
    · simp only [hji, decide_False, Bool.false_eq_true, if_false]
      rw [ih (j + 1) s hv (by omega)]
      simp [List.range'_succ, hji]

theorem filter_range_lt (i : Nat) :
    ∀ n, i ≤ n → (List.range n).filter (fun k => decide (k < i)) = List.range i := by
  intro n
  induction n with
  | zero =>
    intro h
    have : i = 0 := by omega
    subst this
    rfl
  | succ n ih =>
    intro h
    rw [List.range_succ, List.filter_append]
    by_cases hin : i ≤ n
    · rw [ih hin]
      have : ¬ n < i := by omega
      simp [this]
    · have e : i = n + 1 := by omega
      subst e
      rw [List.range_succ]
      congr 1
      · apply List.filter_eq_self.mpr
        intro k hk
        have := List.mem_range.mp hk
        simp only [decide_eq_true_eq]
        omega
      · simp

theorem join_created_upto (i n : Nat) (s : Sim)
    (hv : ∀ k p, s.table.philos[k]? = some p → p.thread_valid = decide (k < i))
    (hin : i ≤ n) (hlen : n ≤ s.table.philos.length) :
    ∃ s1, join_created n 0 s = some s1 ∧ s1.table = s.table ∧
      s1.trace = s.trace ++ (List.range i).map Event.thread_join ∧
      s1.thread_creates = s.thread_creates := by
  refine ⟨_, join_created_trace i n 0 s hv (by omega), rfl, ?_, rfl⟩
  simp only
  rw [← List.range_eq_range', filter_range_lt i n hin]

theorem set_thread_valid (l : List t_philo) (a a0 a1 : Nat) (q : t_philo)
    (hv : ∀ k p, l[k]? = some p → p.thread_valid = decide (k < a0))
    (hq : q.thread_valid = decide (a < a1))
    (hne : ∀ k, k ≠ a → decide (k < a0) = decide (k < a1)) :
    ∀ k p, (l.set a q)[k]? = some p → p.thread_valid = decide (k < a1) := by
  intro k p hk
  by_cases hka : a = k
  · subst hka
    by_cases hl : a < l.length
    · rw [List.getElem?_set_self hl] at hk
      simp only [Option.some.injEq] at hk
      subst hk
      exact hq
    · rw [List.getElem?_eq_none (by simpa using hl)] at hk
      cases hk
  · rw [List.getElem?_set_ne hka] at hk
    rw [hv k p hk]
    exact hne k (fun h => hka h.symm)

theorem create_philosopher_threads_loop_fails (env : Env) (st : Int) (i : Nat) :
    ∀ (d r a : Nat) (s : Sim), i = a + d → d < r → a + r = s.table.philos.length →
      (∀ k p, s.table.philos[k]? = some p → p.thread_valid = decide (k < a)) →
      (∀ j, j < d → env.pthread_create_ok (s.thread_creates + j) = true) →
      env.pthread_create_ok (s.thread_creates + d) = false →
      ∃ s1, create_philosopher_threads_loop env st r a s = some (1, s1) ∧
        s1.table.simulation_should_end = true ∧
        s1.trace = s.trace ++ (List.range' a d).map Event.thread_create ++
          [.message ("Error: pthread_create failed for philo " ++ toString (i + 1))] ++
          (List.range i).map Event.thread_join ∧
        s1.thread_creates = s.thread_creates + d + 1 ∧
        s1.table.philos.length = s.table.philos.length ∧
        s1.table.num_philos = s.table.num_philos ∧
        (∀ k p, s1.table.philos[k]? = some p → p.thread_valid = decide (k < i)) := by
  intro d
  induction d with
  | zero =>
    intro r a s hi hr hlen hv _ hfail
    obtain ⟨r, rfl⟩ : ∃ n, r = n + 1 := ⟨r - 1, by omega⟩
    have ha : a < s.table.philos.length := by omega
    have hp : s.table.philos[a]? = some s.table.philos[a] := List.getElem?_eq_getElem ha
    simp only [Nat.add_zero] at hi hfail
    subst hi
    have hv2 : ∀ k p,
        (s.table.philos.set i { s.table.philos[i] with last_meal_time := st })[k]? = some p →
        p.thread_valid = decide (k < i) :=
      set_thread_valid _ i i i _ hv
        (show s.table.philos[i].thread_valid = _ from hv i _ hp) (fun _ _ => rfl)
    obtain ⟨s1, hj, htab, htr, htc⟩ := join_created_upto i i
      { emit (.message ("Error: pthread_create failed for philo " ++ toString (i + 1)))
          { set_philo i { s.table.philos[i] with last_meal_time := st } s with
            thread_creates := s.thread_creates + 1 } with
        table := { (set_philo i { s.table.philos[i] with last_meal_time := st } s).table with
          simulation_should_end := true } }
      hv2 (le_refl _) (by simp [set_philo]; omega)
    refine ⟨s1, ?_, ?_, ?_, ?_, ?_, ?_, ?_⟩
    · simp only [create_philosopher_threads_loop, hp]
      split
      · simp only [handle_thread_creation_error]
        erw [hj]
        rfl
      · next hc =>
        exact absurd (show (!env.pthread_create_ok s.thread_creates) = true by simp [hfail]) hc
    · rw [htab]
    · rw [htr]
      simp [emit, set_philo]
    · exact htc.trans rfl
    · rw [htab]
      simp [set_philo]
    · rw [htab]
      rfl
    · rw [htab]
      exact hv2
  | succ d ih =>
    intro r a s hi hr hlen hv hok hfail
    obtain ⟨r, rfl⟩ : ∃ n, r = n + 1 := ⟨r - 1, by omega⟩
    have ha : a < s.table.philos.length := by omega
    have hp : s.table.philos[a]? = some s.table.philos[a] := List.getElem?_eq_getElem ha
    have hok0 : env.pthread_create_ok s.thread_creates = true := by simpa using hok 0 (by omega)
    have hv3 : ∀ k p,
        ((s.table.philos.set a { s.table.philos[a] with last_meal_time := st }).set a
          { s.table.philos[a] with last_meal_time := st, thread_valid := true })[k]? = some p →
        p.thread_valid = decide (k < a + 1) := by
      apply set_thread_valid _ a a (a + 1) _ _ (by simp)
      · intro k hk
        have : (k < a) ↔ (k < a + 1) := by omega
        simp [this]
      · exact set_thread_valid _ a a a _ hv
          (show s.table.philos[a].thread_valid = _ from hv a _ hp) (fun _ _ => rfl)
    obtain ⟨s1, h1, hflag, htr, htc, hlen1, hnum, hval⟩ := ih r (a + 1)
      (set_philo a { s.table.philos[a] with last_meal_time := st, thread_valid := true }
        (emit (.thread_create a)
          { set_philo a { s.table.philos[a] with last_meal_time := st } s with
            thread_creates := s.thread_creates + 1 }))
      (by omega) (by omega) (by simp [set_philo, emit]; omega) hv3
      (by
        intro j hj
        have := hok (j + 1) (by omega)
        have e : s.thread_creates + 1 + j = s.thread_creates + (j + 1) := by omega
        simpa [set_philo, emit, e] using this)
      (by
        have e : s.thread_creates + 1 + d = s.thread_creates + (d + 1) := by omega
        simpa [set_philo, emit, e] using hfail)
    refine ⟨s1, ?_, hflag, ?_, ?_, ?_, ?_, hval⟩
    · simp only [create_philosopher_threads_loop, hp]
      split
      · next hc =>
        exact absurd hc (show ¬ (!env.pthread_create_ok s.thread_creates) = true by simp [hok0])
      · exact h1
    · rw [htr]
      simp [set_philo, emit, List.range'_succ]
    · rw [htc]
      simp [set_philo, emit]
      omega
    · rw [hlen1]
      simp [set_philo, emit]
    · rw [hnum]
      rfl

theorem launch_threads_fails (env : Env) (s : Sim) (i : Nat)
    (hn : s.table.num_philos.toNat = s.table.philos.length) (hi : i < s.table.philos.length)
    (hv : ∀ (k : Nat) (p : t_philo), s.table.philos[k]? = some p → p.thread_valid = false)
    (hok : ∀ j, j < i → env.pthread_create_ok (s.thread_creates + j) = true)
    (hfail : env.pthread_create_ok (s.thread_creates + i) = false) :
    ∃ s1 s2, launch_threads env s = some (1, s1) ∧
      s1.table.simulation_should_end = true ∧
      s1.trace = s.trace ++ (List.range i).map Event.thread_create ++
        [.message ("Error: pthread_create failed for philo " ++ toString (i + 1))] ++
        (List.range i).map Event.thread_join ∧
      s1.thread_creates = s.thread_creates + i + 1 ∧
      join_philosopher_threads s1 = some s2 ∧
      s2.trace = s1.trace ++ (List.range i).map Event.thread_join := by
  obtain ⟨s1, h1, hflag, htr, htc, hlen, hnum, hval⟩ :=
    create_philosopher_threads_loop_fails env (env.clock s.clock_reads) i i
      s.table.philos.length 0
      { (get_time_ms env s).2 with
        table := { (get_time_ms env s).2.table with start_time := env.clock s.clock_reads } }
      (by omega) hi (by simp [get_time_ms])
      (by
        intro k p hk
        rw [hv k p hk]
        simp)
      hok hfail
  have hn1 : s1.table.num_philos.toNat = s.table.philos.length := by
    rw [hnum]; exact hn
  obtain ⟨s2, h2, _, htr2, _⟩ := join_created_upto i s.table.philos.length s1 hval
    (le_of_lt hi) (by rw [hlen]; simp [get_time_ms])
  refine ⟨s1, s2, ?_, hflag, ?_, htc, ?_, htr2⟩
  · simp only [launch_threads, create_philosopher_threads]
    have e : ({ (get_time_ms env s).2 with
        table := { (get_time_ms env s).2.table with
          start_time := (get_time_ms env s).1 } } : Sim).table.num_philos.toNat =
        s.table.philos.length := hn
    rw [e]
    erw [h1]
    simp
  · rw [htr, List.range_eq_range']
    rfl
  · rw [join_philosopher_threads, hn1]
    exact h2

/-- C19. Evaluation of the failure of `pthread_create`. In a table of records
with no thread yet, when the first `i` calls succeed and the next one fails
(so for the philosopher at index `i`), `launch_threads` returns 1 having set
the termination flag, printed "Error: pthread_create failed for philo" with
the id `i + 1`, joined the threads of indices `0 .. i - 1` once each and made
no further `pthread_create` (none for the monitor). But `thread_valid` of
those records stays 1, so the `join_philosopher_threads` of `cleanup` joins
each of them again: on `./philo 2 800 200 200` with the second
`pthread_create` failing, `main` returns 1 having called `pthread_join` twice
on the thread of index 0. -/
theorem spawn_failure_joins_twice :
    (∀ (env : Env) (s : Sim) (i : Nat),
      s.table.num_philos.toNat = s.table.philos.length → i < s.table.philos.length →
      (∀ (k : Nat) (p : t_philo), s.table.philos[k]? = some p → p.thread_valid = false) →
      (∀ j, j < i → env.pthread_create_ok (s.thread_creates + j) = true) →
      env.pthread_create_ok (s.thread_creates + i) = false →
      ∃ s1 s2, launch_threads env s = some (1, s1) ∧
        s1.table.simulation_should_end = true ∧
        s1.trace = s.trace ++ (List.range i).map Event.thread_create ++
          [.message ("Error: pthread_create failed for philo " ++ toString (i + 1))] ++
          (List.range i).map Event.thread_join ∧
        s1.thread_creates = s.thread_creates + i + 1 ∧
        join_philosopher_threads s1 = some s2 ∧
        s2.trace = s1.trace ++ (List.range i).map Event.thread_join) ∧
    (main (Env.create_fails_at 1) 5 ["./philo", "2", "800", "200", "200"]
        (Sim.start (ring_table 0))).map
        (fun r => (r.1, r.2.thread_creates, r.2.trace.count (.thread_join 0))) =
      some (1, 2, 2) ∧
    (main (Env.create_fails_at 1) 5 ["./philo", "2", "800", "200", "200"]
        (Sim.start (ring_table 0))).map (fun r => r.2.trace) =
      some [.mutex_init (.fork 0), .mutex_init (.fork 1), .mutex_init .print,
        .mutex_init .sim_end, .mutex_init .meal_time, .thread_create 0,
        .message "Error: pthread_create failed for philo 2",
        .thread_join 0, .thread_join 0,
        .mutex_destroy (.fork 0), .mutex_destroy (.fork 1), .mutex_destroy .print,
        .mutex_destroy .sim_end, .mutex_destroy .meal_time] := by
  refine ⟨?_, by decide, by decide⟩
  intro env s i hn hi hv hok hfail
  exact launch_threads_fails env s i hn hi hv hok hfail

/-! ## Result of the death check -/

theorem ft_atoi_digits_stop (suffix : List Char) (acc : Int)
    (hsuf : ∀ c, suffix.head? = some c → is_digit c = false) :
    ft_atoi_digits suffix acc = acc := by
  cases suffix with
  | nil => rfl
  | cons c rest =>
    have h := hsuf c rfl
    simp only [is_digit, decide_eq_false_iff_not] at h
    simp only [ft_atoi_digits, h, if_false]

theorem ft_atoi_digits_run :
    ∀ (digits suffix : List Char) (acc : Nat),
      (∀ c ∈ digits, is_digit c = true) →
      (∀ c, suffix.head? = some c → is_digit c = false) →
      acc * 10 ^ digits.length + digits_value digits ≤ 2147483647 →
      ft_atoi_digits (digits ++ suffix) (acc : Int) =
        ((acc * 10 ^ digits.length + digits_value digits : Nat) : Int) := by
  intro digits
  induction digits with
  | nil =>
    intro suffix acc _ hsuf _
    simp [digits_value, ft_atoi_digits_stop suffix _ hsuf]
  | cons c rest ih =>
    intro suffix acc hdig hsuf hval
    have hc := hdig c (List.mem_cons_self _ _)
    simp only [is_digit, decide_eq_true_eq] at hc
    have hpow : 1 ≤ 10 ^ rest.length := Nat.one_le_pow _ _ (by decide)
    simp only [digits_value, List.length_cons, pow_succ] at hval
    have hle : acc * 10 + (c.toNat - 48) ≤
        (acc * 10 + (c.toNat - 48)) * 10 ^ rest.length := Nat.le_mul_of_pos_right _ hpow
    have hexp : (acc * 10 + (c.toNat - 48)) * 10 ^ rest.length + digits_value rest =
        acc * (10 ^ rest.length * 10) + ((c.toNat - 48) * 10 ^ rest.length + digits_value rest) := by
      ring
    have hstep : wrap32 ((acc : Int) * 10 + ((c.toNat : Int) - 48)) =
        ((acc * 10 + (c.toNat - 48) : Nat) : Int) := by
      rw [wrap32_id]
      · push_cast
        omega
      · omega
      · omega
    simp only [List.cons_append, ft_atoi_digits, hc, and_self, if_true, hstep]
    have k := ih suffix (acc * 10 + (c.toNat - 48))
      (fun d hd => hdig d (List.mem_cons_of_mem _ hd)) hsuf (by rw [hexp]; exact hval)
    refine k.trans ?_
    simp only [digits_value, List.length_cons, pow_succ]
    rw [hexp]

theorem dropWhile_leading (p : Char → Bool) :
    ∀ (ws t : List Char), (∀ c ∈ ws, p c = true) → (∀ c, t.head? = some c → p c = false) →
      (ws ++ t).dropWhile p = t := by
  intro ws
  induction ws with
  | nil =>
    intro t _ ht
    cases t with
    | nil => rfl
    | cons c r => simp [List.dropWhile, ht c rfl]
  | cons a ws ih =>
    intro t hws ht
    have ha := hws a (List.mem_cons_self _ _)
    simp only [List.cons_append, List.dropWhile, ha]
    exact ih t (fun c hc => hws c (List.mem_cons_of_mem _ hc)) ht

theorem digit_not_space (c : Char) (h : is_digit c = true) :
    ft_isspace c = false ∧ c ≠ '+' ∧ c ≠ '-' := by
  simp only [is_digit, decide_eq_true_eq] at h
  refine ⟨?_, ?_, ?_⟩
  · simp only [ft_isspace, Bool.or_eq_false_iff, decide_eq_false_iff_not, Bool.and_eq_false_iff,
      decide_eq_false_iff_not]
    constructor
    · intro e
      rw [e] at h
      exact absurd h.1 (by decide)
    · right
      omega
  · intro e
    rw [e] at h
    exact absurd h.1 (by decide)
  · intro e
    rw [e] at h
    exact absurd h.1 (by decide)

theorem ft_atoi_unsigned (rest : List Char)
    (h : ∀ c, rest.head? = some c → ft_isspace c = false ∧ c ≠ '+' ∧ c ≠ '-') :
    ft_atoi rest = wrap32 (ft_atoi_digits rest 0 * 1) := by
  have hd : rest.dropWhile ft_isspace = rest :=
    dropWhile_leading ft_isspace [] rest (fun c hc => by cases hc) (fun c hc => (h c hc).1)
  unfold ft_atoi
  simp only [hd]
  split
  · exact absurd rfl (h '-' rfl).2.2
  · exact absurd rfl (h '+' rfl).2.1
  · rfl

theorem ft_atoi_skip (ws t : List Char) (hws : ∀ c ∈ ws, ft_isspace c = true)
    (ht : ∀ c, t.head? = some c → ft_isspace c = false) :
    ft_atoi (ws ++ t) = ft_atoi t := by
  have h1 := dropWhile_leading ft_isspace ws t hws ht
  have h2 := dropWhile_leading ft_isspace [] t (fun c hc => by cases hc) ht
  simp only [List.nil_append] at h2
  unfold ft_atoi
  simp only [h1, h2]

theorem ft_atoi_value (ws digits suffix : List Char) (sign : Option Char)
    (hws : ∀ c ∈ ws, ft_isspace c = true)
    (hsign : sign = none ∨ sign = some '+' ∨ sign = some '-')
    (hdig : ∀ c ∈ digits, is_digit c = true)
    (hval : digits_value digits ≤ 2147483647)
    (hsuf : ∀ c, suffix.head? = some c → is_digit c = false)
    (hstart : sign = none → digits = [] →
      ∀ c, suffix.head? = some c → ft_isspace c = false ∧ c ≠ '+' ∧ c ≠ '-') :
    ft_atoi (ws ++ (sign_chars sign ++ (digits ++ suffix))) =
      if sign = some '-' then -(digits_value digits : Int) else (digits_value digits : Int) := by
  have hrun : ft_atoi_digits (digits ++ suffix) 0 = (digits_value digits : Int) := by
    have := ft_atoi_digits_run digits suffix 0 hdig hsuf (by simpa using hval)
    simpa using this
  have hv : (digits_value digits : Int) ≤ 2147483647 := by exact_mod_cast hval
  have hv0 : (0 : Int) ≤ (digits_value digits : Int) := Int.ofNat_nonneg _
  rcases hsign with rfl | rfl | rfl
  · have hhead : ∀ c, (digits ++ suffix).head? = some c →
        ft_isspace c = false ∧ c ≠ '+' ∧ c ≠ '-' := by
      intro c hc
      cases digits with
      | nil => exact hstart rfl rfl c hc
      | cons d r =>
        simp only [List.cons_append, List.head?_cons, Option.some.injEq] at hc
        subst hc
        exact digit_not_space d (hdig d (List.mem_cons_self _ _))
    simp only [sign_chars, List.nil_append]
    rw [ft_atoi_skip ws _ hws (fun c hc => (hhead c hc).1), ft_atoi_unsigned _ hhead, hrun,
      mul_one, wrap32_id _ (by omega) hv]
    simp
  · simp only [sign_chars, List.singleton_append]
    rw [ft_atoi_skip ws _ hws (fun c hc => by
      simp only [List.head?_cons, Option.some.injEq] at hc
      subst hc
      decide)]
    have : ft_atoi ('+' :: (digits ++ suffix)) =
        wrap32 (ft_atoi_digits (digits ++ suffix) 0 * 1) := by
      simp [ft_atoi, List.dropWhile, ft_isspace]
    rw [this, hrun, mul_one, wrap32_id _ (by omega) hv]
    simp
  · simp only [sign_chars, List.singleton_append]
    rw [ft_atoi_skip ws _ hws (fun c hc => by
      simp only [List.head?_cons, Option.some.injEq] at hc
      subst hc
      decide)]
    have : ft_atoi ('-' :: (digits ++ suffix)) =
        wrap32 (ft_atoi_digits (digits ++ suffix) 0 * -1) := by
      simp [ft_atoi, List.dropWhile, ft_isspace]
    rw [this, hrun, wrap32_id _ (by omega) (by omega)]
    simp

/-- C22. String to integer. Let a string consist of leading whitespace `ws`
(space or `\t` .. `\r`), an optional sign `+` or `-`, a run of decimal digits
whose value fits in a 32-bit `int`, and a suffix that is empty or starts with
a non-digit; the parts are the ones a reader takes from left to right, so
when neither sign nor digit is present the suffix does not start with a
whitespace or sign character. Then `ft_atoi` returns the value of the digit
run, negated when the sign is `-`; so it returns 0 when the digit run is
empty, and the suffix after the first non-digit has no effect. -/
theorem ft_atoi_spec (ws digits suffix : List Char) (sign : Option Char)
    (hws : ∀ c ∈ ws, ft_isspace c = true)
    (hsign : sign = none ∨ sign = some '+' ∨ sign = some '-')
    (hdig : ∀ c ∈ digits, is_digit c = true)
    (hval : digits_value digits ≤ 2147483647)
    (hsuf : ∀ c, suffix.head? = some c → is_digit c = false)
    (hstart : sign = none → digits = [] →
      ∀ c, suffix.head? = some c → ft_isspace c = false ∧ c ≠ '+' ∧ c ≠ '-') :
    ft_atoi (ws ++ (sign_chars sign ++ (digits ++ suffix))) =
      (if sign = some '-' then -(digits_value digits : Int) else (digits_value digits : Int)) ∧
    (digits = [] → ft_atoi (ws ++ (sign_chars sign ++ (digits ++ suffix))) = 0) := by
  have h := ft_atoi_value ws digits suffix sign hws hsign hdig hval hsuf hstart
  refine ⟨h, fun he => ?_⟩
  rw [h, he]
  simp [digits_value]

/-- Witness of `ft_atoi_spec`: the string `"  -42abc"` gives -42, and
`"2147483647"` gives the largest `int`. -/
theorem ft_atoi_spec_witness :
    ft_atoi "  -42abc".toList = -42 ∧ ft_atoi "2147483647".toList = 2147483647 := by
  have h1 := (ft_atoi_spec [' ', ' '] ['4', '2'] ['a', 'b', 'c'] (some '-') (by decide)
    (by decide) (by decide) (by decide)
    (fun c hc => by
      simp only [List.head?_cons, Option.some.injEq] at hc
      subst hc
      decide)
    (fun h => by cases h)).1
  have h2 := (ft_atoi_spec [] ['2', '1', '4', '7', '4', '8', '3', '6', '4', '7'] [] none
    (by decide) (by decide) (by decide) (by decide)
    (fun c hc => by cases hc)
    (fun _ h => by cases h)).1
  constructor
  · simpa [sign_chars, digits_value] using h1
  · simpa [sign_chars, digits_value] using h2

/-! ## Paired first forks -/

theorem first_fork_ring (env0 env : Env) (s0 s : Sim) (N i : Nat) (hN : 2 ≤ N)
    (hnum : s0.table.num_philos = (N : Int)) (hmalloc : env0.malloc_ok s0.mallocs = true)
    (hs : s.table.philos = (init_philos env0 s0).2.table.philos) (hi : i < N) :
    first_fork env i s = some (ring_first N i) := by
  have hp : s.table.philos[i]? = some (init_philo_record (N : Int) i) := by
    rw [hs]; exact init_philos_get env0 s0 N i hnum hmalloc hi
  have hr : (init_philo_record (N : Int) i).right_fork = some ((i + 1) % N) := by
    rw [init_philo_record_right]; simp; omega
  have ho := lock_order_eq env i s _ _ hp hr
  rw [init_philo_record_id, init_philo_record_left] at ho
  unfold first_fork ring_first
  rw [ho]
  by_cases hpar : i % 2 = 1
  · have : ((i : Int) + 1) % 2 = 0 := by omega
    simp [hpar, this]
  · have : ¬ ((i : Int) + 1) % 2 = 0 := by omega
    simp [hpar, this]

theorem paired_slots (N k : Nat) (hk : k % 2 = 1) (hkN : k < N) :
    ring_first N (k - 1) = k ∧ ring_first N k = k := by
  unfold ring_first
  have h1 : ¬ (k - 1) % 2 = 1 := by omega
  have h2 : k - 1 + 1 = k := by omega
  simp [h1, hk, h2, Nat.mod_eq_of_lt hkN]

theorem filter_length_lt {α : Type} (P : α → Bool) :
    ∀ (l : List α) (a : α), a ∈ l → P a = false → (l.filter P).length < l.length := by
  intro l
  induction l with
  | nil => intro a ha _; cases ha
  | cons b rest ih =>
    intro a ha hP
    have hle : (rest.filter P).length ≤ rest.length := List.length_filter_le _ _
    rcases List.mem_cons.mp ha with rfl | ha
    · simp only [List.filter, hP, List.length_cons]
      omega
    · have := ih a ha hP
      cases hb : P b
      · simp only [List.filter, hb, List.length_cons]
        omega
      · simp only [List.filter, hb, List.length_cons]
        omega

theorem holds_first_fork_iff (env0 : Env) (s0 : Sim) (N i : Nat) (hN : 2 ≤ N)
    (hnum : s0.table.num_philos = (N : Int)) (hmalloc : env0.malloc_ok s0.mallocs = true)
    (hi : i < N) (st : Ring) :
    holds_first_fork (init_philos env0 s0).2.table st i = true ↔
      st.owner (ring_first N i) = some i := by
  unfold holds_first_fork
  rw [first_fork_ring env0 Env.quiet s0 (Sim.start (init_philos env0 s0).2.table) N i hN hnum
    hmalloc rfl hi]
  simp

theorem not_both_first (env0 : Env) (s0 : Sim) (N k : Nat) (hN : 2 ≤ N)
    (hnum : s0.table.num_philos = (N : Int)) (hmalloc : env0.malloc_ok s0.mallocs = true)
    (hk : k % 2 = 1) (hkN : k < N) (st : Ring) :
    ¬ (holds_first_fork (init_philos env0 s0).2.table st (k - 1) = true ∧
      holds_first_fork (init_philos env0 s0).2.table st k = true) := by
  rintro ⟨h1, h2⟩
  rw [holds_first_fork_iff env0 s0 N (k - 1) hN hnum hmalloc (by omega)] at h1
  rw [holds_first_fork_iff env0 s0 N k hN hnum hmalloc hkN] at h2
  obtain ⟨e1, e2⟩ := paired_slots N k hk hkN
  rw [e1] at h1
  rw [e2, h1] at h2
  simp only [Option.some.injEq] at h2
  omega

/-- C23 as amended. Paired first forks: in a ring of `N ≥ 2` wired by
`init_philos`, for every odd id `k < N` the slot that the philosopher with id
`k` (index `k - 1`) locks first in `take_forks` is its right fork, the slot
that the philosopher with id `k + 1` (index `k`) locks first is its left
fork, and both are slot `k`. A mutex having one owner at most, in no state of
the fork mutexes do both of them hold their first fork, and at most `N - 1`
philosophers hold their first fork at the same time. -/
theorem paired_first_forks (env0 env : Env) (s0 s : Sim) (N : Nat) (hN : 2 ≤ N)
    (hnum : s0.table.num_philos = (N : Int)) (hmalloc : env0.malloc_ok s0.mallocs = true)
    (hs : s.table.philos = (init_philos env0 s0).2.table.philos) :
    (∀ k, k % 2 = 1 → k < N →
      ∃ p q, s.table.philos[k - 1]? = some p ∧ s.table.philos[k]? = some q ∧
        p.id = (k : Int) ∧ q.id = (k : Int) + 1 ∧
        first_fork env (k - 1) s = some k ∧ p.right_fork = some k ∧
        first_fork env k s = some k ∧ q.left_fork = k) ∧
    (∀ (st : Ring) (k : Nat), k % 2 = 1 → k < N →
      ¬ (holds_first_fork (init_philos env0 s0).2.table st (k - 1) = true ∧
        holds_first_fork (init_philos env0 s0).2.table st k = true)) ∧
    (∀ (sched : List Nat),
      count_philos N (holds_first_fork (init_philos env0 s0).2.table
        (ring_run (init_philos env0 s0).2.table sched Ring.init)) ≤ N - 1) ∧
    (∀ st : Ring, count_philos N (holds_first_fork (init_philos env0 s0).2.table st) ≤ N - 1) := by
  have hcount : ∀ st : Ring,
      count_philos N (holds_first_fork (init_philos env0 s0).2.table st) ≤ N - 1 := by
    intro st
    have hnb := not_both_first env0 s0 N 1 hN hnum hmalloc (by decide) (by omega) st
    have hlen : (List.range N).length = N := List.length_range N
    unfold count_philos
    cases h0 : holds_first_fork (init_philos env0 s0).2.table st 0 with
    | false =>
      have := filter_length_lt (holds_first_fork (init_philos env0 s0).2.table st)
        (List.range N) 0 (List.mem_range.mpr (by omega)) h0
      omega
    | true =>
      cases h1 : holds_first_fork (init_philos env0 s0).2.table st 1 with
      | false =>
        have := filter_length_lt (holds_first_fork (init_philos env0 s0).2.table st)
          (List.range N) 1 (List.mem_range.mpr (by omega)) h1
        omega
      | true => exact absurd ⟨h0, h1⟩ hnb
  refine ⟨?_, fun st k hk hkN => not_both_first env0 s0 N k hN hnum hmalloc hk hkN st,
    fun sched => hcount _, hcount⟩
  intro k hk hkN
  obtain ⟨e1, e2⟩ := paired_slots N k hk hkN
  have hp : s.table.philos[k - 1]? = some (init_philo_record (N : Int) (k - 1)) := by
    rw [hs]; exact init_philos_get env0 s0 N (k - 1) hnum hmalloc (by omega)
  have hq : s.table.philos[k]? = some (init_philo_record (N : Int) k) := by
    rw [hs]; exact init_philos_get env0 s0 N k hnum hmalloc hkN
  refine ⟨_, _, hp, hq, ?_, ?_, ?_, ?_, ?_, ?_⟩
  · rw [init_philo_record_id]
    omega
  · rw [init_philo_record_id]
  · rw [first_fork_ring env0 env s0 s N (k - 1) hN hnum hmalloc hs (by omega), e1]
  · rw [init_philo_record_right]
    have hN1 : ¬ N = 1 := by omega
    have e : k - 1 + 1 = k := by omega
    simp [hN1, e, Nat.mod_eq_of_lt hkN]
  · rw [first_fork_ring env0 env s0 s N k hN hnum hmalloc hs hkN, e2]
  · rw [init_philo_record_left]

/-- Witness of `paired_first_forks`: in a ring of four, the philosophers with
ids 3 and 4 both lock slot 3 first, and after the schedule 0, 1, 2, 3 at most
three philosophers hold their first fork. -/
theorem paired_first_forks_witness :
    (first_fork Env.quiet 2 (Sim.start (ring_table 4)) = some 3 ∧
      first_fork Env.quiet 3 (Sim.start (ring_table 4)) = some 3) ∧
    count_philos 4 (holds_first_fork (init_philos Env.quiet (Sim.start (ring_table 4))).2.table
      (ring_run (init_philos Env.quiet (Sim.start (ring_table 4))).2.table [0, 1, 2, 3]
        Ring.init)) ≤ 4 - 1 := by
  have h := paired_first_forks Env.quiet Env.quiet (Sim.start (ring_table 4))
    (Sim.start (ring_table 4)) 4 (by decide) (by decide) (by decide) (by decide)
  obtain ⟨p, q, _, _, _, _, h1, _, h2, _⟩ := h.1 3 (by decide) (by decide)
  exact ⟨⟨h1, h2⟩, h.2.2.1 [0, 1, 2, 3]⟩

/-- Counterexample to C23 as stated, in a ring of two: the philosopher with
id 1 locks both forks and unlocks its right fork (slot 1), as `drop_forks`
does first; the philosopher with id 2 then locks slot 1, its first fork. Both
philosophers now hold exactly one fork, which is more than `N - 1 = 1`. -/
theorem both_hold_exactly_one :
    (ring_run (ring_table 2) [0, 0, 0, 1] Ring.init).owner 0 = some 0 ∧
    (ring_run (ring_table 2) [0, 0, 0, 1] Ring.init).owner 1 = some 1 ∧
    (ring_run (ring_table 2) [0, 0, 0, 1] Ring.init).pc 0 = 3 ∧
    (ring_run (ring_table 2) [0, 0, 0, 1] Ring.init).pc 1 = 1 ∧
    holds_exactly_one 2 (ring_run (ring_table 2) [0, 0, 0, 1] Ring.init) 0 = true ∧
    holds_exactly_one 2 (ring_run (ring_table 2) [0, 0, 0, 1] Ring.init) 1 = true ∧
    count_philos 2 (holds_exactly_one 2 (ring_run (ring_table 2) [0, 0, 0, 1] Ring.init)) = 2 := by
  decide

end Philo
